import Mathlib

/-! A limit-order book: shallow embedding of `include/OrderBook.hpp`

The C++ class `OrderBook` keeps

* `id_generator : uint64_t`,
* `masterbook : unordered_map<uint64_t, Order>` (the owning index),
* `askbook : map<double, list<Order*>, less>` and
  `bidbook : map<double, list<Order*>, greater>` (the price levels).

Modelling decisions.

* `uint64_t` values are natural numbers.  The only arithmetic on volumes is a
  guarded subtraction, which cannot wrap; `id_generator++` can wrap and is
  taken modulo `2^64`.
* A price is an `Int` in the main part of the file.  The code only compares
  prices and multiplies them by `1` or `-1`; every finite `double` is an
  integer multiple of `2^-1074`, and the two infinities can be placed above
  and below all of them, so the doubles other than NaN, with their order and
  negation, embed in `Int`.  NaN does not: every comparison with NaN is false.
  The section `IEEE` repeats the code with a price type that has NaN, proves
  that the two agree on the other prices (`IEEE.add_of`, `IEEE.remove_of`,
  `IEEE.modify_volume_of`, `IEEE.market_order_of`, `IEEE.reachableNum_iff`),
  and evaluates the code on NaN.  So `Reachable` below is reachability by
  calls whose prices are not NaN.
* `unordered_map` is an association list (`find`, `emplace`, `erase` by key);
  a new entry goes to the end of the list.
* `std::map` is an association list whose keys are kept in comparator order:
  `begin()` is the head, `emplace` inserts at the comparator position.
* An `Order*` stored in a queue is the key of the pointee in `masterbook`
  (nodes of an `unordered_map` never move).  The field `iter` of an order is
  assigned once, from the queue node that holds the pointer to that very
  order, so erasing at `iter` erases the order's id from the queue.
* Loops take a fuel argument.  A run that dereferences a pointer to an
  erased order or calls `front()` on an empty list has no defined result,
  and a run that exhausts its fuel has not terminated; both are faults.
-/

namespace LOB

/-- Ways in which a call fails to produce a result. -/
inductive Fault where
  /-- `std::invalid_argument` thrown by the constructor of `Order` -/
  | invalid_argument
  /-- a dangling `Order*` is dereferenced or `front()` is called on an empty list -/
  | undefined_behaviour
  /-- the loop has not finished within its fuel -/
  | out_of_fuel
deriving DecidableEq, Repr

/-- Result of a call: a value or a fault. -/
inductive Res (α : Type) where
  | ok (a : α)
  | fault (f : Fault)
deriving DecidableEq, Repr

/-- The `struct Order` (without `iter`, see the header of the file). -/
structure Order where
  id : Nat
  price : Int
  volume : Nat
  is_buy : Bool
  is_valid : Bool
deriving DecidableEq, Repr

/-- The constructor `Order::Order(id_, price_, volume_, is_buy_)`. -/
def Order.ctor (id_ : Nat) (price_ : Int) (volume_ : Nat) (is_buy_ : Bool) : Res Order :=
  if price_ ≤ 0 then .fault .invalid_argument
  else if volume_ ≤ 0 then .fault .invalid_argument
  else .ok { id := id_, price := price_, volume := volume_, is_buy := is_buy_, is_valid := false }

/-- The method `Order::set_iterator`. -/
def Order.set_iterator (o : Order) : Order := { o with is_valid := true }

/-- The call `m.find(key)` of `std::map` and `std::unordered_map`: the mapped
value, or `none` for `m.end()`. -/
def Map.find {κ ν : Type} [DecidableEq κ] : List (κ × ν) → κ → Option ν
  | [], _ => none
  | (k, v) :: rest, key => if k = key then some v else Map.find rest key

/-- The call `m.erase(it)` where `it` is the entry with key `key`. -/
def Map.erase {κ ν : Type} [DecidableEq κ] : List (κ × ν) → κ → List (κ × ν)
  | [], _ => []
  | (k, v) :: rest, key => if k = key then rest else (k, v) :: Map.erase rest key

/-- A write through a reference, pointer or iterator to the value mapped to
`key`: the value `v` becomes `f v`. -/
def Map.modify {κ ν : Type} [DecidableEq κ] : List (κ × ν) → κ → (ν → ν) → List (κ × ν)
  | [], _, _ => []
  | (k, v) :: rest, key, f =>
    if k = key then (k, f v) :: rest else (k, v) :: Map.modify rest key f

/-- The type `std::unordered_map<uint64_t, Order>`. -/
abbrev MasterBook := List (Nat × Order)

/-- The call `masterbook.emplace(id, o)`: the new map and the flag `inserted`. -/
def MasterBook.emplace (m : MasterBook) (id : Nat) (o : Order) : MasterBook × Bool :=
  match Map.find m id with
  | some _ => (m, false)
  | none => (m ++ [(id, o)], true)

/-- The type `std::map<double, std::list<Order*>, Compare>`. -/
abbrev Book := List (Int × List Nat)

/-- The call `book.emplace(price, {})`: a level with an empty queue is
inserted at its comparator position unless the key is already there.
`comp` is `std::less` for `askbook` and `std::greater` for `bidbook`. -/
def Book.emplace (comp : Int → Int → Bool) : Book → Int → Book
  | [], price => [(price, [])]
  | (p, q) :: rest, price =>
    if comp price p then (price, []) :: (p, q) :: rest
    else if comp p price then (p, q) :: Book.emplace comp rest price
    else (p, q) :: rest

/-- The private data members of `class OrderBook`. -/
structure OrderBook where
  id_generator : Nat
  masterbook : MasterBook
  askbook : Book
  bidbook : Book
deriving DecidableEq, Repr

/-- The constructor `OrderBook::OrderBook()`. -/
def OrderBook.empty : OrderBook :=
  { id_generator := 1, masterbook := [], askbook := [], bidbook := [] }

/-- The `Book&` argument of the private templates: which member it is bound to. -/
inductive BookRef where
  | askbook
  | bidbook
deriving DecidableEq, Repr

/-- Read the member a `Book&` refers to. -/
def OrderBook.book (b : OrderBook) : BookRef → Book
  | .askbook => b.askbook
  | .bidbook => b.bidbook

/-- Comparator of the member a `Book&` refers to. -/
def BookRef.comp : BookRef → Int → Int → Bool
  | .askbook => fun x y => decide (x < y)
  | .bidbook => fun x y => decide (x > y)

/-- Write the member a `Book&` refers to. -/
def OrderBook.setBook (b : OrderBook) (r : BookRef) (bk : Book) : OrderBook :=
  match r with
  | .askbook => { b with askbook := bk }
  | .bidbook => { b with bidbook := bk }

/-- The template `remove_from_book(book, ord)`: the new book and the order as
it is left behind (`is_valid` cleared unless the price is not a key). -/
def remove_from_book (book : Book) (ord : Order) : Book × Order :=
  let price := ord.price
  match Map.find book price with
  | none => (book, ord) -- nothing to do
  | some lvl_list =>
    let ord := { ord with is_valid := false }
    let lvl_list := lvl_list.erase ord.id
    if lvl_list.isEmpty then (Map.erase book price, ord)
    else (Map.modify book price (fun _ => lvl_list), ord)

/-- The method `OrderBook::remove(id)`. -/
def remove (b : OrderBook) (id : Nat) : Bool × OrderBook :=
  match Map.find b.masterbook id with
  | none => (false, b)
  | some ord =>
    if !ord.is_valid then
      -- not in book (maybe already removed)
      (true, { b with masterbook := Map.erase b.masterbook id })
    else
      -- remove from correct book
      let b :=
        if ord.is_buy then { b with bidbook := (remove_from_book b.bidbook ord).1 }
        else { b with askbook := (remove_from_book b.askbook ord).1 }
      -- erase from masterbook
      (true, { b with masterbook := Map.erase b.masterbook id })

/-- The method `OrderBook::modify_volume(id, new_volm)`. -/
def modify_volume (b : OrderBook) (id : Nat) (new_volm : Nat) : Bool × OrderBook :=
  match Map.find b.masterbook id with
  | none => (false, b)
  | some _ =>
    if new_volm = 0 then remove b id
    else
      let upd : Order → Order := fun o => { o with volume := new_volm }
      (true, { b with masterbook := Map.modify b.masterbook id upd })

/-- The inner loop of `match`, `while (order_volume > 0 && !lvl_list.empty())`,
where `lvl_list` is the queue of the level `best_price` of `book`.
The result is `(true, 0, _)` after `return 0` and `(false, order_volume, _)`
when the loop is left by its condition or by `break`. -/
def match_level (book : BookRef) (best_price : Int) :
    Nat → OrderBook → Nat → Res (Bool × Nat × OrderBook)
  | 0, _, _ => .fault .out_of_fuel
  | fuel + 1, b, order_volume =>
    match Map.find (b.book book) best_price with
    | none => .fault .undefined_behaviour
    | some lvl_list =>
      if order_volume > 0 ∧ ¬ lvl_list.isEmpty then
        match lvl_list.head? with
        | none => .fault .undefined_behaviour
        | some front =>
          match Map.find b.masterbook front with
          | none => .fault .undefined_behaviour
          | some matched_order =>
            if matched_order.volume ≤ order_volume then
              let order_volume := order_volume - matched_order.volume
              let need_new_price := decide (lvl_list.length = 1)
              let b := (remove b matched_order.id).2
              if need_new_price then .ok (false, order_volume, b)
              else match_level book best_price fuel b order_volume
            else
              let dec : Order → Order := fun o => { o with volume := o.volume - order_volume }
              let b := { b with masterbook := Map.modify b.masterbook front dec }
              .ok (true, 0, b)
      else .ok (false, order_volume, b)

/-- The outer loop of `match`, `while (order_volume > 0 && !book.empty())`,
followed by `return order_volume`. -/
def match_loop (book : BookRef) (order_price : Int) (multiplier : Int) :
    Nat → OrderBook → Nat → Res (Nat × OrderBook)
  | 0, _, _ => .fault .out_of_fuel
  | fuel + 1, b, order_volume =>
    if order_volume > 0 ∧ ¬ (b.book book).isEmpty then
      match (b.book book).head? with
      | none => .fault .undefined_behaviour
      | some best_it =>
        let best_price := best_it.1
        if ¬ (best_price * multiplier ≤ order_price * multiplier) then .ok (order_volume, b)
        else
          match match_level book best_price (fuel + 1) b order_volume with
          | .fault f => .fault f
          | .ok (true, r, b) => .ok (r, b)
          | .ok (false, order_volume, b) =>
            match_loop book order_price multiplier fuel b order_volume
    else .ok (order_volume, b)

/-- The template `match(book, order_price, order_volume, is_buy_order)`;
the name is primed because `match` is a keyword. -/
def match' (b : OrderBook) (book : BookRef) (order_price : Int) (order_volume : Nat)
    (is_buy_order : Bool) : Res (Nat × OrderBook) :=
  if (b.book book).isEmpty then .ok (order_volume, b)
  else
    let multiplier : Int := if is_buy_order then 1 else -1
    match_loop book order_price multiplier (b.masterbook.length + 1) b order_volume

/-- The template `get_price_linked_list(book, price)`: the book after
`emplace`; the returned reference is the queue of the level `price`. -/
def get_price_linked_list (comp : Int → Int → Bool) (book : Book) (price : Int) : Book :=
  Book.emplace comp book price

/-- The inner loop of `market_consume`, `while (volume_ > 0)`, where
`best_lvl` is the queue of the level `best_price` of `book`. -/
def market_consume_level (book : BookRef) (best_price : Int) :
    Nat → OrderBook → Nat → Res (Bool × Nat × OrderBook)
  | 0, _, _ => .fault .out_of_fuel
  | fuel + 1, b, volume_ =>
    match Map.find (b.book book) best_price with
    | none => .fault .undefined_behaviour
    | some best_lvl =>
      if volume_ > 0 then
        match best_lvl.head? with
        | none => .fault .undefined_behaviour
        | some front =>
          match Map.find b.masterbook front with
          | none => .fault .undefined_behaviour
          | some o =>
            if o.volume ≤ volume_ then
              let volume_ := volume_ - o.volume
              let lvl_empty := decide (best_lvl.length = 1)
              let b := (remove b o.id).2
              if lvl_empty then .ok (false, volume_, b)
              else market_consume_level book best_price fuel b volume_
            else
              let dec : Order → Order := fun o => { o with volume := o.volume - volume_ }
              let b := { b with masterbook := Map.modify b.masterbook front dec }
              .ok (true, 0, b)
      else .ok (false, volume_, b)

/-- The outer loop of `market_consume`, `while (volume_ > 0 && !book.empty())`,
followed by `return volume_`. -/
def market_consume_loop (book : BookRef) : Nat → OrderBook → Nat → Res (Nat × OrderBook)
  | 0, _, _ => .fault .out_of_fuel
  | fuel + 1, b, volume_ =>
    if volume_ > 0 ∧ ¬ (b.book book).isEmpty then
      match (b.book book).head? with
      | none => .fault .undefined_behaviour
      | some best_it =>
        match market_consume_level book best_it.1 (fuel + 1) b volume_ with
        | .fault f => .fault f
        | .ok (true, r, b) => .ok (r, b)
        | .ok (false, volume_, b) => market_consume_loop book fuel b volume_
    else .ok (volume_, b)

/-- The template `market_consume(book, volume_)`. -/
def market_consume (b : OrderBook) (book : BookRef) (volume_ : Nat) : Res (Nat × OrderBook) :=
  market_consume_loop book (b.masterbook.length + 1) b volume_

/-- The method `OrderBook::add(price_, volume_, is_buy_)`. -/
def add (b : OrderBook) (price_ : Int) (volume_ : Nat) (is_buy_ : Bool) :
    Res (Nat × OrderBook) :=
  if price_ ≤ 0 then .ok (0, b)
  else
    -- attempts matching and gets updated volume
    match (if is_buy_ then match' b .askbook price_ volume_ is_buy_
           else match' b .bidbook price_ volume_ is_buy_) with
    | .fault f => .fault f
    | .ok (volume_, b) =>
      if volume_ = 0 then .ok (0, b)
      else
        -- if not completely matched
        let id_ := b.id_generator
        let b := { b with id_generator := (b.id_generator + 1) % 2 ^ 64 }
        match Order.ctor id_ price_ volume_ is_buy_ with
        | .fault f => .fault f
        | .ok ord =>
          match MasterBook.emplace b.masterbook id_ ord with
          | (_, false) => .ok (0, b)
          | (mb, true) =>
            let b := { b with masterbook := mb }
            let r : BookRef := if is_buy_ then .bidbook else .askbook
            let bk := get_price_linked_list r.comp (b.book r) price_
            let ll := ((Map.find bk price_).getD []) ++ [id_]
            let b := b.setBook r (Map.modify bk price_ (fun _ => ll))
            let b := { b with masterbook := Map.modify b.masterbook id_ Order.set_iterator }
            .ok (id_, b)

/-- The method `OrderBook::market_order(is_buy, volume_)`. -/
def market_order (b : OrderBook) (is_buy : Bool) (volume_ : Nat) : Res (Nat × OrderBook) :=
  if volume_ = 0 then .ok (0, b)
  else if is_buy then market_consume b .askbook volume_ else market_consume b .bidbook volume_

/-! ## Notions used to state the properties -/

/-- The side (`is_buy`) of the orders that rest in a book. -/
def BookRef.side : BookRef → Bool
  | .askbook => false
  | .bidbook => true

/-- The book in which an order of side `is_buy` rests. -/
def BookRef.own (is_buy : Bool) : BookRef := if is_buy then .bidbook else .askbook

/-- The book against which an order of side `is_buy` is matched. -/
def BookRef.against (is_buy : Bool) : BookRef := if is_buy then .askbook else .bidbook

/-- The queue entries of a book in priority order: levels from `begin()`
onwards, each queue from front to back. -/
def Book.ids (bk : Book) : List Nat := (bk.map Prod.snd).flatten

/-- The resting orders of one side in priority order, read through the
pointers stored in the queues. -/
def OrderBook.resting (b : OrderBook) (r : BookRef) : List Order :=
  (Book.ids (b.book r)).filterMap (Map.find b.masterbook)

/-- Total volume of a list of orders. -/
def totalVolume (l : List Order) : Nat := (l.map Order.volume).sum

/-- Consistency of index and books. -/
structure WF (b : OrderBook) : Prop where
  /-- the keys of `masterbook` are distinct -/
  keys_nodup : (b.masterbook.map Prod.fst).Nodup
  /-- an indexed order carries its key, is valid, has positive price and volume and
  sits in the queue of its price on its side -/
  entry : ∀ k o, Map.find b.masterbook k = some o →
    o.id = k ∧ o.is_valid = true ∧ 0 < o.volume ∧ 0 < o.price ∧
      ∃ q, Map.find (b.book (BookRef.own o.is_buy)) o.price = some q ∧ k ∈ q
  /-- the levels of a book are in comparator order -/
  sorted : ∀ r : BookRef, (b.book r).Pairwise (fun x y => r.comp x.1 y.1 = true)
  /-- a queue is not empty and its entries point to indexed orders of that
  price and side -/
  level : ∀ (r : BookRef) p q, (p, q) ∈ b.book r → q ≠ [] ∧
    ∀ i ∈ q, ∃ o, Map.find b.masterbook i = some o ∧ o.price = p ∧ o.is_buy = r.side
  /-- no id occurs twice in the queues of a book -/
  ids_nodup : ∀ r : BookRef, (Book.ids (b.book r)).Nodup

/-- States reachable from the empty book by the public operations. -/
inductive Reachable : OrderBook → Prop where
  | empty : Reachable OrderBook.empty
  | add {b b' : OrderBook} {ret : Nat} (price_ : Int) (volume_ : Nat) (is_buy_ : Bool) :
      Reachable b → add b price_ volume_ is_buy_ = .ok (ret, b') → Reachable b'
  | remove {b : OrderBook} (id : Nat) : Reachable b → Reachable (remove b id).2
  | modify_volume {b : OrderBook} (id new_volm : Nat) :
      Reachable b → Reachable (modify_volume b id new_volm).2
  | market_order {b b' : OrderBook} {ret : Nat} (is_buy : Bool) (volume_ : Nat) :
      Reachable b → market_order b is_buy volume_ = .ok (ret, b') → Reachable b'

/-- What a run of `match` or `market_consume` on the book `r` leaves alone:
the id generator, the other book, the orders of the other side; and it adds
no index entry and no price level. -/
structure Frame (b b' : OrderBook) (r : BookRef) : Prop where
  id_generator : b'.id_generator = b.id_generator
  other : ∀ r', r' ≠ r → b'.book r' = b.book r'
  kept : ∀ k o, Map.find b.masterbook k = some o → o.is_buy ≠ r.side →
    Map.find b'.masterbook k = some o
  index : ∀ k, Map.find b.masterbook k = none → Map.find b'.masterbook k = none
  levels : ∀ p q', (p, q') ∈ b'.book r → ∃ q, (p, q) ∈ b.book r
  length : b'.masterbook.length ≤ b.masterbook.length

/-- What `match` and `market_consume` do to the priority list of the consumed
side: orders are taken from the front while volume remains and the price
is acceptable; the last one may be taken in part. -/
def consume (crosses : Int → Bool) : List Order → Nat → List Order × Nat
  | [], v => ([], v)
  | o :: rest, v =>
    if v = 0 then (o :: rest, 0)
    else if crosses o.price = false then (o :: rest, v)
    else if o.volume ≤ v then consume crosses rest (v - o.volume)
    else ({ o with volume := o.volume - v } :: rest, 0)

/-- The crossing predicate: a buy at `order_price` accepts a resting price
`best_price <= order_price`, a sell accepts `best_price >= order_price`. -/
def crosses (is_buy : Bool) (order_price : Int) (best_price : Int) : Bool :=
  if is_buy then decide (best_price ≤ order_price) else decide (best_price ≥ order_price)

/-- The effect of `remove_from_book` on a book, as one recursion. -/
def Book.unlink : Book → Int → Nat → Book
  | [], _, _ => []
  | (p, q) :: rest, price, id =>
    if p = price then (if (q.erase id).isEmpty then rest else (p, q.erase id) :: rest)
    else (p, q) :: Book.unlink rest price id

/-- The effect on a book of `get_price_linked_list` followed by
`ll.insert(ll.end(), _)`, as one recursion. -/
def Book.push (comp : Int → Int → Bool) : Book → Int → Nat → Book
  | [], price, id => [(price, [id])]
  | (p, q) :: rest, price, id =>
    if comp price p then (price, [id]) :: (p, q) :: rest
    else if comp p price then (p, q) :: Book.push comp rest price id
    else (p, q ++ [id]) :: rest

/-- The state after the registration part of `add` (from `id_generator++`
to `set_iterator`) for an order that rests, as one expression. -/
def OrderBook.register (b : OrderBook) (price_ : Int) (volume_ : Nat) (is_buy_ : Bool) :
    OrderBook :=
  let id_ := b.id_generator
  let o : Order :=
    { id := id_, price := price_, volume := volume_, is_buy := is_buy_, is_valid := true }
  let r := BookRef.own is_buy_
  OrderBook.setBook
    { b with id_generator := (b.id_generator + 1) % 2 ^ 64, masterbook := b.masterbook ++ [(id_, o)] }
    r (Book.push r.comp (b.book r) price_ id_)

/-! ## Example states -/

/-- The book after `add(100, 5, sell)` and `add(101, 5, sell)`. -/
def exAsks : OrderBook :=
  { id_generator := 3
    masterbook := [(1, ⟨1, 100, 5, false, true⟩), (2, ⟨2, 101, 5, false, true⟩)]
    askbook := [(100, [1]), (101, [2])]
    bidbook := [] }

/-- The book after `add(100, 5, buy)` and `add(101, 7, buy)`. -/
def exBids : OrderBook :=
  { id_generator := 3
    masterbook := [(1, ⟨1, 100, 5, true, true⟩), (2, ⟨2, 101, 7, true, true⟩)]
    askbook := []
    bidbook := [(101, [2]), (100, [1])] }

/-! ## The properties -/

/-- Index and books agree: the keys of `masterbook` are distinct; an indexed
order is valid, its id occurs exactly once among all queue entries of both
books, and that occurrence is in the queue keyed by its price in `bidbook` if
`is_buy` and in `askbook` otherwise; every queue entry is a key of
`masterbook`. -/
def IndexBookConsistent (b : OrderBook) : Prop :=
  (b.masterbook.map Prod.fst).Nodup ∧
  (∀ id o, Map.find b.masterbook id = some o →
    o.is_valid = true ∧
    (Book.ids b.bidbook ++ Book.ids b.askbook).count id = 1 ∧
    ∃ q, Map.find (if o.is_buy then b.bidbook else b.askbook) o.price = some q ∧
      q.count id = 1) ∧
  (∀ p q, (p, q) ∈ b.bidbook ∨ (p, q) ∈ b.askbook →
    ∀ i ∈ q, ∃ o, Map.find b.masterbook i = some o)

/-- No empty price level: a price is a key of a book iff its queue (empty
when the key is absent) is not empty, and iff an order of that price rests on
that side. -/
def NoEmptyLevel (b : OrderBook) : Prop :=
  ∀ (r : BookRef) (p : Int),
    ((Map.find (b.book r) p).isSome ↔ (Map.find (b.book r) p).getD [] ≠ []) ∧
    ((Map.find (b.book r) p).isSome ↔ ∃ o ∈ b.resting r, o.price = p)

/-- Every indexed order and every order a queue entry points to has a
positive volume. -/
def PositiveVolumes (b : OrderBook) : Prop :=
  (∀ id o, Map.find b.masterbook id = some o → 0 < o.volume) ∧
  (∀ (r : BookRef) p q, (p, q) ∈ b.book r →
    ∀ i ∈ q, ∃ o, Map.find b.masterbook i = some o ∧ 0 < o.volume)

/-- The orders affected form a prefix of the priority list `L`: `L'` is `L`
without its first `k` orders, or `L` without its first `k` orders and with
the next order, same record otherwise, reduced to a smaller volume that is
still positive. -/
def PrefixConsumed (L L' : List Order) : Prop :=
  ∃ k, L' = L.drop k ∨
    ∃ o rest w, L.drop k = o :: rest ∧ 0 < w ∧ w < o.volume ∧
      L' = { o with volume := w } :: rest

/-- Price-time priority of a run that takes `b` to `b'` and consumes the
book `r`: the priority list changes by `PrefixConsumed`, and the order that
heads the list afterwards is the front entry of the queue of the first
level. -/
def PriorityKept (b b' : OrderBook) (r : BookRef) : Prop :=
  PrefixConsumed (b.resting r) (b'.resting r) ∧
  ∀ o tl, b'.resting r = o :: tl → ∃ q lv, b'.book r = (o.price, o.id :: q) :: lv

/-- The call `add(price_, volume_, is_buy_)` in state `b` creates a resting
order: the price is positive, `match` returns a non-zero residual and the id
drawn from `id_generator` is not yet a key of `masterbook`. -/
def add_rests (b : OrderBook) (price_ : Int) (volume_ : Nat) (is_buy_ : Bool) : Bool :=
  decide (0 < price_) &&
    match match' b (BookRef.against is_buy_) price_ volume_ is_buy_ with
    | .ok (r, b1) => decide (r ≠ 0) && (Map.find b1.masterbook b1.id_generator).isNone
    | .fault _ => false

/-- Runs from the empty book: `Run n rets b` says that `b` is reached by a
sequence of public operations in which `n` resting orders were created and
whose calls of `add` returned the non-zero values `rets`, oldest first. -/
inductive Run : Nat → List Nat → OrderBook → Prop where
  | empty : Run 0 [] OrderBook.empty
  | add {n : Nat} {rets : List Nat} {b b' : OrderBook} {ret : Nat}
      (price_ : Int) (volume_ : Nat) (is_buy_ : Bool) :
      Run n rets b → add b price_ volume_ is_buy_ = .ok (ret, b') →
      Run (if add_rests b price_ volume_ is_buy_ = true then n + 1 else n)
        (if ret = 0 then rets else rets ++ [ret]) b'
  | remove {n : Nat} {rets : List Nat} {b : OrderBook} (id : Nat) :
      Run n rets b → Run n rets (remove b id).2
  | modify_volume {n : Nat} {rets : List Nat} {b : OrderBook} (id new_volm : Nat) :
      Run n rets b → Run n rets (modify_volume b id new_volm).2
  | market_order {n : Nat} {rets : List Nat} {b b' : OrderBook} {ret : Nat}
      (is_buy : Bool) (volume_ : Nat) :
      Run n rets b → market_order b is_buy volume_ = .ok (ret, b') → Run n rets b'

/-- The empty book whose `id_generator` has the value `g`. -/
def exIdle (g : Nat) : OrderBook :=
  { id_generator := g, masterbook := [], askbook := [], bidbook := [] }

/-- One bid of volume 1 at price 1 under the id `k`, and `id_generator = g`. -/
def exOneBid (k g : Nat) : OrderBook :=
  { id_generator := g
    masterbook := [(k, ⟨k, 1, 1, true, true⟩)]
    askbook := []
    bidbook := [(1, [k])] }

/-- The book after `add(100, 5, sell)` and `add(99, 5, buy)`. -/
def exBoth : OrderBook :=
  { id_generator := 3
    masterbook := [(1, ⟨1, 100, 5, false, true⟩), (2, ⟨2, 99, 5, true, true⟩)]
    askbook := [(100, [1])]
    bidbook := [(99, [2])] }

/-- The book is not crossed: every bid level has a price strictly below
every ask level. -/
def Uncrossed (b : OrderBook) : Prop :=
  ∀ pb qb pa qa, (pb, qb) ∈ b.bidbook → (pa, qa) ∈ b.askbook → pb < pa

/-- Continuations of a run: `Later b0 m b` says that `b` is reached from
`b0` by a sequence of public operations in which `m` resting orders were
created. -/
inductive Later (b0 : OrderBook) : Nat → OrderBook → Prop where
  | refl : Later b0 0 b0
  | add {m : Nat} {b b' : OrderBook} {ret : Nat}
      (price_ : Int) (volume_ : Nat) (is_buy_ : Bool) :
      Later b0 m b → add b price_ volume_ is_buy_ = .ok (ret, b') →
      Later b0 (if add_rests b price_ volume_ is_buy_ = true then m + 1 else m) b'
  | remove {m : Nat} {b : OrderBook} (id : Nat) :
      Later b0 m b → Later b0 m (remove b id).2
  | modify_volume {m : Nat} {b : OrderBook} (id new_volm : Nat) :
      Later b0 m b → Later b0 m (modify_volume b id new_volm).2
  | market_order {m : Nat} {b b' : OrderBook} {ret : Nat} (is_buy : Bool) (volume_ : Nat) :
      Later b0 m b → market_order b is_buy volume_ = .ok (ret, b') → Later b0 m b'

/-! ## The defensive branches

The functions below follow the same source lines as `remove`,
`modify_volume`, `match` and `market_consume` above, with one difference:
a run has a result only if it stays off the branches in question.  The
result is `none` when `remove` takes its branch "not in book"
(`!ord.is_valid`), when `remove_from_book` takes its early return "nothing to
do", when `front()` is called on an empty queue, when a pointer to an erased
order is dereferenced, and when the fuel runs out. -/

/-- The template `remove_from_book(book, ord)`, `none` on the early return. -/
def remove_from_book_strict (book : Book) (ord : Order) : Option (Book × Order) :=
  let price := ord.price
  match Map.find book price with
  | none => none -- nothing to do
  | some lvl_list =>
    let ord := { ord with is_valid := false }
    let lvl_list := lvl_list.erase ord.id
    if lvl_list.isEmpty then some (Map.erase book price, ord)
    else some (Map.modify book price (fun _ => lvl_list), ord)

/-- The method `OrderBook::remove(id)`, `none` on the branch "not in book"
and on the early return of `remove_from_book`. -/
def remove_strict (b : OrderBook) (id : Nat) : Option (Bool × OrderBook) :=
  match Map.find b.masterbook id with
  | none => some (false, b)
  | some ord =>
    if !ord.is_valid then
      -- not in book (maybe already removed)
      none
    else
      -- remove from correct book
      let nb : Option OrderBook :=
        if ord.is_buy then (remove_from_book_strict b.bidbook ord).map (fun x => { b with bidbook := x.1 })
        else (remove_from_book_strict b.askbook ord).map (fun x => { b with askbook := x.1 })
      -- erase from masterbook
      nb.map (fun b => (true, { b with masterbook := Map.erase b.masterbook id }))

namespace IEEE

/-- A value of type `double`: `num x` for a value other than NaN, `nan` for
NaN. -/
inductive Dbl where
  | num (x : Int)
  | nan
deriving DecidableEq, Repr

/-- The comparison `x <= y` of doubles. -/
def Dbl.le : Dbl → Dbl → Bool
  | .num x, .num y => decide (x ≤ y)
  | _, _ => false

/-- The comparison `x < y` of doubles, `std::less<double>`. -/
def Dbl.lt : Dbl → Dbl → Bool
  | .num x, .num y => decide (x < y)
  | _, _ => false

/-- The comparison `x > y` of doubles, `std::greater<double>`. -/
def Dbl.gt (x y : Dbl) : Bool := Dbl.lt y x

/-- The product `x * multiplier` where `multiplier` is 1 or -1. -/
def Dbl.mul : Dbl → Int → Dbl
  | .num x, m => .num (x * m)
  | .nan, _ => .nan

/-- The `struct Order` (without `iter`). -/
structure Order where
  id : Nat
  price : Dbl
  volume : Nat
  is_buy : Bool
  is_valid : Bool
deriving DecidableEq, Repr

/-- The constructor `Order::Order(id_, price_, volume_, is_buy_)`. -/
def Order.ctor (id_ : Nat) (price_ : Dbl) (volume_ : Nat) (is_buy_ : Bool) : Res Order :=
  if Dbl.le price_ (.num 0) then .fault .invalid_argument
  else if volume_ ≤ 0 then .fault .invalid_argument
  else .ok { id := id_, price := price_, volume := volume_, is_buy := is_buy_, is_valid := false }

/-- The method `Order::set_iterator`. -/
def Order.set_iterator (o : Order) : Order := { o with is_valid := true }

/-- The type `std::unordered_map<uint64_t, Order>`. -/
abbrev MasterBook := List (Nat × Order)

/-- The call `masterbook.emplace(id, o)`: the new map and the flag `inserted`. -/
def MasterBook.emplace (m : MasterBook) (id : Nat) (o : Order) : MasterBook × Bool :=
  match Map.find m id with
  | some _ => (m, false)
  | none => (m ++ [(id, o)], true)

/-- The type `std::map<double, std::list<Order*>, Compare>`. -/
abbrev Book := List (Dbl × List Nat)

/-- Two keys that `std::map` with comparator `comp` takes for the same key. -/
def Book.same (comp : Dbl → Dbl → Bool) (x y : Dbl) : Bool := !comp x y && !comp y x

/-- The call `book.find(key)`. -/
def Book.find (comp : Dbl → Dbl → Bool) : Book → Dbl → Option (List Nat)
  | [], _ => none
  | (p, q) :: rest, key => if Book.same comp p key then some q else Book.find comp rest key

/-- The call `book.erase(it)` where `it` is `book.find(key)`. -/
def Book.erase (comp : Dbl → Dbl → Bool) : Book → Dbl → Book
  | [], _ => []
  | (p, q) :: rest, key =>
    if Book.same comp p key then rest else (p, q) :: Book.erase comp rest key

/-- A write through a reference to the queue that `book.find(key)` points to. -/
def Book.modify (comp : Dbl → Dbl → Bool) : Book → Dbl → (List Nat → List Nat) → Book
  | [], _, _ => []
  | (p, q) :: rest, key, f =>
    if Book.same comp p key then (p, f q) :: rest else (p, q) :: Book.modify comp rest key f

/-- The call `book.emplace(price, {})`. -/
def Book.emplace (comp : Dbl → Dbl → Bool) : Book → Dbl → Book
  | [], price => [(price, [])]
  | (p, q) :: rest, price =>
    if comp price p then (price, []) :: (p, q) :: rest
    else if comp p price then (p, q) :: Book.emplace comp rest price
    else (p, q) :: rest

/-- The private data members of `class OrderBook`. -/
structure OrderBook where
  id_generator : Nat
  masterbook : MasterBook
  askbook : Book
  bidbook : Book
deriving DecidableEq, Repr

/-- The constructor `OrderBook::OrderBook()`. -/
def OrderBook.empty : OrderBook :=
  { id_generator := 1, masterbook := [], askbook := [], bidbook := [] }

/-- Read the member a `Book&` refers to. -/
def OrderBook.book (b : OrderBook) : BookRef → Book
  | .askbook => b.askbook
  | .bidbook => b.bidbook

/-- Comparator of the member a `Book&` refers to: `std::less<double>` for
`askbook`, `std::greater<double>` for `bidbook`. -/
def comp : BookRef → Dbl → Dbl → Bool
  | .askbook => Dbl.lt
  | .bidbook => Dbl.gt

/-- Write the member a `Book&` refers to. -/
def OrderBook.setBook (b : OrderBook) (r : BookRef) (bk : Book) : OrderBook :=
  match r with
  | .askbook => { b with askbook := bk }
  | .bidbook => { b with bidbook := bk }

/-- The template `remove_from_book(book, ord)` for a book with comparator `c`. -/
def remove_from_book (c : Dbl → Dbl → Bool) (book : Book) (ord : Order) : Book × Order :=
  let price := ord.price
  match Book.find c book price with
  | none => (book, ord) -- nothing to do
  | some lvl_list =>
    let ord := { ord with is_valid := false }
    let lvl_list := lvl_list.erase ord.id
    if lvl_list.isEmpty then (Book.erase c book price, ord)
    else (Book.modify c book price (fun _ => lvl_list), ord)

/-- The method `OrderBook::remove(id)`. -/
def remove (b : OrderBook) (id : Nat) : Bool × OrderBook :=
  match Map.find b.masterbook id with
  | none => (false, b)
  | some ord =>
    if !ord.is_valid then
      -- not in book (maybe already removed)
      (true, { b with masterbook := Map.erase b.masterbook id })
    else
      -- remove from correct book
      let b :=
        if ord.is_buy then { b with bidbook := (remove_from_book Dbl.gt b.bidbook ord).1 }
        else { b with askbook := (remove_from_book Dbl.lt b.askbook ord).1 }
      -- erase from masterbook
      (true, { b with masterbook := Map.erase b.masterbook id })

/-- The method `OrderBook::modify_volume(id, new_volm)`. -/
def modify_volume (b : OrderBook) (id : Nat) (new_volm : Nat) : Bool × OrderBook :=
  match Map.find b.masterbook id with
  | none => (false, b)
  | some _ =>
    if new_volm = 0 then remove b id
    else
      let upd : Order → Order := fun o => { o with volume := new_volm }
      (true, { b with masterbook := Map.modify b.masterbook id upd })

/-- The inner loop of `match`. -/
def match_level (book : BookRef) (best_price : Dbl) :
    Nat → OrderBook → Nat → Res (Bool × Nat × OrderBook)
  | 0, _, _ => .fault .out_of_fuel
  | fuel + 1, b, order_volume =>
    match Book.find (comp book) (b.book book) best_price with
    | none => .fault .undefined_behaviour
    | some lvl_list =>
      if order_volume > 0 ∧ ¬ lvl_list.isEmpty then
        match lvl_list.head? with
        | none => .fault .undefined_behaviour
        | some front =>
          match Map.find b.masterbook front with
          | none => .fault .undefined_behaviour
          | some matched_order =>
            if matched_order.volume ≤ order_volume then
              let order_volume := order_volume - matched_order.volume
              let need_new_price := decide (lvl_list.length = 1)
              let b := (remove b matched_order.id).2
              if need_new_price then .ok (false, order_volume, b)
              else match_level book best_price fuel b order_volume
            else
              let dec : Order → Order := fun o => { o with volume := o.volume - order_volume }
              let b := { b with masterbook := Map.modify b.masterbook front dec }
              .ok (true, 0, b)
      else .ok (false, order_volume, b)

/-- The outer loop of `match`, followed by `return order_volume`. -/
def match_loop (book : BookRef) (order_price : Dbl) (multiplier : Int) :
    Nat → OrderBook → Nat → Res (Nat × OrderBook)
  | 0, _, _ => .fault .out_of_fuel
  | fuel + 1, b, order_volume =>
    if order_volume > 0 ∧ ¬ (b.book book).isEmpty then
      match (b.book book).head? with
      | none => .fault .undefined_behaviour
      | some best_it =>
        let best_price := best_it.1
        if ¬ (Dbl.le (best_price.mul multiplier) (order_price.mul multiplier) = true) then
          .ok (order_volume, b)
        else
          match match_level book best_price (fuel + 1) b order_volume with
          | .fault f => .fault f
          | .ok (true, r, b) => .ok (r, b)
          | .ok (false, order_volume, b) =>
            match_loop book order_price multiplier fuel b order_volume
    else .ok (order_volume, b)

/-- The template `match(book, order_price, order_volume, is_buy_order)`. -/
def match' (b : OrderBook) (book : BookRef) (order_price : Dbl) (order_volume : Nat)
    (is_buy_order : Bool) : Res (Nat × OrderBook) :=
  if (b.book book).isEmpty then .ok (order_volume, b)
  else
    let multiplier : Int := if is_buy_order then 1 else -1
    match_loop book order_price multiplier (b.masterbook.length + 1) b order_volume

/-- The template `get_price_linked_list(book, price)`. -/
def get_price_linked_list (c : Dbl → Dbl → Bool) (book : Book) (price : Dbl) : Book :=
  Book.emplace c book price

/-- The inner loop of `market_consume`. -/
def market_consume_level (book : BookRef) (best_price : Dbl) :
    Nat → OrderBook → Nat → Res (Bool × Nat × OrderBook)
  | 0, _, _ => .fault .out_of_fuel
  | fuel + 1, b, volume_ =>
    match Book.find (comp book) (b.book book) best_price with
    | none => .fault .undefined_behaviour
    | some best_lvl =>
      if volume_ > 0 then
        match best_lvl.head? with
        | none => .fault .undefined_behaviour
        | some front =>
          match Map.find b.masterbook front with
          | none => .fault .undefined_behaviour
          | some o =>
            if o.volume ≤ volume_ then
              let volume_ := volume_ - o.volume
              let lvl_empty := decide (best_lvl.length = 1)
              let b := (remove b o.id).2
              if lvl_empty then .ok (false, volume_, b)
              else market_consume_level book best_price fuel b volume_
            else
              let dec : Order → Order := fun o => { o with volume := o.volume - volume_ }
              let b := { b with masterbook := Map.modify b.masterbook front dec }
              .ok (true, 0, b)
      else .ok (false, volume_, b)

/-- The outer loop of `market_consume`, followed by `return volume_`. -/
def market_consume_loop (book : BookRef) : Nat → OrderBook → Nat → Res (Nat × OrderBook)
  | 0, _, _ => .fault .out_of_fuel
  | fuel + 1, b, volume_ =>
    if volume_ > 0 ∧ ¬ (b.book book).isEmpty then
      match (b.book book).head? with
      | none => .fault .undefined_behaviour
      | some best_it =>
        match market_consume_level book best_it.1 (fuel + 1) b volume_ with
        | .fault f => .fault f
        | .ok (true, r, b) => .ok (r, b)
        | .ok (false, volume_, b) => market_consume_loop book fuel b volume_
    else .ok (volume_, b)

/-- The template `market_consume(book, volume_)`. -/
def market_consume (b : OrderBook) (book : BookRef) (volume_ : Nat) : Res (Nat × OrderBook) :=
  market_consume_loop book (b.masterbook.length + 1) b volume_

/-- The method `OrderBook::add(price_, volume_, is_buy_)`. -/
def add (b : OrderBook) (price_ : Dbl) (volume_ : Nat) (is_buy_ : Bool) :
    Res (Nat × OrderBook) :=
  if Dbl.le price_ (.num 0) then .ok (0, b)
  else
    -- attempts matching and gets updated volume
    match (if is_buy_ then match' b .askbook price_ volume_ is_buy_
           else match' b .bidbook price_ volume_ is_buy_) with
    | .fault f => .fault f
    | .ok (volume_, b) =>
      if volume_ = 0 then .ok (0, b)
      else
        -- if not completely matched
        let id_ := b.id_generator
        let b := { b with id_generator := (b.id_generator + 1) % 2 ^ 64 }
        match Order.ctor id_ price_ volume_ is_buy_ with
        | .fault f => .fault f
        | .ok ord =>
          match MasterBook.emplace b.masterbook id_ ord with
          | (_, false) => .ok (0, b)
          | (mb, true) =>
            let b := { b with masterbook := mb }
            let r : BookRef := if is_buy_ then .bidbook else .askbook
            let bk := get_price_linked_list (comp r) (b.book r) price_
            let ll := ((Book.find (comp r) bk price_).getD []) ++ [id_]
            let b := b.setBook r (Book.modify (comp r) bk price_ (fun _ => ll))
            let b := { b with masterbook := Map.modify b.masterbook id_ Order.set_iterator }
            .ok (id_, b)

/-- The method `OrderBook::market_order(is_buy, volume_)`. -/
def market_order (b : OrderBook) (is_buy : Bool) (volume_ : Nat) : Res (Nat × OrderBook) :=
  if volume_ = 0 then .ok (0, b)
  else if is_buy then market_consume b .askbook volume_ else market_consume b .bidbook volume_

/-- States reachable from the empty book by the public operations, with any
`double` as price. -/
inductive Reachable : OrderBook → Prop where
  | empty : Reachable OrderBook.empty
  | add {b b' : OrderBook} {ret : Nat} (price_ : Dbl) (volume_ : Nat) (is_buy_ : Bool) :
      Reachable b → add b price_ volume_ is_buy_ = .ok (ret, b') → Reachable b'
  | remove {b : OrderBook} (id : Nat) : Reachable b → Reachable (remove b id).2
  | modify_volume {b : OrderBook} (id new_volm : Nat) :
      Reachable b → Reachable (modify_volume b id new_volm).2
  | market_order {b b' : OrderBook} {ret : Nat} (is_buy : Bool) (volume_ : Nat) :
      Reachable b → market_order b is_buy volume_ = .ok (ret, b') → Reachable b'

/-- States reachable from the empty book by the public operations when no
price passed to `add` is NaN. -/
inductive ReachableNum : OrderBook → Prop where
  | empty : ReachableNum OrderBook.empty
  | add {b b' : OrderBook} {ret : Nat} (price_ : Int) (volume_ : Nat) (is_buy_ : Bool) :
      ReachableNum b → add b (.num price_) volume_ is_buy_ = .ok (ret, b') → ReachableNum b'
  | remove {b : OrderBook} (id : Nat) : ReachableNum b → ReachableNum (remove b id).2
  | modify_volume {b : OrderBook} (id new_volm : Nat) :
      ReachableNum b → ReachableNum (modify_volume b id new_volm).2
  | market_order {b b' : OrderBook} {ret : Nat} (is_buy : Bool) (volume_ : Nat) :
      ReachableNum b → market_order b is_buy volume_ = .ok (ret, b') → ReachableNum b'

/-- An order of the model with `Int` prices as an order with `double` price. -/
def ofOrder (o : LOB.Order) : Order :=
  { id := o.id, price := .num o.price, volume := o.volume, is_buy := o.is_buy,
    is_valid := o.is_valid }

/-- A book of the model with `Int` prices as a book with `double` keys. -/
def ofBook (bk : LOB.Book) : Book := bk.map (fun e => (Dbl.num e.1, e.2))

/-- An index of the model with `Int` prices as an index of orders with `double` price. -/
def ofMasterBook (m : LOB.MasterBook) : MasterBook := m.map (fun e => (e.1, ofOrder e.2))

/-- A state of the model with `Int` prices as a state with `double` prices. -/
def ofOrderBook (b : LOB.OrderBook) : OrderBook :=
  { id_generator := b.id_generator, masterbook := ofMasterBook b.masterbook,
    askbook := ofBook b.askbook, bidbook := ofBook b.bidbook }

/-- A result of the model with `Int` prices as a result with `double` prices. -/
def ofRes : Res (Nat × LOB.OrderBook) → Res (Nat × OrderBook)
  | .ok (r, b) => .ok (r, ofOrderBook b)
  | .fault f => .fault f

/-- A result of an inner loop of the model with `Int` prices as a result with
`double` prices. -/
def ofLevelRes : Res (Bool × Nat × LOB.OrderBook) → Res (Bool × Nat × OrderBook)
  | .ok (x, r, b) => .ok (x, r, ofOrderBook b)
  | .fault f => .fault f

/-- The book after `add(NaN, 5, sell)` on the empty book. -/
def exNanAsk : OrderBook :=
  { id_generator := 2
    masterbook := [(1, ⟨1, .nan, 5, false, true⟩)]
    askbook := [(.nan, [1])]
    bidbook := [] }

/-- The book after `add(NaN, 5, sell)` and `add(50, 5, sell)`. -/
def exNanAsk50 : OrderBook :=
  { id_generator := 3
    masterbook := [(1, ⟨1, .nan, 5, false, true⟩), (2, ⟨2, .num 50, 5, false, true⟩)]
    askbook := [(.nan, [1, 2])]
    bidbook := [] }

/-- The book after `add(NaN, 5, sell)`, `add(50, 5, sell)` and `add(60, 3, buy)`. -/
def exNanAsk50Bid60 : OrderBook :=
  { id_generator := 4
    masterbook := [(1, ⟨1, .nan, 5, false, true⟩), (2, ⟨2, .num 50, 5, false, true⟩),
      (3, ⟨3, .num 60, 3, true, true⟩)]
    askbook := [(.nan, [1, 2])]
    bidbook := [(.num 60, [3])] }

/-- The book after `add(NaN, 5, buy)`. -/
def exNanBid : OrderBook :=
  { id_generator := 2
    masterbook := [(1, ⟨1, .nan, 5, true, true⟩)]
    askbook := []
    bidbook := [(.nan, [1])] }

/-- The book after `add(NaN, 5, buy)` and `add(100, 5, sell)`. -/
def exNanBidAsk100 : OrderBook :=
  { id_generator := 3
    masterbook := [(1, ⟨1, .nan, 5, true, true⟩), (2, ⟨2, .num 100, 5, false, true⟩)]
    askbook := [(.num 100, [2])]
    bidbook := [(.nan, [1])] }

end IEEE

/-! ## Arrival order -/

/-- The book after `add(100, 10, sell)`. -/
def exAsk10 : OrderBook :=
  { id_generator := 2, masterbook := [(1, ⟨1, 100, 10, false, true⟩)], askbook := [(100, [1])],
    bidbook := [] }

section MapLemmas
variable {κ ν : Type} [DecidableEq κ]

theorem Map.find_erase_ne (m : List (κ × ν)) {k k' : κ} (h : k' ≠ k) :
    Map.find (Map.erase m k) k' = Map.find m k' := by
  induction m with
  | nil => rfl
  | cons e rest ih =>
    obtain ⟨a, v⟩ := e
    by_cases hk : a = k
    · subst hk
      have : ¬ a = k' := fun h' => h h'.symm
      simp [Map.erase, Map.find, this]
    · by_cases hk' : a = k'
      · subst hk'
        simp [Map.erase, Map.find, hk]
      · simp [Map.erase, Map.find, hk, hk', ih]

theorem Map.find_eq_none_iff (m : List (κ × ν)) (k : κ) :
    Map.find m k = none ↔ k ∉ m.map Prod.fst := by
  induction m with
  | nil => simp [Map.find]
  | cons e rest ih =>
    obtain ⟨a, v⟩ := e
    by_cases hk : a = k
    · simp [Map.find, hk]
    · have : ¬ k = a := fun h => hk h.symm
      simp [Map.find, hk, ih, this]

theorem Map.mem_of_find (m : List (κ × ν)) {k : κ} {v : ν} (h : Map.find m k = some v) :
    (k, v) ∈ m := by
  induction m with
  | nil => simp [Map.find] at h
  | cons e rest ih =>
    obtain ⟨a, w⟩ := e
    by_cases hk : a = k
    · simp [Map.find, hk] at h
      simp [hk, h]
    · simp [Map.find, hk] at h
      exact List.mem_cons_of_mem _ (ih h)

theorem Map.find_of_mem (m : List (κ × ν)) (hnd : (m.map Prod.fst).Nodup) {k : κ} {v : ν}
    (h : (k, v) ∈ m) : Map.find m k = some v := by
  induction m with
  | nil => simp at h
  | cons e rest ih =>
    obtain ⟨a, w⟩ := e
    simp only [List.map_cons, List.nodup_cons] at hnd
    rcases List.mem_cons.1 h with h | h
    · cases h
      simp [Map.find]
    · have hne : a ≠ k := by
        rintro rfl
        exact hnd.1 (List.mem_map.2 ⟨(a, v), h, rfl⟩)
      simp [Map.find, hne, ih hnd.2 h]

theorem Map.keys_erase_sublist (m : List (κ × ν)) (k : κ) :
    ((Map.erase m k).map Prod.fst).Sublist (m.map Prod.fst) := by
  induction m with
  | nil => simp [Map.erase]
  | cons e rest ih =>
    obtain ⟨a, v⟩ := e
    by_cases hk : a = k
    · simp [Map.erase, hk]
    · simp [Map.erase, hk, ih]

theorem Map.find_erase_self (m : List (κ × ν)) (hnd : (m.map Prod.fst).Nodup) (k : κ) :
    Map.find (Map.erase m k) k = none := by
  induction m with
  | nil => rfl
  | cons e rest ih =>
    obtain ⟨a, v⟩ := e
    simp only [List.map_cons, List.nodup_cons] at hnd
    by_cases hk : a = k
    · subst hk
      simp only [Map.erase, if_true]
      exact (Map.find_eq_none_iff rest a).2 hnd.1
    · simp [Map.erase, Map.find, hk, ih hnd.2]

theorem Map.length_erase (m : List (κ × ν)) {k : κ} {v : ν} (h : Map.find m k = some v) :
    (Map.erase m k).length + 1 = m.length := by
  induction m with
  | nil => simp [Map.find] at h
  | cons e rest ih =>
    obtain ⟨a, w⟩ := e
    by_cases hk : a = k
    · simp [Map.erase, hk]
    · simp [Map.find, hk] at h
      simp [Map.erase, hk, ih h]

theorem Map.erase_of_find_none (m : List (κ × ν)) {k : κ} (h : Map.find m k = none) :
    Map.erase m k = m := by
  induction m with
  | nil => rfl
  | cons e rest ih =>
    obtain ⟨a, w⟩ := e
    by_cases hk : a = k
    · simp [Map.find, hk] at h
    · simp [Map.find, hk] at h
      simp [Map.erase, hk, ih h]

theorem Map.keys_modify (m : List (κ × ν)) (k : κ) (f : ν → ν) :
    (Map.modify m k f).map Prod.fst = m.map Prod.fst := by
  induction m with
  | nil => rfl
  | cons e rest ih =>
    obtain ⟨a, v⟩ := e
    by_cases hk : a = k
    · simp [Map.modify, hk]
    · simp [Map.modify, hk, ih]

theorem Map.length_modify (m : List (κ × ν)) (k : κ) (f : ν → ν) :
    (Map.modify m k f).length = m.length := by
  have := congrArg List.length (Map.keys_modify m k f)
  simpa using this

theorem Map.find_modify_self (m : List (κ × ν)) (k : κ) (f : ν → ν) :
    Map.find (Map.modify m k f) k = (Map.find m k).map f := by
  induction m with
  | nil => rfl
  | cons e rest ih =>
    obtain ⟨a, v⟩ := e
    by_cases hk : a = k
    · simp [Map.modify, Map.find, hk]
    · simp [Map.modify, Map.find, hk, ih]

theorem Map.find_modify_ne (m : List (κ × ν)) {k k' : κ} (f : ν → ν) (h : k' ≠ k) :
    Map.find (Map.modify m k f) k' = Map.find m k' := by
  induction m with
  | nil => rfl
  | cons e rest ih =>
    obtain ⟨a, v⟩ := e
    by_cases hk : a = k
    · subst hk
      have : ¬ a = k' := fun h' => h h'.symm
      simp [Map.modify, Map.find, this]
    · by_cases hk' : a = k'
      · subst hk'
        simp [Map.modify, Map.find, hk]
      · simp [Map.modify, Map.find, hk, hk', ih]

theorem Map.modify_of_find_none (m : List (κ × ν)) {k : κ} (f : ν → ν)
    (h : Map.find m k = none) : Map.modify m k f = m := by
  induction m with
  | nil => rfl
  | cons e rest ih =>
    obtain ⟨a, w⟩ := e
    by_cases hk : a = k
    · simp [Map.find, hk] at h
    · simp [Map.find, hk] at h
      simp [Map.modify, hk, ih h]

theorem Map.find_append (m : List (κ × ν)) (k k' : κ) (v : ν) :
    Map.find (m ++ [(k, v)]) k' =
      match Map.find m k' with
      | some w => some w
      | none => if k = k' then some v else none := by
  induction m with
  | nil => simp [Map.find]
  | cons e rest ih =>
    obtain ⟨a, w⟩ := e
    by_cases hk : a = k'
    · simp [Map.find, hk]
    · simp [Map.find, hk, ih]

end MapLemmas

/-! ## Books -/

@[simp] theorem Book.ids_nil : Book.ids [] = [] := rfl

@[simp] theorem Book.ids_cons (p : Int) (q : List Nat) (rest : Book) :
    Book.ids ((p, q) :: rest) = q ++ Book.ids rest := by
  simp [Book.ids]

theorem Book.mem_ids {bk : Book} {i : Nat} :
    i ∈ Book.ids bk ↔ ∃ p q, (p, q) ∈ bk ∧ i ∈ q := by
  induction bk with
  | nil => simp
  | cons e rest ih =>
    obtain ⟨p, q⟩ := e
    simp only [Book.ids_cons, List.mem_append, ih, List.mem_cons]
    constructor
    · rintro (h | ⟨p', q', h, hi⟩)
      · exact ⟨p, q, Or.inl rfl, h⟩
      · exact ⟨p', q', Or.inr h, hi⟩
    · rintro ⟨p', q', h | h, hi⟩
      · cases h
        exact Or.inl hi
      · exact Or.inr ⟨p', q', h, hi⟩

theorem remove_from_book_fst (book : Book) (ord : Order) :
    (remove_from_book book ord).1 = Book.unlink book ord.price ord.id := by
  induction book with
  | nil => simp [remove_from_book, Map.find, Book.unlink]
  | cons e rest ih =>
    obtain ⟨p, q⟩ := e
    by_cases hp : p = ord.price
    · by_cases he : (q.erase ord.id).isEmpty = true
      · simp [remove_from_book, Map.find, Book.unlink, hp, Map.erase, he]
      · simp [remove_from_book, Map.find, Book.unlink, hp, Map.modify, he]
    · cases hf : Map.find rest ord.price with
      | none =>
        simp only [remove_from_book, hf] at ih
        simp [remove_from_book, Map.find, Book.unlink, hp, hf, ← ih]
      | some l =>
        simp only [remove_from_book, hf] at ih
        by_cases he : (l.erase ord.id).isEmpty = true
        · simp only [he, if_true] at ih
          simp [remove_from_book, Map.find, Book.unlink, hp, hf, he, Map.erase, ← ih]
        · simp only [he] at ih
          simp [remove_from_book, Map.find, Book.unlink, hp, hf, he, Map.modify, ← ih]

theorem Book.ids_unlink (book : Book) (p : Int) (id : Nat) (q : List Nat)
    (hf : Map.find book p = some q) (hq : id ∈ q)
    (hne : ∀ p' q', (p', q') ∈ book → p' ≠ p → id ∉ q') :
    Book.ids (Book.unlink book p id) = (Book.ids book).erase id := by
  induction book with
  | nil => simp [Map.find] at hf
  | cons e rest ih =>
    obtain ⟨p0, q0⟩ := e
    by_cases hp : p0 = p
    · simp only [Map.find, hp, if_true, Option.some.injEq] at hf
      subst hf
      rw [Book.ids_cons, List.erase_append_left _ hq]
      by_cases he : (q0.erase id).isEmpty = true
      · have : q0.erase id = [] := by simpa using he
        simp [Book.unlink, hp, this]
      · simp [Book.unlink, hp, he]
    · simp only [Map.find, hp, if_false] at hf
      have h0 : id ∉ q0 := hne p0 q0 (List.mem_cons_self _ _) hp
      rw [Book.ids_cons, List.erase_append_right _ h0]
      simp only [Book.unlink, hp, if_false, Book.ids_cons]
      rw [ih hf (fun p' q' hm => hne p' q' (List.mem_cons_of_mem _ hm))]

theorem Book.find_unlink_ne (book : Book) {p p' : Int} (id : Nat) (h : p' ≠ p) :
    Map.find (Book.unlink book p id) p' = Map.find book p' := by
  induction book with
  | nil => rfl
  | cons e rest ih =>
    obtain ⟨p0, q0⟩ := e
    by_cases hp : p0 = p
    · subst hp
      have hne : ¬ p0 = p' := fun h' => h h'.symm
      by_cases he : (q0.erase id).isEmpty = true
      · simp [Book.unlink, he, Map.find, hne]
      · simp [Book.unlink, he, Map.find, hne]
    · by_cases hp' : p0 = p'
      · subst hp'
        simp [Book.unlink, hp, Map.find]
      · simp [Book.unlink, hp, Map.find, hp', ih]

theorem Book.find_unlink_self (book : Book) (p : Int) (id : Nat) (q : List Nat)
    (hf : Map.find book p = some q) (hq : q.erase id ≠ []) :
    Map.find (Book.unlink book p id) p = some (q.erase id) := by
  induction book with
  | nil => simp [Map.find] at hf
  | cons e rest ih =>
    obtain ⟨p0, q0⟩ := e
    by_cases hp : p0 = p
    · simp only [Map.find, hp, if_true, Option.some.injEq] at hf
      subst hf
      have he : ¬ (q0.erase id).isEmpty = true := by simpa using hq
      simp [Book.unlink, hp, he, Map.find]
    · simp only [Map.find, hp, if_false] at hf
      simp [Book.unlink, hp, Map.find, ih hf]

theorem Book.mem_unlink (book : Book) (p : Int) (id : Nat) {p' : Int} {q' : List Nat}
    (h : (p', q') ∈ Book.unlink book p id) :
    ∃ q, (p', q) ∈ book ∧ (q' = q ∨ (q' = q.erase id ∧ q' ≠ [])) := by
  induction book with
  | nil => simp [Book.unlink] at h
  | cons e rest ih =>
    obtain ⟨p0, q0⟩ := e
    unfold Book.unlink at h
    by_cases hp : p0 = p
    · rw [if_pos hp] at h
      by_cases he : (q0.erase id).isEmpty = true
      · rw [if_pos he] at h
        exact ⟨q', List.mem_cons_of_mem _ h, Or.inl rfl⟩
      · rw [if_neg he] at h
        rcases List.mem_cons.1 h with h | h
        · have h1 : p' = p0 := (Prod.mk.inj h).1
          have h2 : q' = q0.erase id := (Prod.mk.inj h).2
          refine ⟨q0, by simp [h1], Or.inr ⟨h2, ?_⟩⟩
          rw [h2]
          simpa using he
        · exact ⟨q', List.mem_cons_of_mem _ h, Or.inl rfl⟩
    · rw [if_neg hp] at h
      rcases List.mem_cons.1 h with h | h
      · have h1 : p' = p0 := (Prod.mk.inj h).1
        have h2 : q' = q0 := (Prod.mk.inj h).2
        exact ⟨q0, by simp [h1], Or.inl h2⟩
      · obtain ⟨q, hm, hq⟩ := ih h
        exact ⟨q, List.mem_cons_of_mem _ hm, hq⟩

theorem Book.pairwise_unlink (c : Int → Int → Prop) (book : Book) (p : Int) (id : Nat)
    (h : book.Pairwise (fun x y => c x.1 y.1)) :
    (Book.unlink book p id).Pairwise (fun x y => c x.1 y.1) := by
  induction book with
  | nil => simp [Book.unlink]
  | cons e rest ih =>
    obtain ⟨p0, q0⟩ := e
    rw [List.pairwise_cons] at h
    unfold Book.unlink
    by_cases hp : p0 = p
    · rw [if_pos hp]
      by_cases he : (q0.erase id).isEmpty = true
      · rw [if_pos he]
        exact h.2
      · rw [if_neg he, List.pairwise_cons]
        exact ⟨fun y hy => h.1 y hy, h.2⟩
    · rw [if_neg hp, List.pairwise_cons]
      refine ⟨fun y hy => ?_, ih h.2⟩
      obtain ⟨py, qy⟩ := y
      obtain ⟨q, hm, -⟩ := Book.mem_unlink rest p id hy
      exact h.1 (py, q) hm

/-! ## Field-wise description of the state -/

theorem OrderBook.ext_fields {b b' : OrderBook} (h1 : b'.id_generator = b.id_generator)
    (h2 : b'.masterbook = b.masterbook) (h3 : ∀ r, b'.book r = b.book r) : b' = b := by
  cases b
  cases b'
  have ha := h3 .askbook
  have hb := h3 .bidbook
  simp only [OrderBook.book] at ha hb
  simp_all

@[simp] theorem OrderBook.book_setBook_same (b : OrderBook) (r : BookRef) (bk : Book) :
    (b.setBook r bk).book r = bk := by
  cases r <;> rfl

theorem OrderBook.book_setBook_ne (b : OrderBook) {r r' : BookRef} (bk : Book) (h : r' ≠ r) :
    (b.setBook r bk).book r' = b.book r' := by
  cases r <;> cases r' <;> first | rfl | exact absurd rfl h

@[simp] theorem OrderBook.masterbook_setBook (b : OrderBook) (r : BookRef) (bk : Book) :
    (b.setBook r bk).masterbook = b.masterbook := by
  cases r <;> rfl

@[simp] theorem OrderBook.id_generator_setBook (b : OrderBook) (r : BookRef) (bk : Book) :
    (b.setBook r bk).id_generator = b.id_generator := by
  cases r <;> rfl

@[simp] theorem OrderBook.book_with_masterbook (b : OrderBook) (m : MasterBook) (r : BookRef) :
    ({ b with masterbook := m } : OrderBook).book r = b.book r := by
  cases r <;> rfl

@[simp] theorem OrderBook.book_with_id_generator (b : OrderBook) (g : Nat) (r : BookRef) :
    ({ b with id_generator := g } : OrderBook).book r = b.book r := by
  cases r <;> rfl

theorem BookRef.own_side (r : BookRef) : BookRef.own r.side = r := by
  cases r <;> rfl

theorem BookRef.side_own (s : Bool) : (BookRef.own s).side = s := by
  cases s <;> rfl

theorem BookRef.side_against (s : Bool) : (BookRef.against s).side = !s := by
  cases s <;> rfl

theorem BookRef.against_ne_own (s : Bool) : BookRef.against s ≠ BookRef.own s := by
  cases s <;> simp [BookRef.against, BookRef.own]

theorem BookRef.side_injective {r r' : BookRef} (h : r.side = r'.side) : r = r' := by
  cases r <;> cases r' <;> simp_all [BookRef.side]

/-- The method `remove` written with `Book.unlink`. -/
theorem remove_eq (b : OrderBook) (id : Nat) :
    remove b id =
      match Map.find b.masterbook id with
      | none => (false, b)
      | some ord =>
        if ord.is_valid = false then
          (true, { b with masterbook := Map.erase b.masterbook id })
        else
          (true, { b.setBook (BookRef.own ord.is_buy)
                      (Book.unlink (b.book (BookRef.own ord.is_buy)) ord.price ord.id) with
                    masterbook := Map.erase b.masterbook id }) := by
  unfold remove
  cases hf : Map.find b.masterbook id with
  | none => rfl
  | some ord =>
    cases hv : ord.is_valid
    · simp [hv]
    · cases hb : ord.is_buy <;>
        simp [hv, hb, BookRef.own, OrderBook.setBook, OrderBook.book, remove_from_book_fst]

/-! ## Cancellation keeps the state consistent -/

theorem WF.find_entry {b : OrderBook} (h : WF b) {r : BookRef} {p : Int} {q : List Nat}
    {i : Nat} (hm : (p, q) ∈ b.book r) (hi : i ∈ q) :
    ∃ o, Map.find b.masterbook i = some o ∧ o.id = i ∧ o.price = p ∧ o.is_buy = r.side ∧
      0 < o.volume := by
  obtain ⟨o, ho, hp, hs⟩ := (h.level r p q hm).2 i hi
  exact ⟨o, ho, (h.entry i o ho).1, hp, hs, (h.entry i o ho).2.2.1⟩

theorem WF.keys_book_nodup {b : OrderBook} (h : WF b) (r : BookRef) :
    ((b.book r).map Prod.fst).Nodup := by
  have hs := h.sorted r
  rw [List.Nodup, List.pairwise_map]
  refine hs.imp ?_
  intro x y hxy heq
  cases r <;> simp [BookRef.comp, heq] at hxy

theorem WF.find_level {b : OrderBook} (h : WF b) {r : BookRef} {p : Int} {q : List Nat}
    (hm : (p, q) ∈ b.book r) : Map.find (b.book r) p = some q :=
  Map.find_of_mem _ (h.keys_book_nodup r) hm

/-- The fields of the state after `remove` of an indexed order. -/
theorem WF.remove_fields {b : OrderBook} (h : WF b) {id : Nat} {o : Order}
    (ho : Map.find b.masterbook id = some o) :
    (remove b id).1 = true ∧
    (remove b id).2.id_generator = b.id_generator ∧
    (remove b id).2.masterbook = Map.erase b.masterbook id ∧
    (remove b id).2.book (BookRef.own o.is_buy) =
      Book.unlink (b.book (BookRef.own o.is_buy)) o.price id ∧
    ∀ r, r ≠ BookRef.own o.is_buy → (remove b id).2.book r = b.book r := by
  have hv : o.is_valid = true := (h.entry id o ho).2.1
  have hid : o.id = id := (h.entry id o ho).1
  rw [remove_eq]
  simp only [ho, hv, hid]
  refine ⟨rfl, ?_, rfl, ?_, ?_⟩
  · simp
  · cases o.is_buy <;> simp [BookRef.own, OrderBook.setBook, OrderBook.book]
  · intro r hr
    cases hb : o.is_buy <;> cases r <;>
      simp_all [BookRef.own, OrderBook.setBook, OrderBook.book]

theorem remove_of_find_none {b : OrderBook} {id : Nat} (ho : Map.find b.masterbook id = none) :
    remove b id = (false, b) := by
  simp [remove, ho]

/-- An indexed id occurs in no queue of another level or side. -/
theorem WF.not_mem_other {b : OrderBook} (h : WF b) {id : Nat} {o : Order}
    (ho : Map.find b.masterbook id = some o) {r : BookRef} {p : Int} {q : List Nat}
    (hm : (p, q) ∈ b.book r) (hne : r ≠ BookRef.own o.is_buy ∨ p ≠ o.price) : id ∉ q := by
  intro hi
  obtain ⟨o', ho', -, hp, hs, -⟩ := h.find_entry hm hi
  rw [ho] at ho'
  cases ho'
  rcases hne with hne | hne
  · exact hne (by rw [hs, BookRef.own_side])
  · exact hne hp.symm

theorem WF.ids_remove {b : OrderBook} (h : WF b) {id : Nat} {o : Order}
    (ho : Map.find b.masterbook id = some o) (r : BookRef) :
    Book.ids ((remove b id).2.book r) = (Book.ids (b.book r)).erase id := by
  obtain ⟨-, -, -, hown, hoth⟩ := h.remove_fields ho
  obtain ⟨q, hq, hiq⟩ := (h.entry id o ho).2.2.2.2
  by_cases hr : r = BookRef.own o.is_buy
  · subst hr
    rw [hown]
    exact Book.ids_unlink _ _ _ q hq hiq
      (fun p' q' hm hp => h.not_mem_other ho hm (Or.inr hp))
  · rw [hoth r hr, List.erase_of_not_mem]
    intro hi
    obtain ⟨p, q', hm, hi'⟩ := Book.mem_ids.1 hi
    exact h.not_mem_other ho hm (Or.inl hr) hi'

theorem wf_remove {b : OrderBook} (h : WF b) (id : Nat) : WF (remove b id).2 := by
  cases ho : Map.find b.masterbook id with
  | none => rw [remove_of_find_none ho]; exact h
  | some o =>
    obtain ⟨-, -, hmb, hown, hoth⟩ := h.remove_fields ho
    have hids := fun r => h.ids_remove ho r
    obtain ⟨q0, hq0, hiq0⟩ := (h.entry id o ho).2.2.2.2
    have hnotin : ∀ r p q, (p, q) ∈ (remove b id).2.book r → id ∉ q := by
      intro r p q hm hi
      have : id ∈ Book.ids ((remove b id).2.book r) := Book.mem_ids.2 ⟨p, q, hm, hi⟩
      rw [hids r] at this
      exact (List.Nodup.mem_erase_iff (h.ids_nodup r)).1 this |>.1 rfl
    have hmem : ∀ r p q', (p, q') ∈ (remove b id).2.book r →
        q' ≠ [] ∧ ∃ q, (p, q) ∈ b.book r ∧ ∀ i ∈ q', i ∈ q := by
      intro r p q' hm
      by_cases hr : r = BookRef.own o.is_buy
      · subst hr
        rw [hown] at hm
        obtain ⟨q, hq, hcase⟩ := Book.mem_unlink _ _ _ hm
        rcases hcase with rfl | ⟨rfl, hne⟩
        · exact ⟨(h.level _ p q' hq).1, q', hq, fun i hi => hi⟩
        · exact ⟨hne, q, hq, fun i hi => List.mem_of_mem_erase hi⟩
      · rw [hoth r hr] at hm
        exact ⟨(h.level r p q' hm).1, q', hm, fun i hi => hi⟩
    refine ⟨?_, ?_, ?_, ?_, ?_⟩
    · rw [hmb]
      exact h.keys_nodup.sublist (Map.keys_erase_sublist _ _)
    · intro k o' hk
      rw [hmb] at hk
      have hkid : k ≠ id := by
        rintro rfl
        rw [Map.find_erase_self _ h.keys_nodup] at hk
        cases hk
      rw [Map.find_erase_ne _ hkid] at hk
      obtain ⟨h1, h2, h3, h4, q, hq, hkq⟩ := h.entry k o' hk
      refine ⟨h1, h2, h3, h4, ?_⟩
      by_cases hr : BookRef.own o'.is_buy = BookRef.own o.is_buy
      · rw [hr, hown]
        rw [hr] at hq
        by_cases hp : o'.price = o.price
        · rw [hp] at hq ⊢
          rw [hq0] at hq
          cases hq
          have hkq' : k ∈ q0.erase id := (List.mem_erase_of_ne hkid).2 hkq
          exact ⟨q0.erase id,
            Book.find_unlink_self _ _ _ q0 hq0 (List.ne_nil_of_mem hkq'), hkq'⟩
        · exact ⟨q, by rw [Book.find_unlink_ne _ _ hp]; exact hq, hkq⟩
      · rw [hoth _ hr]
        exact ⟨q, hq, hkq⟩
    · intro r
      by_cases hr : r = BookRef.own o.is_buy
      · subst hr
        rw [hown]
        exact Book.pairwise_unlink (fun x y => (BookRef.own o.is_buy).comp x y = true) _ _ _
          (h.sorted _)
      · rw [hoth r hr]
        exact h.sorted r
    · intro r p q' hm
      obtain ⟨hne, q, hq, hsub⟩ := hmem r p q' hm
      refine ⟨hne, fun i hi => ?_⟩
      obtain ⟨oi, hoi, hp, hs⟩ := (h.level r p q hq).2 i (hsub i hi)
      have hiid : i ≠ id := by
        rintro rfl
        exact hnotin r p q' hm hi
      exact ⟨oi, by rw [hmb, Map.find_erase_ne _ hiid]; exact hoi, hp, hs⟩
    · intro r
      rw [hids r]
      exact (h.ids_nodup r).erase id

/-! ## Writes to an indexed order -/

/-- A write that changes the volume of one indexed order, to a positive value. -/
theorem wf_modify {b : OrderBook} (h : WF b) (id : Nat) (f : Order → Order)
    (hf : ∀ o, (f o).id = o.id ∧ (f o).price = o.price ∧ (f o).is_buy = o.is_buy ∧
      (f o).is_valid = o.is_valid)
    (hv : ∀ o, Map.find b.masterbook id = some o → 0 < (f o).volume) :
    WF { b with masterbook := Map.modify b.masterbook id f } := by
  have hfind : ∀ k o', Map.find (Map.modify b.masterbook id f) k = some o' →
      ∃ o, Map.find b.masterbook k = some o ∧ o'.id = o.id ∧ o'.price = o.price ∧
        o'.is_buy = o.is_buy ∧ o'.is_valid = o.is_valid ∧ (0 < o.volume → 0 < o'.volume) := by
    intro k o' hk
    by_cases hkid : k = id
    · subst hkid
      rw [Map.find_modify_self] at hk
      cases ho : Map.find b.masterbook k with
      | none => simp [ho] at hk
      | some o =>
        simp only [ho, Option.map_some', Option.some.injEq] at hk
        subst hk
        exact ⟨o, rfl, (hf o).1, (hf o).2.1, (hf o).2.2.1, (hf o).2.2.2, fun _ => hv o ho⟩
    · rw [Map.find_modify_ne _ _ hkid] at hk
      exact ⟨o', hk, rfl, rfl, rfl, rfl, fun x => x⟩
  have hfind' : ∀ k o, Map.find b.masterbook k = some o →
      ∃ o', Map.find (Map.modify b.masterbook id f) k = some o' ∧ o'.price = o.price ∧
        o'.is_buy = o.is_buy := by
    intro k o hk
    by_cases hkid : k = id
    · subst hkid
      exact ⟨f o, by rw [Map.find_modify_self, hk]; rfl, (hf o).2.1, (hf o).2.2.1⟩
    · exact ⟨o, by rw [Map.find_modify_ne _ _ hkid]; exact hk, rfl, rfl⟩
  refine ⟨?_, ?_, ?_, ?_, ?_⟩
  · show ((Map.modify b.masterbook id f).map Prod.fst).Nodup
    rw [Map.keys_modify]
    exact h.keys_nodup
  · intro k o' hk
    obtain ⟨o, ho, h1, h2, h3, h4, h5⟩ := hfind k o' hk
    obtain ⟨e1, e2, e3, e4, q, hq, hkq⟩ := h.entry k o ho
    refine ⟨h1.trans e1, h4.trans e2, h5 e3, h2 ▸ e4, q, ?_, hkq⟩
    rw [h3, h2, OrderBook.book_with_masterbook]
    exact hq
  · intro r
    rw [OrderBook.book_with_masterbook]
    exact h.sorted r
  · intro r p q hm
    rw [OrderBook.book_with_masterbook] at hm
    refine ⟨(h.level r p q hm).1, fun i hi => ?_⟩
    obtain ⟨o, ho, hp, hs⟩ := (h.level r p q hm).2 i hi
    obtain ⟨o', ho', hp', hs'⟩ := hfind' i o ho
    exact ⟨o', ho', hp'.trans hp, hs'.trans hs⟩
  · intro r
    rw [OrderBook.book_with_masterbook]
    exact h.ids_nodup r

/-! ## The priority list of resting orders -/

theorem filterMap_find_of_forall {m : MasterBook} {l : List Nat} {g : Nat → Order}
    (h : ∀ k ∈ l, Map.find m k = some (g k)) : l.filterMap (Map.find m) = l.map g := by
  induction l with
  | nil => rfl
  | cons a rest ih =>
    rw [List.filterMap_cons, h a (List.mem_cons_self _ _), List.map_cons,
      ih (fun k hk => h k (List.mem_cons_of_mem _ hk))]

theorem WF.find_of_mem_ids {b : OrderBook} (h : WF b) {r : BookRef} {i : Nat}
    (hi : i ∈ Book.ids (b.book r)) :
    ∃ o, Map.find b.masterbook i = some o ∧ o.id = i ∧ o.is_buy = r.side ∧ 0 < o.volume ∧
      ∃ q, (o.price, q) ∈ b.book r ∧ i ∈ q := by
  obtain ⟨p, q, hm, hiq⟩ := Book.mem_ids.1 hi
  obtain ⟨o, ho, hid, hp, hs, hv⟩ := h.find_entry hm hiq
  exact ⟨o, ho, hid, hs, hv, q, hp ▸ hm, hiq⟩

theorem WF.resting_map_id {b : OrderBook} (h : WF b) (r : BookRef) :
    (b.resting r).map Order.id = Book.ids (b.book r) := by
  unfold OrderBook.resting
  have key : ∀ l : List Nat, (∀ i ∈ l, i ∈ Book.ids (b.book r)) →
      (l.filterMap (Map.find b.masterbook)).map Order.id = l := by
    intro l
    induction l with
    | nil => intro _; rfl
    | cons a rest ih =>
      intro hl
      obtain ⟨o, ho, hid, -⟩ := h.find_of_mem_ids (hl a (List.mem_cons_self _ _))
      rw [List.filterMap_cons, ho, List.map_cons, hid,
        ih (fun i hi => hl i (List.mem_cons_of_mem _ hi))]
  exact key _ (fun i hi => hi)

theorem WF.mem_resting {b : OrderBook} (h : WF b) {r : BookRef} {o : Order}
    (ho : o ∈ b.resting r) :
    Map.find b.masterbook o.id = some o ∧ o.id ∈ Book.ids (b.book r) := by
  unfold OrderBook.resting at ho
  obtain ⟨i, hi, hfi⟩ := List.mem_filterMap.1 ho
  obtain ⟨o', ho', hid, -⟩ := h.find_of_mem_ids hi
  rw [ho'] at hfi
  cases hfi
  rw [hid]
  exact ⟨ho', hi⟩

theorem WF.resting_of_find {b : OrderBook} (h : WF b) {k : Nat} {o : Order}
    (ho : Map.find b.masterbook k = some o) : o ∈ b.resting (BookRef.own o.is_buy) := by
  obtain ⟨-, -, -, -, q, hq, hkq⟩ := h.entry k o ho
  unfold OrderBook.resting
  exact List.mem_filterMap.2 ⟨k, Book.mem_ids.2 ⟨o.price, q, Map.mem_of_find _ hq, hkq⟩, ho⟩

theorem WF.resting_nodup {b : OrderBook} (h : WF b) (r : BookRef) :
    ((b.resting r).map Order.id).Nodup := by
  rw [h.resting_map_id]
  exact h.ids_nodup r

/-- The priority list when the book starts with the level `(p, i :: q)`. -/
theorem WF.resting_cons {b : OrderBook} (h : WF b) {r : BookRef} {p : Int} {i : Nat}
    {q : List Nat} {rest : Book} (hb : b.book r = (p, i :: q) :: rest) :
    ∃ o, Map.find b.masterbook i = some o ∧ o.id = i ∧ o.price = p ∧ o.is_buy = r.side ∧
      0 < o.volume ∧
      b.resting r = o :: (q ++ Book.ids rest).filterMap (Map.find b.masterbook) := by
  have hm : (p, i :: q) ∈ b.book r := by rw [hb]; exact List.mem_cons_self _ _
  obtain ⟨o, ho, hid, hp, hs, hv⟩ := h.find_entry hm (List.mem_cons_self _ _)
  refine ⟨o, ho, hid, hp, hs, hv, ?_⟩
  unfold OrderBook.resting
  rw [hb, Book.ids_cons, List.cons_append, List.filterMap_cons, ho]

theorem filterMap_find_erase {m : MasterBook} (id : Nat) (l : List Nat)
    (hid : ∀ k ∈ l, ∀ o, Map.find m k = some o → o.id = k) :
    (l.filter (fun k => !decide (k = id))).filterMap (Map.find (Map.erase m id)) =
      (l.filterMap (Map.find m)).filter (fun o => !decide (o.id = id)) := by
  induction l with
  | nil => rfl
  | cons a rest ih =>
    have ih' := ih (fun k hk => hid k (List.mem_cons_of_mem _ hk))
    by_cases ha : a = id
    · subst ha
      cases ho : Map.find m a with
      | none => simp [ho, ih']
      | some o =>
        have := hid a (List.mem_cons_self _ _) o ho
        simp [ho, ih', this]
    · cases ho : Map.find m a with
      | none => simp [ha, ho, ih', Map.find_erase_ne m ha]
      | some o =>
        have := hid a (List.mem_cons_self _ _) o ho
        simp [ha, ho, ih', Map.find_erase_ne m ha, this]

/-- Cancellation deletes the order from the priority list of its side. -/
theorem WF.resting_remove {b : OrderBook} (h : WF b) {id : Nat} {o : Order}
    (ho : Map.find b.masterbook id = some o) (r : BookRef) :
    (remove b id).2.resting r = (b.resting r).filter (fun x => !decide (x.id = id)) := by
  unfold OrderBook.resting
  rw [h.ids_remove ho r, (h.remove_fields ho).2.2.1, (h.ids_nodup r).erase_eq_filter]
  have := filterMap_find_erase (m := b.masterbook) id (Book.ids (b.book r))
    (fun k _ o hk => (h.entry k o hk).1)
  simpa using this

theorem filterMap_find_modify {m : MasterBook} (id : Nat) (f : Order → Order) (l : List Nat)
    (hid : ∀ k ∈ l, ∀ o, Map.find m k = some o → o.id = k) :
    l.filterMap (Map.find (Map.modify m id f)) =
      (l.filterMap (Map.find m)).map (fun o => if o.id = id then f o else o) := by
  induction l with
  | nil => rfl
  | cons a rest ih =>
    have ih' := ih (fun k hk => hid k (List.mem_cons_of_mem _ hk))
    by_cases ha : a = id
    · subst ha
      cases ho : Map.find m a with
      | none => simp [ho, ih', Map.find_modify_self]
      | some o =>
        have := hid a (List.mem_cons_self _ _) o ho
        simp [ho, ih', this, Map.find_modify_self]
    · cases ho : Map.find m a with
      | none => simp [ho, ih', Map.find_modify_ne m f ha]
      | some o =>
        have := hid a (List.mem_cons_self _ _) o ho
        simp [ha, ho, ih', Map.find_modify_ne m f ha, this]

/-- A write to one indexed order shows in the priority list at that order only. -/
theorem WF.resting_modify {b : OrderBook} (h : WF b) (id : Nat) (f : Order → Order)
    (r : BookRef) :
    ({ b with masterbook := Map.modify b.masterbook id f } : OrderBook).resting r =
      (b.resting r).map (fun o => if o.id = id then f o else o) := by
  unfold OrderBook.resting
  rw [OrderBook.book_with_masterbook]
  exact filterMap_find_modify id f _ (fun k _ o hk => (h.entry k o hk).1)

/-! ## What a matching run leaves alone -/

theorem Frame.refl (b : OrderBook) (r : BookRef) : Frame b b r :=
  ⟨rfl, fun _ _ => rfl, fun _ _ h _ => h, fun _ h => h, fun _ q h => ⟨q, h⟩, le_rfl⟩

theorem Frame.trans {b b' b'' : OrderBook} {r : BookRef} (h : Frame b b' r)
    (h' : Frame b' b'' r) : Frame b b'' r := by
  refine ⟨h'.id_generator.trans h.id_generator, fun r' hr => (h'.other r' hr).trans (h.other r' hr),
    fun k o ho hs => h'.kept k o (h.kept k o ho hs) hs, fun k hk => h'.index k (h.index k hk),
    fun p q'' hm => ?_, h'.length.trans h.length⟩
  obtain ⟨q', hq'⟩ := h'.levels p q'' hm
  exact h.levels p q' hq'

theorem frame_remove {b : OrderBook} (h : WF b) {id : Nat} {o : Order} {r : BookRef}
    (ho : Map.find b.masterbook id = some o) (hs : o.is_buy = r.side) :
    Frame b (remove b id).2 r := by
  obtain ⟨-, hg, hmb, hown, hoth⟩ := h.remove_fields ho
  have hr : BookRef.own o.is_buy = r := by rw [hs, BookRef.own_side]
  rw [hr] at hown hoth
  refine ⟨hg, hoth, ?_, ?_, ?_, ?_⟩
  · intro k o' hk hs'
    have hkid : k ≠ id := by
      rintro rfl
      rw [ho] at hk
      cases hk
      exact hs' hs
    rw [hmb, Map.find_erase_ne _ hkid]
    exact hk
  · intro k hk
    have hkid : k ≠ id := by
      rintro rfl
      rw [ho] at hk
      cases hk
    rw [hmb, Map.find_erase_ne _ hkid]
    exact hk
  · intro p q' hm
    rw [hown] at hm
    obtain ⟨q, hq, -⟩ := Book.mem_unlink _ _ _ hm
    exact ⟨q, hq⟩
  · rw [hmb]
    have := Map.length_erase _ ho
    omega

theorem frame_modify (b : OrderBook) {id : Nat} {o : Order} {r : BookRef} (f : Order → Order)
    (ho : Map.find b.masterbook id = some o) (hs : o.is_buy = r.side) :
    Frame b { b with masterbook := Map.modify b.masterbook id f } r := by
  refine ⟨rfl, fun r' _ => OrderBook.book_with_masterbook _ _ _, ?_, ?_, ?_, ?_⟩
  · intro k o' hk hs'
    have hkid : k ≠ id := by
      rintro rfl
      rw [ho] at hk
      cases hk
      exact hs' hs
    show Map.find (Map.modify b.masterbook id f) k = some o'
    rw [Map.find_modify_ne _ _ hkid]
    exact hk
  · intro k hk
    have hkid : k ≠ id := by
      rintro rfl
      rw [ho] at hk
      cases hk
    show Map.find (Map.modify b.masterbook id f) k = none
    rw [Map.find_modify_ne _ _ hkid]
    exact hk
  · intro p q' hm
    rw [OrderBook.book_with_masterbook] at hm
    exact ⟨q', hm⟩
  · show (Map.modify b.masterbook id f).length ≤ _
    rw [Map.length_modify]

/-! ## The front order of a book -/

theorem WF.tail_ids_ne {b : OrderBook} (h : WF b) {r : BookRef} {o : Order} {tl : List Order}
    (hr : b.resting r = o :: tl) : ∀ x ∈ tl, x.id ≠ o.id := by
  have hnd := h.resting_nodup r
  rw [hr, List.map_cons, List.nodup_cons] at hnd
  intro x hx heq
  exact hnd.1 (List.mem_map.2 ⟨x, hx, heq⟩)

/-- Removing the front order of the best level drops the head of the priority list. -/
theorem WF.remove_front {b : OrderBook} (h : WF b) {r : BookRef} {p : Int} {i : Nat}
    {q : List Nat} {rest : Book} {o : Order} {tl : List Order}
    (hb : b.book r = (p, i :: q) :: rest) (ho : Map.find b.masterbook i = some o)
    (hr : b.resting r = o :: tl) :
    (remove b i).2.book r = (if q = [] then rest else (p, q) :: rest) ∧
    (remove b i).2.resting r = tl := by
  have hm : (p, i :: q) ∈ b.book r := by rw [hb]; exact List.mem_cons_self _ _
  obtain ⟨o', ho', hid, hp, hs, -⟩ := h.find_entry hm (List.mem_cons_self _ _)
  rw [ho] at ho'
  cases ho'
  obtain ⟨-, -, -, hown, -⟩ := h.remove_fields ho
  have hown' : BookRef.own o.is_buy = r := by rw [hs, BookRef.own_side]
  rw [hown'] at hown
  constructor
  · rw [hown, hb, hp]
    by_cases hq : q = []
    · simp [Book.unlink, hq]
    · simp [Book.unlink, hq]
  · rw [h.resting_remove ho r, hr]
    have htl := h.tail_ids_ne hr
    rw [hid] at htl
    rw [List.filter_cons]
    simp only [hid, decide_True, Bool.not_true, Bool.false_eq_true, if_false]
    exact List.filter_eq_self.2 (fun x hx => by simpa using htl x hx)

/-- A write to the front order of the best level changes the head of the priority list. -/
theorem WF.modify_front {b : OrderBook} (h : WF b) {r : BookRef} {i : Nat} {o : Order}
    {tl : List Order} (f : Order → Order) (hid : o.id = i) (hr : b.resting r = o :: tl) :
    ({ b with masterbook := Map.modify b.masterbook i f } : OrderBook).resting r = f o :: tl := by
  rw [h.resting_modify, hr, List.map_cons, if_pos hid]
  congr 1
  have htl := h.tail_ids_ne hr
  rw [hid] at htl
  conv_rhs => rw [← List.map_id tl]
  exact List.map_congr_left (fun x hx => by simp [htl x hx])

/-! ## The consumption function -/

theorem consume_zero (c : Int → Bool) (l : List Order) : consume c l 0 = (l, 0) := by
  cases l <;> simp [consume]

theorem consume_stop (c : Int → Bool) {o : Order} (l : List Order) (v : Nat)
    (hc : c o.price = false) : consume c (o :: l) v = (o :: l, v) := by
  by_cases hv : v = 0
  · subst hv
    exact consume_zero c _
  · simp [consume, hv, hc]

theorem consume_take (c : Int → Bool) {o : Order} (l : List Order) {v : Nat} (hv : v ≠ 0)
    (hc : c o.price = true) (hle : o.volume ≤ v) :
    consume c (o :: l) v = consume c l (v - o.volume) := by
  simp [consume, hv, hc, hle]

theorem consume_part (c : Int → Bool) {o : Order} (l : List Order) {v : Nat} (hv : v ≠ 0)
    (hc : c o.price = true) (hle : ¬ o.volume ≤ v) :
    consume c (o :: l) v = ({ o with volume := o.volume - v } :: l, 0) := by
  simp [consume, hv, hc, hle]

theorem consume_congr {c c' : Int → Bool} (l : List Order) (v : Nat)
    (h : ∀ o ∈ l, c o.price = c' o.price) : consume c l v = consume c' l v := by
  induction l generalizing v with
  | nil => rfl
  | cons o rest ih =>
    have ho := h o (List.mem_cons_self _ _)
    have ih' := fun v => ih v (fun x hx => h x (List.mem_cons_of_mem _ hx))
    simp [consume, ho, ih']

/-! ## One iteration of the inner loops -/

theorem match_level_succ {b : OrderBook} {book : BookRef} {best_price : Int} {i : Nat}
    {q : List Nat} {o : Order} (fuel v : Nat)
    (hf : Map.find (b.book book) best_price = some (i :: q))
    (ho : Map.find b.masterbook i = some o) :
    match_level book best_price (fuel + 1) b v =
      if v = 0 then .ok (false, v, b)
      else if o.volume ≤ v then
        (if q = [] then .ok (false, v - o.volume, (remove b o.id).2)
         else match_level book best_price fuel (remove b o.id).2 (v - o.volume))
      else .ok (true, 0,
        { b with masterbook := Map.modify b.masterbook i (fun x => { x with volume := x.volume - v }) }) := by
  by_cases hv : v = 0
  · simp [match_level, hf, hv]
  · have hv' : 0 < v := Nat.pos_of_ne_zero hv
    by_cases hle : o.volume ≤ v
    · by_cases hq : q = []
      · simp [match_level, hf, ho, hv, hv', hle, hq]
      · simp [match_level, hf, ho, hv, hv', hle, hq]
    · simp [match_level, hf, ho, hv, hv', hle]

theorem market_consume_level_succ {b : OrderBook} {book : BookRef} {best_price : Int} {i : Nat}
    {q : List Nat} {o : Order} (fuel v : Nat)
    (hf : Map.find (b.book book) best_price = some (i :: q))
    (ho : Map.find b.masterbook i = some o) :
    market_consume_level book best_price (fuel + 1) b v =
      if v = 0 then .ok (false, v, b)
      else if o.volume ≤ v then
        (if q = [] then .ok (false, v - o.volume, (remove b o.id).2)
         else market_consume_level book best_price fuel (remove b o.id).2 (v - o.volume))
      else .ok (true, 0,
        { b with masterbook := Map.modify b.masterbook i (fun x => { x with volume := x.volume - v }) }) := by
  by_cases hv : v = 0
  · simp [market_consume_level, hf, hv]
  · have hv' : 0 < v := Nat.pos_of_ne_zero hv
    by_cases hle : o.volume ≤ v
    · by_cases hq : q = []
      · simp [market_consume_level, hf, ho, hv, hv', hle, hq]
      · simp [market_consume_level, hf, ho, hv, hv', hle, hq]
    · simp [market_consume_level, hf, ho, hv, hv', hle]

/-! ## The loops of `match` -/

/-- The inner loop of `match` on a consistent state whose best level is
acceptable: it returns, keeps the state consistent, and what is left to do
on the priority list is what was to do before. -/
theorem match_level_spec (crosses : Int → Bool) (r : BookRef) (p : Int)
    (hc : crosses p = true) :
    ∀ (fuel : Nat) (b : OrderBook) (v : Nat) (q : List Nat) (rest : Book),
      WF b → b.book r = (p, q) :: rest → b.masterbook.length < fuel →
      ∃ ret v' b', match_level r p fuel b v = .ok (ret, v', b') ∧ WF b' ∧ Frame b b' r ∧
        consume crosses (b'.resting r) v' = consume crosses (b.resting r) v ∧
        (ret = true → v' = 0) ∧
        (ret = false → 0 < v → b'.masterbook.length < b.masterbook.length) := by
  intro fuel
  induction fuel with
  | zero => intro b v q rest _ _ hlen; omega
  | succ fuel ih =>
    intro b v q rest hwf hb hlen
    have hm : (p, q) ∈ b.book r := by rw [hb]; exact List.mem_cons_self _ _
    have hqne : q ≠ [] := (hwf.level r p q hm).1
    obtain ⟨i, q', rfl⟩ := List.exists_cons_of_ne_nil hqne
    obtain ⟨o, ho, hid, hp, hs, hvol, hrest⟩ := hwf.resting_cons hb
    have hf : Map.find (b.book r) p = some (i :: q') := by simp [hb, Map.find]
    rw [match_level_succ fuel v hf ho]
    by_cases hv : v = 0
    · refine ⟨false, v, b, by simp [hv], hwf, Frame.refl b r, rfl, by simp, ?_⟩
      intro _ h0
      omega
    · rw [if_neg hv]
      have hco : crosses o.price = true := by rw [hp]; exact hc
      by_cases hle : o.volume ≤ v
      · rw [if_pos hle, hid]
        obtain ⟨hbook1, hrest1⟩ := hwf.remove_front hb ho hrest
        have hwf1 := wf_remove hwf i
        have hfr1 := frame_remove hwf ho hs
        have hlen1 : (remove b i).2.masterbook.length + 1 = b.masterbook.length := by
          rw [(hwf.remove_fields ho).2.2.1]
          exact Map.length_erase _ ho
        have hcons : consume crosses ((remove b i).2.resting r) (v - o.volume) =
            consume crosses (b.resting r) v := by
          rw [hrest1, hrest, consume_take crosses _ hv hco hle]
        by_cases hq' : q' = []
        · rw [if_pos hq']
          exact ⟨false, v - o.volume, (remove b i).2, rfl, hwf1, hfr1, hcons, by simp,
            fun _ _ => by omega⟩
        · rw [if_neg hq']
          rw [if_neg hq'] at hbook1
          obtain ⟨ret, v', b', hrun, hwf', hfr', hcons', hret, hprog⟩ :=
            ih (remove b i).2 (v - o.volume) q' rest hwf1 hbook1 (by omega)
          refine ⟨ret, v', b', hrun, hwf', hfr1.trans hfr', hcons'.trans hcons, hret, ?_⟩
          intro _ _
          have := hfr'.length
          omega
      · rw [if_neg hle]
        have hpos : 0 < o.volume - v := by omega
        refine ⟨true, 0, _, rfl, ?_, frame_modify b _ ho hs, ?_, fun _ => rfl, by simp⟩
        · refine wf_modify hwf i _ (fun x => ⟨rfl, rfl, rfl, rfl⟩) ?_
          intro x hx
          rw [ho] at hx
          cases hx
          exact hpos
        · rw [hwf.modify_front _ hid hrest, consume_zero, hrest,
            consume_part crosses _ hv hco hle]

/-- The inner loop of `market_consume` does what the inner loop of `match`
does, on a consistent state whose book starts with the level walked. -/
theorem market_consume_level_eq (r : BookRef) (p : Int) :
    ∀ (fuel : Nat) (b : OrderBook) (v : Nat) (q : List Nat) (rest : Book),
      WF b → b.book r = (p, q) :: rest →
      market_consume_level r p fuel b v = match_level r p fuel b v := by
  intro fuel
  induction fuel with
  | zero => intro b v q rest _ _; rfl
  | succ fuel ih =>
    intro b v q rest hwf hb
    have hm : (p, q) ∈ b.book r := by rw [hb]; exact List.mem_cons_self _ _
    have hqne : q ≠ [] := (hwf.level r p q hm).1
    obtain ⟨i, q', rfl⟩ := List.exists_cons_of_ne_nil hqne
    obtain ⟨o, ho, hid, hp, hs, hvol, hrest⟩ := hwf.resting_cons hb
    have hf : Map.find (b.book r) p = some (i :: q') := by simp [hb, Map.find]
    rw [match_level_succ fuel v hf ho, market_consume_level_succ fuel v hf ho]
    by_cases hq' : q' = []
    · simp [hq']
    · have hbook1 := (hwf.remove_front hb ho hrest).1
      rw [if_neg hq'] at hbook1
      rw [hid, ih (remove b i).2 (v - o.volume) q' rest (wf_remove hwf i) hbook1]

/-- The acceptance test of `match` for the multiplier `mult`. -/
theorem match_loop_spec (r : BookRef) (P mult : Int) :
    ∀ (fuel : Nat) (b : OrderBook) (v : Nat), WF b → b.masterbook.length < fuel →
      ∃ b', match_loop r P mult fuel b v =
          .ok ((consume (fun p => decide (p * mult ≤ P * mult)) (b.resting r) v).2, b') ∧
        WF b' ∧ Frame b b' r ∧
        b'.resting r = (consume (fun p => decide (p * mult ≤ P * mult)) (b.resting r) v).1 := by
  intro fuel
  induction fuel with
  | zero => intro b v _ hlen; omega
  | succ fuel ih =>
    intro b v hwf hlen
    unfold match_loop
    by_cases hv : v = 0
    · subst hv
      refine ⟨b, ?_, hwf, Frame.refl b r, ?_⟩
      · simp [consume_zero]
      · simp [consume_zero]
    · have hv' : 0 < v := Nat.pos_of_ne_zero hv
      cases hb : b.book r with
      | nil =>
        have hr : b.resting r = [] := by simp [OrderBook.resting, hb]
        refine ⟨b, ?_, hwf, Frame.refl b r, ?_⟩
        · simp [hr, consume]
        · simp [hr, consume]
      | cons lvl rest =>
        obtain ⟨p, q⟩ := lvl
        have hm : (p, q) ∈ b.book r := by rw [hb]; exact List.mem_cons_self _ _
        have hqne : q ≠ [] := (hwf.level r p q hm).1
        obtain ⟨i, q', rfl⟩ := List.exists_cons_of_ne_nil hqne
        obtain ⟨o, ho, hid, hp, hs, hvol, hrest⟩ := hwf.resting_cons hb
        by_cases hc : p * mult ≤ P * mult
        · obtain ⟨ret, v', b1, hrun, hwf1, hfr1, hcons1, hret, hprog⟩ :=
            match_level_spec (fun p => decide (p * mult ≤ P * mult)) r p (by simpa using hc)
              (fuel + 1) b v (i :: q') rest hwf hb hlen
          cases ret with
          | true =>
            have hv0 : v' = 0 := hret rfl
            subst hv0
            rw [consume_zero] at hcons1
            refine ⟨b1, ?_, hwf1, hfr1, ?_⟩
            · simp [hv', hc, hrun, ← hcons1]
            · simp [← hcons1]
          | false =>
            have hlt := hprog rfl hv'
            obtain ⟨b2, hrun2, hwf2, hfr2, hres2⟩ := ih b1 v' hwf1 (by omega)
            rw [hcons1] at hrun2 hres2
            refine ⟨b2, ?_, hwf2, hfr1.trans hfr2, hres2⟩
            simp [hv', hc, hrun, hrun2]
        · have hco : (fun p => decide (p * mult ≤ P * mult)) o.price = false := by
            simp [hp, hc]
          refine ⟨b, ?_, hwf, Frame.refl b r, ?_⟩
          · rw [hrest, consume_stop _ _ _ hco]
            simp [hv', hc]
          · rw [hrest, consume_stop _ _ _ hco]

/-! ## `match` and `market_consume` -/

theorem crosses_eq_mult (is_buy : Bool) (P : Int) :
    (fun p : Int => decide (p * (if is_buy then 1 else -1) ≤ P * (if is_buy then 1 else -1))) =
      crosses is_buy P := by
  funext p
  cases is_buy <;> simp [crosses]

theorem resting_of_book_nil {b : OrderBook} {r : BookRef} (h : b.book r = []) :
    b.resting r = [] := by
  simp [OrderBook.resting, h]

/-- On a consistent state `match` returns, and acts on the priority list of
its book as `consume` with the crossing predicate. -/
theorem match'_spec {b : OrderBook} (hwf : WF b) (r : BookRef) (P : Int) (v : Nat)
    (is_buy : Bool) :
    ∃ b', match' b r P v is_buy = .ok ((consume (crosses is_buy P) (b.resting r) v).2, b') ∧
      WF b' ∧ Frame b b' r ∧
      b'.resting r = (consume (crosses is_buy P) (b.resting r) v).1 := by
  unfold match'
  cases hb : b.book r with
  | nil =>
    have hr := resting_of_book_nil hb
    refine ⟨b, ?_, hwf, Frame.refl b r, ?_⟩
    · simp [hr, consume]
    · simp [hr, consume]
  | cons lvl rest =>
    obtain ⟨b', hrun, hwf', hfr, hres⟩ :=
      match_loop_spec r P (if is_buy then 1 else -1) (b.masterbook.length + 1) b v hwf
        (Nat.lt_succ_self _)
    rw [crosses_eq_mult] at hrun hres
    refine ⟨b', ?_, hwf', hfr, hres⟩
    simpa using hrun

theorem Frame.levels_le {b b' : OrderBook} {r : BookRef} (h : Frame b b' r) {B mult : Int}
    (hall : ∀ p q, (p, q) ∈ b.book r → p * mult ≤ B * mult) :
    ∀ p q, (p, q) ∈ b'.book r → p * mult ≤ B * mult := by
  intro p q' hm
  obtain ⟨q, hq⟩ := h.levels p q' hm
  exact hall p q hq

/-- The loops of `market_consume` do what the loops of `match` do when the
limit price is acceptable at every level of the book. -/
theorem market_consume_loop_eq (r : BookRef) (P mult : Int) :
    ∀ (fuel : Nat) (b : OrderBook) (v : Nat), WF b → b.masterbook.length < fuel →
      (∀ p q, (p, q) ∈ b.book r → p * mult ≤ P * mult) →
      market_consume_loop r fuel b v = match_loop r P mult fuel b v := by
  intro fuel
  induction fuel with
  | zero => intro b v _ hlen; omega
  | succ fuel ih =>
    intro b v hwf hlen hall
    unfold market_consume_loop match_loop
    by_cases hv : v = 0
    · simp [hv]
    · have hv' : 0 < v := Nat.pos_of_ne_zero hv
      cases hb : b.book r with
      | nil => simp
      | cons lvl rest =>
        obtain ⟨p, q⟩ := lvl
        have hm : (p, q) ∈ b.book r := by rw [hb]; exact List.mem_cons_self _ _
        have hc : p * mult ≤ P * mult := hall p q hm
        obtain ⟨ret, v', b1, hrun, hwf1, hfr1, -, -, hprog⟩ :=
          match_level_spec (fun _ => true) r p rfl (fuel + 1) b v q rest hwf hb hlen
        have heq := market_consume_level_eq r p (fuel + 1) b v q rest hwf hb
        cases ret with
        | true => simp [hv', hc, heq, hrun]
        | false =>
          have hlt := hprog rfl hv'
          have := ih b1 v' hwf1 (by omega) (hfr1.levels_le hall)
          simp [hv', hc, heq, hrun, this]

theorem Book.exists_upper (bk : Book) : ∃ B : Int, ∀ p q, (p, q) ∈ bk → p ≤ B := by
  induction bk with
  | nil => exact ⟨0, fun _ _ h => by simp at h⟩
  | cons lvl rest ih =>
    obtain ⟨B, hB⟩ := ih
    refine ⟨max lvl.1 B, fun p q hm => ?_⟩
    rcases List.mem_cons.1 hm with h | h
    · rw [← h]
      exact le_max_left _ _
    · exact (hB p q h).trans (le_max_right _ _)

theorem WF.price_mem_of_resting {b : OrderBook} (h : WF b) {r : BookRef} {o : Order}
    (ho : o ∈ b.resting r) : ∃ q, (o.price, q) ∈ b.book r := by
  obtain ⟨hf, hi⟩ := h.mem_resting ho
  obtain ⟨o', ho', -, -, -, q, hq, -⟩ := h.find_of_mem_ids hi
  rw [hf] at ho'
  cases ho'
  exact ⟨q, hq⟩

/-- `market_consume` is `match` with a limit price acceptable at every level. -/
theorem market_consume_eq_match' {b : OrderBook} (hwf : WF b) (r : BookRef) (P : Int) (v : Nat)
    (is_buy : Bool)
    (hall : ∀ p q, (p, q) ∈ b.book r → crosses is_buy P p = true) :
    market_consume b r v = match' b r P v is_buy := by
  unfold market_consume match'
  cases hb : b.book r with
  | nil => simp [market_consume_loop, hb]
  | cons lvl rest =>
    have := market_consume_loop_eq r P (if is_buy then 1 else -1) (b.masterbook.length + 1) b v
      hwf (Nat.lt_succ_self _) (fun p q hm => by
        have := hall p q hm
        rw [← crosses_eq_mult] at this
        simpa using this)
    simpa using this

/-- On a consistent state `market_consume` returns, and acts on the priority
list of its book as `consume` with every price acceptable. -/
theorem market_consume_spec {b : OrderBook} (hwf : WF b) (r : BookRef) (v : Nat) :
    ∃ b', market_consume b r v = .ok ((consume (fun _ => true) (b.resting r) v).2, b') ∧
      WF b' ∧ Frame b b' r ∧
      b'.resting r = (consume (fun _ => true) (b.resting r) v).1 := by
  obtain ⟨B, hB⟩ := Book.exists_upper (b.book r)
  have hall : ∀ p q, (p, q) ∈ b.book r → crosses true B p = true := by
    intro p q hm
    simpa [crosses] using hB p q hm
  have hcongr : consume (crosses true B) (b.resting r) v =
      consume (fun _ => true) (b.resting r) v := by
    refine consume_congr _ _ (fun o ho => ?_)
    obtain ⟨q, hq⟩ := hwf.price_mem_of_resting ho
    exact hall _ q hq
  obtain ⟨b', hrun, hwf', hfr, hres⟩ := match'_spec hwf r B v true
  rw [hcongr] at hrun hres
  exact ⟨b', by rw [market_consume_eq_match' hwf r B v true hall]; exact hrun, hwf', hfr, hres⟩

/-! ## Registration of a resting order -/

theorem BookRef.comp_irrefl (r : BookRef) (x : Int) : r.comp x x = false := by
  cases r <;> simp [BookRef.comp]

theorem BookRef.comp_trans (r : BookRef) {x y z : Int} (h : r.comp x y = true)
    (h' : r.comp y z = true) : r.comp x z = true := by
  cases r <;> simp [BookRef.comp] at h h' ⊢ <;> omega

theorem BookRef.comp_total (r : BookRef) {x y : Int} (h : r.comp x y = false)
    (h' : r.comp y x = false) : y = x := by
  cases r <;> simp [BookRef.comp] at h h' <;> omega

theorem BookRef.comp_ne (r : BookRef) {x y : Int} (h : r.comp x y = true) : x ≠ y := by
  rintro rfl
  rw [r.comp_irrefl] at h
  cases h

/-- `get_price_linked_list` followed by the insertion at the end of the queue. -/
theorem Book.emplace_push (r : BookRef) (bk : Book) (price : Int) (id : Nat) :
    Map.modify (Book.emplace r.comp bk price) price
        (fun _ => (Map.find (Book.emplace r.comp bk price) price).getD [] ++ [id]) =
      Book.push r.comp bk price id := by
  induction bk with
  | nil => simp [Book.emplace, Book.push, Map.modify, Map.find]
  | cons lvl rest ih =>
    obtain ⟨p, q⟩ := lvl
    cases h1 : r.comp price p with
    | true => simp [Book.emplace, Book.push, Map.modify, Map.find, h1]
    | false =>
      cases h2 : r.comp p price with
      | true =>
        have hne : p ≠ price := r.comp_ne h2
        simp only [Book.emplace, Book.push, h1, h2, Bool.false_eq_true, if_false, if_true,
          Map.modify, Map.find, hne]
        rw [ih]
      | false =>
        have he : p = price := (r.comp_total h2 h1).symm
        subst he
        simp [Book.emplace, Book.push, Map.modify, Map.find, r.comp_irrefl]

theorem Book.mem_push (r : BookRef) (bk : Book) (price : Int) (id : Nat) {p : Int}
    {q' : List Nat} (h : (p, q') ∈ Book.push r.comp bk price id) :
    (p, q') ∈ bk ∨ (p = price ∧ (q' = [id] ∨ ∃ q, (p, q) ∈ bk ∧ q' = q ++ [id])) := by
  induction bk with
  | nil =>
    simp only [Book.push, List.mem_singleton, Prod.mk.injEq] at h
    exact Or.inr ⟨h.1, Or.inl h.2⟩
  | cons lvl rest ih =>
    obtain ⟨p0, q0⟩ := lvl
    unfold Book.push at h
    split at h
    · rcases List.mem_cons.1 h with h | h
      · simp only [Prod.mk.injEq] at h
        exact Or.inr ⟨h.1, Or.inl h.2⟩
      · exact Or.inl h
    · split at h
      · rcases List.mem_cons.1 h with h | h
        · exact Or.inl (by rw [h]; exact List.mem_cons_self _ _)
        · rcases ih h with h | ⟨hp, h | ⟨q, hq, h⟩⟩
          · exact Or.inl (List.mem_cons_of_mem _ h)
          · exact Or.inr ⟨hp, Or.inl h⟩
          · exact Or.inr ⟨hp, Or.inr ⟨q, List.mem_cons_of_mem _ hq, h⟩⟩
      · rename_i h1 h2
        rcases List.mem_cons.1 h with h | h
        · simp only [Prod.mk.injEq] at h
          have he : p0 = price :=
            (r.comp_total (by simpa using h2) (by simpa using h1)).symm
          exact Or.inr ⟨h.1.trans he, Or.inr ⟨q0, by rw [h.1]; exact List.mem_cons_self _ _, h.2⟩⟩
        · exact Or.inl (List.mem_cons_of_mem _ h)

theorem Book.key_mem_push (r : BookRef) (bk : Book) (price : Int) (id : Nat) {p : Int}
    {q' : List Nat} (h : (p, q') ∈ Book.push r.comp bk price id) :
    p = price ∨ ∃ q, (p, q) ∈ bk := by
  rcases Book.mem_push r bk price id h with h | ⟨hp, -⟩
  · exact Or.inr ⟨q', h⟩
  · exact Or.inl hp

theorem Book.pairwise_push (r : BookRef) (bk : Book) (price : Int) (id : Nat)
    (h : bk.Pairwise (fun x y => r.comp x.1 y.1 = true)) :
    (Book.push r.comp bk price id).Pairwise (fun x y => r.comp x.1 y.1 = true) := by
  induction bk with
  | nil => simp [Book.push]
  | cons lvl rest ih =>
    obtain ⟨p0, q0⟩ := lvl
    have h' := List.pairwise_cons.1 h
    unfold Book.push
    split
    · rename_i h1
      refine List.pairwise_cons.2 ⟨fun y hy => ?_, h⟩
      rcases List.mem_cons.1 hy with hy | hy
      · rw [hy]
        exact h1
      · exact r.comp_trans h1 (h'.1 y hy)
    · split
      · rename_i h1 h2
        refine List.pairwise_cons.2 ⟨fun y hy => ?_, ih h'.2⟩
        obtain ⟨py, qy⟩ := y
        rcases Book.key_mem_push r rest price id hy with hy | ⟨q, hq⟩
        · rw [hy]
          exact h2
        · exact h'.1 (py, q) hq
      · exact List.pairwise_cons.2 ⟨fun y hy => h'.1 y hy, h'.2⟩

theorem Book.find_push_ne (r : BookRef) (bk : Book) {price p : Int} (id : Nat) (h : p ≠ price) :
    Map.find (Book.push r.comp bk price id) p = Map.find bk p := by
  induction bk with
  | nil =>
    have : ¬ price = p := fun h' => h h'.symm
    simp [Book.push, Map.find, this]
  | cons lvl rest ih =>
    obtain ⟨p0, q0⟩ := lvl
    unfold Book.push
    split
    · have : ¬ price = p := fun h' => h h'.symm
      simp [Map.find, this]
    · split
      · by_cases hp : p0 = p
        · simp [Map.find, hp]
        · simp [Map.find, hp, ih]
      · rename_i h1 h2
        have he : p0 = price := (r.comp_total (by simpa using h2) (by simpa using h1)).symm
        have : ¬ p0 = p := by rw [he]; exact fun h' => h h'.symm
        simp [Map.find, this]

theorem Book.find_push_self (r : BookRef) (bk : Book) (price : Int) (id : Nat)
    (h : bk.Pairwise (fun x y => r.comp x.1 y.1 = true)) :
    Map.find (Book.push r.comp bk price id) price =
      some ((Map.find bk price).getD [] ++ [id]) := by
  induction bk with
  | nil => simp [Book.push, Map.find]
  | cons lvl rest ih =>
    obtain ⟨p0, q0⟩ := lvl
    have h' := List.pairwise_cons.1 h
    unfold Book.push
    split
    · rename_i h1
      have hnone : Map.find ((p0, q0) :: rest) price = none := by
        rw [Map.find_eq_none_iff]
        intro hmem
        obtain ⟨y, hy, hye⟩ := List.mem_map.1 hmem
        rcases List.mem_cons.1 hy with hy | hy
        · rw [hy] at hye
          exact r.comp_ne h1 hye.symm
        · exact r.comp_ne (r.comp_trans h1 (h'.1 y hy)) hye.symm
      rw [hnone]
      simp [Map.find]
    · split
      · rename_i h1 h2
        have hne : ¬ p0 = price := r.comp_ne h2
        simp [Map.find, hne, ih h'.2]
      · rename_i h1 h2
        have he : p0 = price := (r.comp_total (by simpa using h2) (by simpa using h1)).symm
        simp [Map.find, he]

theorem Book.ids_push_perm (c : Int → Int → Bool) (bk : Book) (price : Int) (id : Nat) :
    (Book.ids (Book.push c bk price id)).Perm (id :: Book.ids bk) := by
  induction bk with
  | nil => simp [Book.push]
  | cons lvl rest ih =>
    obtain ⟨p0, q0⟩ := lvl
    unfold Book.push
    split
    · simp
    · split
      · rw [Book.ids_cons, Book.ids_cons]
        exact (List.Perm.append_left q0 ih).trans List.perm_middle
      · rw [Book.ids_cons, Book.ids_cons, List.append_assoc]
        exact List.perm_middle

theorem Book.ids_push_erase (c : Int → Int → Bool) (bk : Book) (price : Int) (id : Nat)
    (h : id ∉ Book.ids bk) : (Book.ids (Book.push c bk price id)).erase id = Book.ids bk := by
  induction bk with
  | nil => simp [Book.push]
  | cons lvl rest ih =>
    obtain ⟨p0, q0⟩ := lvl
    rw [Book.ids_cons, List.mem_append, not_or] at h
    unfold Book.push
    split
    · simp
    · split
      · rw [Book.ids_cons, Book.ids_cons, List.erase_append_right _ h.1, ih h.2]
      · rw [Book.ids_cons, Book.ids_cons, List.append_assoc, List.erase_append_right _ h.1]
        simp

theorem Map.modify_append_self {κ ν : Type} [DecidableEq κ] (m : List (κ × ν)) (k : κ) (v : ν)
    (f : ν → ν) (h : Map.find m k = none) :
    Map.modify (m ++ [(k, v)]) k f = m ++ [(k, f v)] := by
  induction m with
  | nil => simp [Map.modify]
  | cons e rest ih =>
    obtain ⟨a, w⟩ := e
    by_cases ha : a = k
    · simp [Map.find, ha] at h
    · simp only [Map.find, ha, if_false] at h
      simp [Map.modify, ha, ih h]

/-- The method `add` in terms of `match` and the registered state. -/
theorem add_eq (b : OrderBook) (price_ : Int) (volume_ : Nat) (is_buy_ : Bool)
    (hp : 0 < price_) :
    add b price_ volume_ is_buy_ =
      match match' b (BookRef.against is_buy_) price_ volume_ is_buy_ with
      | .fault f => .fault f
      | .ok (r, b1) =>
        if r = 0 then .ok (0, b1)
        else if (Map.find b1.masterbook b1.id_generator).isSome then
          .ok (0, { b1 with id_generator := (b1.id_generator + 1) % 2 ^ 64 })
        else .ok (b1.id_generator, b1.register price_ r is_buy_) := by
  have hp' : ¬ price_ ≤ 0 := by omega
  unfold add
  rw [if_neg hp']
  have hm : (if is_buy_ = true then match' b .askbook price_ volume_ is_buy_
      else match' b .bidbook price_ volume_ is_buy_) =
      match' b (BookRef.against is_buy_) price_ volume_ is_buy_ := by
    cases is_buy_ <;> rfl
  rw [hm]
  cases hrun : match' b (BookRef.against is_buy_) price_ volume_ is_buy_ with
  | fault f => rfl
  | ok res =>
    obtain ⟨r, b1⟩ := res
    by_cases hr : r = 0
    · simp [hr]
    · have hr' : ¬ r ≤ 0 := by omega
      simp only [hr, if_false, Order.ctor, hp', hr']
      cases hf : Map.find b1.masterbook b1.id_generator with
      | some o => simp [MasterBook.emplace, hf]
      | none =>
        simp only [MasterBook.emplace, hf, Option.isSome_none, Bool.false_eq_true, if_false]
        have hown : (if is_buy_ = true then BookRef.bidbook else BookRef.askbook) =
            BookRef.own is_buy_ := rfl
        simp only [hown, get_price_linked_list, OrderBook.book_with_masterbook,
          OrderBook.book_with_id_generator, Book.emplace_push]
        have hmod := Map.modify_append_self b1.masterbook b1.id_generator
          ({ id := b1.id_generator, price := price_, volume := r, is_buy := is_buy_,
             is_valid := false } : Order) Order.set_iterator hf
        cases is_buy_ <;>
          simp [OrderBook.register, OrderBook.setBook, OrderBook.book, BookRef.own, hmod,
            Order.set_iterator]

theorem register_fields (b : OrderBook) (price_ : Int) (volume_ : Nat) (is_buy_ : Bool) :
    (b.register price_ volume_ is_buy_).id_generator = (b.id_generator + 1) % 2 ^ 64 ∧
    (b.register price_ volume_ is_buy_).masterbook =
      b.masterbook ++ [(b.id_generator, ⟨b.id_generator, price_, volume_, is_buy_, true⟩)] ∧
    (b.register price_ volume_ is_buy_).book (BookRef.own is_buy_) =
      Book.push (BookRef.own is_buy_).comp (b.book (BookRef.own is_buy_)) price_
        b.id_generator ∧
    ∀ r, r ≠ BookRef.own is_buy_ → (b.register price_ volume_ is_buy_).book r = b.book r := by
  refine ⟨by simp [OrderBook.register], by simp [OrderBook.register],
    by simp [OrderBook.register], fun r hr => ?_⟩
  cases is_buy_ <;> cases r <;>
    simp_all [OrderBook.register, BookRef.own, OrderBook.setBook, OrderBook.book]

theorem WF.not_mem_ids_of_find_none {b : OrderBook} (h : WF b) {g : Nat}
    (hg : Map.find b.masterbook g = none) (r : BookRef) : g ∉ Book.ids (b.book r) := by
  intro hi
  obtain ⟨o, ho, -⟩ := h.find_of_mem_ids hi
  rw [hg] at ho
  cases ho

/-- Registration of a resting order under a fresh id keeps the state consistent. -/
theorem wf_register {b : OrderBook} (h : WF b) (price_ : Int) (volume_ : Nat) (is_buy_ : Bool)
    (hg : Map.find b.masterbook b.id_generator = none) (hp : 0 < price_) (hv : 0 < volume_) :
    WF (b.register price_ volume_ is_buy_) := by
  obtain ⟨-, hmb, hown, hoth⟩ := register_fields b price_ volume_ is_buy_
  have hfind : ∀ k, Map.find (b.register price_ volume_ is_buy_).masterbook k =
      if k = b.id_generator then some ⟨b.id_generator, price_, volume_, is_buy_, true⟩
      else Map.find b.masterbook k := by
    intro k
    rw [hmb, Map.find_append]
    by_cases hk : k = b.id_generator
    · subst hk
      simp [hg]
    · have hk' : ¬ b.id_generator = k := fun h' => hk h'.symm
      cases Map.find b.masterbook k <;> simp [hk, hk']
  have hself := Book.find_push_self (BookRef.own is_buy_) (b.book (BookRef.own is_buy_)) price_
    b.id_generator (h.sorted _)
  refine ⟨?_, ?_, ?_, ?_, ?_⟩
  · rw [hmb, List.map_append, List.nodup_append]
    refine ⟨h.keys_nodup, by simp, ?_⟩
    intro a ha hb
    simp only [List.map_cons, List.map_nil, List.mem_singleton] at hb
    subst hb
    exact (Map.find_eq_none_iff _ _).1 hg ha
  · intro k o hk
    rw [hfind] at hk
    by_cases hkg : k = b.id_generator
    · rw [if_pos hkg] at hk
      cases hk
      refine ⟨hkg.symm, rfl, hv, hp,
        (Map.find (b.book (BookRef.own is_buy_)) price_).getD [] ++ [b.id_generator], ?_, ?_⟩
      · show Map.find ((b.register price_ volume_ is_buy_).book (BookRef.own is_buy_)) price_ = _
        rw [hown]
        exact hself
      · simp [hkg]
    · rw [if_neg hkg] at hk
      obtain ⟨e1, e2, e3, e4, q, hq, hkq⟩ := h.entry k o hk
      refine ⟨e1, e2, e3, e4, ?_⟩
      by_cases hr : BookRef.own o.is_buy = BookRef.own is_buy_
      · rw [hr, hown]
        rw [hr] at hq
        by_cases hpr : o.price = price_
        · rw [hpr] at hq ⊢
          exact ⟨_, hself, by simp [hq, hkq]⟩
        · exact ⟨q, by rw [Book.find_push_ne _ _ _ hpr]; exact hq, hkq⟩
      · rw [hoth _ hr]
        exact ⟨q, hq, hkq⟩
  · intro r
    by_cases hr : r = BookRef.own is_buy_
    · subst hr
      rw [hown]
      exact Book.pairwise_push _ _ _ _ (h.sorted _)
    · rw [hoth r hr]
      exact h.sorted r
  · intro r p q' hm
    have hold : ∀ q, (p, q) ∈ b.book r → ∀ i ∈ q, ∃ o,
        Map.find (b.register price_ volume_ is_buy_).masterbook i = some o ∧ o.price = p ∧
          o.is_buy = r.side := by
      intro q hq i hi
      obtain ⟨o, ho, hp', hs⟩ := (h.level r p q hq).2 i hi
      refine ⟨o, ?_, hp', hs⟩
      rw [hfind]
      have : i ≠ b.id_generator := by
        rintro rfl
        rw [hg] at ho
        cases ho
      rw [if_neg this]
      exact ho
    by_cases hr : r = BookRef.own is_buy_
    · subst hr
      rw [hown] at hm
      have hnew : ∃ o, Map.find (b.register price_ volume_ is_buy_).masterbook b.id_generator =
          some o ∧ o.price = price_ ∧ o.is_buy = (BookRef.own is_buy_).side :=
        ⟨_, by rw [hfind, if_pos rfl], rfl, (BookRef.side_own _).symm⟩
      rcases Book.mem_push _ _ _ _ hm with hm | ⟨hpp, hq' | ⟨q, hq, hq'⟩⟩
      · exact ⟨(h.level _ p q' hm).1, hold q' hm⟩
      · subst hq' hpp
        refine ⟨by simp, fun i hi => ?_⟩
        rw [List.mem_singleton.1 hi]
        exact hnew
      · subst hq' hpp
        refine ⟨by simp, fun i hi => ?_⟩
        rcases List.mem_append.1 hi with hi | hi
        · exact hold q hq i hi
        · rw [List.mem_singleton.1 hi]
          exact hnew
    · rw [hoth r hr] at hm
      exact ⟨(h.level r p q' hm).1, hold q' hm⟩
  · intro r
    by_cases hr : r = BookRef.own is_buy_
    · subst hr
      rw [hown]
      refine (Book.ids_push_perm _ _ _ _).nodup_iff.2 (List.nodup_cons.2 ⟨?_, h.ids_nodup _⟩)
      exact h.not_mem_ids_of_find_none hg _
    · rw [hoth r hr]
      exact h.ids_nodup r

theorem wf_with_id_generator {b : OrderBook} (h : WF b) (g : Nat) :
    WF { b with id_generator := g } :=
  ⟨h.keys_nodup, fun k o hk => by
      have := h.entry k o hk
      simpa [OrderBook.book_with_id_generator] using this,
    fun r => by rw [OrderBook.book_with_id_generator]; exact h.sorted r,
    fun r p q hm => by
      rw [OrderBook.book_with_id_generator] at hm
      exact h.level r p q hm,
    fun r => by rw [OrderBook.book_with_id_generator]; exact h.ids_nodup r⟩

theorem wf_empty : WF OrderBook.empty := by
  refine ⟨by simp [OrderBook.empty], ?_, ?_, ?_, ?_⟩
  · intro k o hk
    simp [OrderBook.empty, Map.find] at hk
  · intro r
    cases r <;> simp [OrderBook.empty, OrderBook.book]
  · intro r p q hm
    cases r <;> simp [OrderBook.empty, OrderBook.book] at hm
  · intro r
    cases r <;> simp [OrderBook.empty, OrderBook.book]

theorem wf_modify_volume {b : OrderBook} (h : WF b) (id new_volm : Nat) :
    WF (modify_volume b id new_volm).2 := by
  unfold modify_volume
  cases ho : Map.find b.masterbook id with
  | none => exact h
  | some o =>
    by_cases hv : new_volm = 0
    · simp only [hv, if_true]
      exact wf_remove h id
    · simp only [hv, if_false]
      exact wf_modify h id _ (fun x => ⟨rfl, rfl, rfl, rfl⟩) (fun x _ => Nat.pos_of_ne_zero hv)

/-- On a consistent state `add` returns and leaves a consistent state. -/
theorem wf_add {b : OrderBook} (h : WF b) (price_ : Int) (volume_ : Nat) (is_buy_ : Bool) :
    ∃ ret b', add b price_ volume_ is_buy_ = .ok (ret, b') ∧ WF b' := by
  by_cases hp : price_ ≤ 0
  · exact ⟨0, b, by simp [add, hp], h⟩
  · have hp' : 0 < price_ := by omega
    obtain ⟨b1, hrun, hwf1, -, -⟩ := match'_spec h (BookRef.against is_buy_) price_ volume_ is_buy_
    rw [add_eq b price_ volume_ is_buy_ hp', hrun]
    simp only
    split
    · exact ⟨_, _, rfl, hwf1⟩
    · rename_i hr
      split
      · exact ⟨_, _, rfl, wf_with_id_generator hwf1 _⟩
      · rename_i hf
        refine ⟨_, _, rfl, wf_register hwf1 _ _ _ ?_ hp' (Nat.pos_of_ne_zero hr)⟩
        simpa using hf

/-- On a consistent state `market_order` returns and leaves a consistent state. -/
theorem wf_market_order {b : OrderBook} (h : WF b) (is_buy : Bool) (volume_ : Nat) :
    ∃ ret b', market_order b is_buy volume_ = .ok (ret, b') ∧ WF b' := by
  unfold market_order
  by_cases hv : volume_ = 0
  · exact ⟨0, b, by simp [hv], h⟩
  · rw [if_neg hv]
    cases is_buy with
    | true =>
      obtain ⟨b', hrun, hwf', -⟩ := market_consume_spec h .askbook volume_
      exact ⟨_, b', by simpa using hrun, hwf'⟩
    | false =>
      obtain ⟨b', hrun, hwf', -⟩ := market_consume_spec h .bidbook volume_
      exact ⟨_, b', by simpa using hrun, hwf'⟩

/-- Every reachable state is consistent. -/
theorem Reachable.wf {b : OrderBook} (h : Reachable b) : WF b := by
  induction h with
  | empty => exact wf_empty
  | add price_ volume_ is_buy_ _ hrun ih =>
    obtain ⟨ret, b', hrun', hwf⟩ := wf_add ih price_ volume_ is_buy_
    rw [hrun] at hrun'
    cases hrun'
    exact hwf
  | remove id _ ih => exact wf_remove ih id
  | modify_volume id new_volm _ ih => exact wf_modify_volume ih id new_volm
  | market_order is_buy volume_ _ hrun ih =>
    obtain ⟨ret, b', hrun', hwf⟩ := wf_market_order ih is_buy volume_
    rw [hrun] at hrun'
    cases hrun'
    exact hwf

/-! ## Example states are reachable -/

theorem reachable_exAsks : Reachable exAsks :=
  @Reachable.add ⟨2, [(1, ⟨1, 100, 5, false, true⟩)], [(100, [1])], []⟩ exAsks 2 101 5 false
    (@Reachable.add OrderBook.empty _ 1 100 5 false Reachable.empty (by decide))
    (by decide)

theorem reachable_exBids : Reachable exBids :=
  @Reachable.add ⟨2, [(1, ⟨1, 100, 5, true, true⟩)], [], [(100, [1])]⟩ exBids 2 101 7 true
    (@Reachable.add OrderBook.empty _ 1 100 5 true Reachable.empty (by decide))
    (by decide)

/-! ## Claims on the invariants -/

theorem Book.sublist_ids {bk : Book} {p : Int} {q : List Nat} (h : (p, q) ∈ bk) :
    q.Sublist (Book.ids bk) := by
  induction bk with
  | nil => simp at h
  | cons lvl rest ih =>
    obtain ⟨p0, q0⟩ := lvl
    rw [Book.ids_cons]
    rcases List.mem_cons.1 h with h | h
    · cases h
      exact List.sublist_append_left _ _
    · exact (ih h).trans (List.sublist_append_right _ _)

theorem WF.index_book_consistent {b : OrderBook} (h : WF b) : IndexBookConsistent b := by
  refine ⟨h.keys_nodup, ?_, ?_⟩
  · intro id o ho
    obtain ⟨-, hv, -, -, q, hq, hiq⟩ := h.entry id o ho
    have hmem : (o.price, q) ∈ b.book (BookRef.own o.is_buy) := Map.mem_of_find _ hq
    have hown : id ∈ Book.ids (b.book (BookRef.own o.is_buy)) :=
      Book.mem_ids.2 ⟨o.price, q, hmem, hiq⟩
    have hcown : (Book.ids (b.book (BookRef.own o.is_buy))).count id = 1 :=
      List.count_eq_one_of_mem (h.ids_nodup _) hown
    have hoth : ∀ r, r ≠ BookRef.own o.is_buy → (Book.ids (b.book r)).count id = 0 := by
      intro r hr
      refine List.count_eq_zero_of_not_mem (fun hi => ?_)
      obtain ⟨p, q', hm, hi'⟩ := Book.mem_ids.1 hi
      exact h.not_mem_other ho hm (Or.inl hr) hi'
    have hqc : q.count id = 1 :=
      List.count_eq_one_of_mem ((h.ids_nodup _).sublist (Book.sublist_ids hmem)) hiq
    refine ⟨hv, ?_, q, ?_, hqc⟩
    · rw [List.count_append]
      cases hb : o.is_buy
      · rw [hb] at hcown hoth
        have h1 := hoth .bidbook (by simp [BookRef.own])
        simp only [BookRef.own, OrderBook.book] at hcown h1
        simp only [Bool.false_eq_true, if_false] at hcown
        omega
      · rw [hb] at hcown hoth
        have h1 := hoth .askbook (by simp [BookRef.own])
        simp only [BookRef.own, OrderBook.book] at hcown h1
        simp only [if_true] at hcown
        omega
    · cases hb : o.is_buy <;> simpa [hb, BookRef.own, OrderBook.book] using hq
  · intro p q hm i hi
    rcases hm with hm | hm
    · obtain ⟨o, ho, -⟩ := (h.level .bidbook p q hm).2 i hi
      exact ⟨o, ho⟩
    · obtain ⟨o, ho, -⟩ := (h.level .askbook p q hm).2 i hi
      exact ⟨o, ho⟩

/-- Index/book consistency when no price is NaN: it holds in every state
reachable from the empty book by `add`, `remove`, `modify_volume` and
`market_order` with prices other than NaN: every indexed order is valid and
its id occurs exactly once, in the queue keyed by its own price on its own
side, and every queue entry is indexed. -/
theorem index_book_consistency_of_reachable {b : OrderBook} (h : Reachable b) :
    IndexBookConsistent b :=
  h.wf.index_book_consistent

theorem index_book_consistency_exAsks : Reachable exAsks ∧ IndexBookConsistent exAsks :=
  ⟨reachable_exAsks, index_book_consistency_of_reachable reachable_exAsks⟩

theorem WF.no_empty_level {b : OrderBook} (h : WF b) : NoEmptyLevel b := by
  intro r p
  constructor
  · cases hf : Map.find (b.book r) p with
    | none => simp
    | some q =>
      have := (h.level r p q (Map.mem_of_find _ hf)).1
      simp [this]
  · constructor
    · intro hs
      obtain ⟨q, hq⟩ := Option.isSome_iff_exists.1 hs
      have hm := Map.mem_of_find _ hq
      obtain ⟨i, q', rfl⟩ := List.exists_cons_of_ne_nil (h.level r p q hm).1
      obtain ⟨o, ho, -, hp, -, -⟩ := h.find_entry hm (List.mem_cons_self _ _)
      refine ⟨o, ?_, hp⟩
      unfold OrderBook.resting
      exact List.mem_filterMap.2 ⟨i, Book.mem_ids.2 ⟨p, _, hm, List.mem_cons_self _ _⟩, ho⟩
    · rintro ⟨o, ho, rfl⟩
      obtain ⟨q, hq⟩ := h.price_mem_of_resting ho
      rw [h.find_level hq]
      rfl

theorem WF.positive_volumes {b : OrderBook} (h : WF b) : PositiveVolumes b := by
  refine ⟨fun id o ho => (h.entry id o ho).2.2.1, fun r p q hm i hi => ?_⟩
  obtain ⟨o, ho, -, -, -, hv⟩ := h.find_entry hm hi
  exact ⟨o, ho, hv⟩

theorem modify_volume_zero (b : OrderBook) (id : Nat) : modify_volume b id 0 = remove b id := by
  unfold modify_volume
  cases ho : Map.find b.masterbook id with
  | none => simp [remove, ho]
  | some o => simp

theorem WF.find_remove_self {b : OrderBook} (h : WF b) (id : Nat) :
    Map.find (remove b id).2.masterbook id = none := by
  cases ho : Map.find b.masterbook id with
  | none => rw [remove_of_find_none ho]; exact ho
  | some o =>
    rw [(h.remove_fields ho).2.2.1]
    exact Map.find_erase_self _ h.keys_nodup id

/-- C6. Every resting order has a strictly positive volume: in every reachable
state, and after every further operation, each indexed order and each order
a queue entry points to has volume > 0; an amendment to volume 0 removes the
order from the index instead of leaving it at zero. -/
theorem C6_positive_volume {b : OrderBook} (h : Reachable b) :
    PositiveVolumes b ∧
    (∀ id v, PositiveVolumes (modify_volume b id v).2) ∧
    (∀ id, Map.find (modify_volume b id 0).2.masterbook id = none) ∧
    (∀ P V s, ∃ ret b', add b P V s = .ok (ret, b') ∧ PositiveVolumes b') ∧
    (∀ s V, ∃ ret b', market_order b s V = .ok (ret, b') ∧ PositiveVolumes b') := by
  refine ⟨h.wf.positive_volumes, fun id v => (wf_modify_volume h.wf id v).positive_volumes,
    fun id => ?_, fun P V s => ?_, fun s V => ?_⟩
  · rw [modify_volume_zero]
    exact h.wf.find_remove_self id
  · obtain ⟨ret, b', hrun, hwf⟩ := wf_add h.wf P V s
    exact ⟨ret, b', hrun, hwf.positive_volumes⟩
  · obtain ⟨ret, b', hrun, hwf⟩ := wf_market_order h.wf s V
    exact ⟨ret, b', hrun, hwf.positive_volumes⟩

theorem C6_positive_volume_witness :
    Reachable exBids ∧ PositiveVolumes exBids ∧
      Map.find (modify_volume exBids 2 0).2.masterbook 2 = none :=
  ⟨reachable_exBids, (C6_positive_volume reachable_exBids).1,
    (C6_positive_volume reachable_exBids).2.2.1 2⟩

/-- C10. Rejections are atomic no-ops: in every state, `add` with a price
`<= 0` returns 0, and `remove` and `modify_volume` on an id that is not in
`masterbook` return false; in each case the state is left exactly as it
was. -/
theorem C10_rejections_are_noops (b : OrderBook) :
    (∀ (P : Int) (V : Nat) (s : Bool), P ≤ 0 → add b P V s = .ok (0, b)) ∧
    (∀ id, Map.find b.masterbook id = none → remove b id = (false, b)) ∧
    (∀ id v, Map.find b.masterbook id = none → modify_volume b id v = (false, b)) := by
  refine ⟨fun P V s hP => ?_, fun id hid => remove_of_find_none hid, fun id v hid => ?_⟩
  · simp [add, hP]
  · simp [modify_volume, hid]

theorem C10_rejections_are_noops_witness :
    add exAsks (-1) 5 true = .ok (0, exAsks) ∧ remove exAsks 7 = (false, exAsks) ∧
      modify_volume exAsks 7 3 = (false, exAsks) :=
  ⟨(C10_rejections_are_noops exAsks).1 (-1) 5 true (by decide),
    (C10_rejections_are_noops exAsks).2.1 7 (by decide),
    (C10_rejections_are_noops exAsks).2.2 7 3 (by decide)⟩

/-! ## `add` and `market_order` on a consistent state -/

theorem resting_with_id_generator (b : OrderBook) (g : Nat) (r : BookRef) :
    ({ b with id_generator := g } : OrderBook).resting r = b.resting r := by
  simp [OrderBook.resting]

/-- Registration does not touch the priority list of the other side. -/
theorem WF.resting_register_other {b : OrderBook} (h : WF b) (price_ : Int) (volume_ : Nat)
    (is_buy_ : Bool) {r : BookRef}
    (hr : r ≠ BookRef.own is_buy_) :
    (b.register price_ volume_ is_buy_).resting r = b.resting r := by
  obtain ⟨-, hmb, -, hoth⟩ := register_fields b price_ volume_ is_buy_
  unfold OrderBook.resting
  rw [hoth r hr, hmb]
  refine List.filterMap_congr (fun i hi => ?_)
  obtain ⟨o, ho, -⟩ := h.find_of_mem_ids hi
  rw [Map.find_append, ho]

/-- Registration appends the new order to the index and keeps the others. -/
theorem find_register (b : OrderBook) (price_ : Int) (volume_ : Nat) (is_buy_ : Bool)
    (hg : Map.find b.masterbook b.id_generator = none) (k : Nat) :
    Map.find (b.register price_ volume_ is_buy_).masterbook k =
      if k = b.id_generator then some ⟨b.id_generator, price_, volume_, is_buy_, true⟩
      else Map.find b.masterbook k := by
  rw [(register_fields b price_ volume_ is_buy_).2.1, Map.find_append]
  by_cases hk : k = b.id_generator
  · subst hk
    simp [hg]
  · have hk' : ¬ b.id_generator = k := fun h' => hk h'.symm
    cases Map.find b.masterbook k <;> simp [hk, hk']

/-- The three ways `add` with a positive price ends, on a consistent state:
fully filled; residual but the drawn id is already a key (nothing is
registered); residual registered under the drawn id. -/
theorem add_spec {b : OrderBook} (hwf : WF b) (P : Int) (V : Nat) (s : Bool) (hP : 0 < P) :
    ∃ b1 ret b',
      match' b (BookRef.against s) P V s =
        .ok ((consume (crosses s P) (b.resting (BookRef.against s)) V).2, b1) ∧
      WF b1 ∧ Frame b b1 (BookRef.against s) ∧
      b1.resting (BookRef.against s) =
        (consume (crosses s P) (b.resting (BookRef.against s)) V).1 ∧
      add b P V s = .ok (ret, b') ∧ WF b' ∧
      b'.resting (BookRef.against s) = b1.resting (BookRef.against s) ∧
      b'.book (BookRef.against s) = b1.book (BookRef.against s) ∧
      (((consume (crosses s P) (b.resting (BookRef.against s)) V).2 = 0 ∧ ret = 0 ∧ b' = b1) ∨
       ((consume (crosses s P) (b.resting (BookRef.against s)) V).2 ≠ 0 ∧
          Map.find b1.masterbook b1.id_generator ≠ none ∧ ret = 0 ∧
          b' = { b1 with id_generator := (b1.id_generator + 1) % 2 ^ 64 }) ∨
       ((consume (crosses s P) (b.resting (BookRef.against s)) V).2 ≠ 0 ∧
          Map.find b1.masterbook b1.id_generator = none ∧ ret = b1.id_generator ∧
          b' = b1.register P (consume (crosses s P) (b.resting (BookRef.against s)) V).2 s)) := by
  obtain ⟨b1, hrun, hwf1, hfr, hres⟩ := match'_spec hwf (BookRef.against s) P V s
  rw [add_eq b P V s hP, hrun]
  simp only
  by_cases hr : (consume (crosses s P) (b.resting (BookRef.against s)) V).2 = 0
  · rw [if_pos hr]
    exact ⟨b1, 0, b1, rfl, hwf1, hfr, hres, rfl, hwf1, rfl, rfl, Or.inl ⟨hr, rfl, rfl⟩⟩
  · rw [if_neg hr]
    cases hf : Map.find b1.masterbook b1.id_generator with
    | some o =>
      simp only [Option.isSome_some, if_true]
      exact ⟨b1, 0, _, rfl, hwf1, hfr, hres, rfl, wf_with_id_generator hwf1 _,
        resting_with_id_generator _ _ _, OrderBook.book_with_id_generator _ _ _,
        Or.inr (Or.inl ⟨hr, by simp [hf], rfl, rfl⟩)⟩
    | none =>
      simp only [Option.isSome_none, Bool.false_eq_true, if_false]
      exact ⟨b1, _, _, rfl, hwf1, hfr, hres, rfl,
        wf_register hwf1 _ _ _ hf hP (Nat.pos_of_ne_zero hr),
        hwf1.resting_register_other _ _ _ (BookRef.against_ne_own s),
        (register_fields b1 _ _ _).2.2.2 _ (BookRef.against_ne_own s),
        Or.inr (Or.inr ⟨hr, hf, rfl, rfl⟩)⟩

/-- On a consistent state `market_order` returns, and acts on the priority
list of the consumed side as `consume` with every price acceptable. -/
theorem market_order_spec {b : OrderBook} (hwf : WF b) (s : Bool) (V : Nat) :
    ∃ b', market_order b s V =
        .ok ((consume (fun _ => true) (b.resting (BookRef.against s)) V).2, b') ∧
      WF b' ∧ Frame b b' (BookRef.against s) ∧
      b'.resting (BookRef.against s) =
        (consume (fun _ => true) (b.resting (BookRef.against s)) V).1 := by
  unfold market_order
  by_cases hv : V = 0
  · subst hv
    simp only [if_true, consume_zero]
    exact ⟨b, rfl, hwf, Frame.refl _ _, rfl⟩
  · rw [if_neg hv]
    have : (if s = true then market_consume b .askbook V else market_consume b .bidbook V) =
        market_consume b (BookRef.against s) V := by
      cases s <;> rfl
    rw [this]
    exact market_consume_spec hwf (BookRef.against s) V

/-! ## Queues and the priority list -/

/-- The first level of a book starts with the head of the priority list. -/
theorem WF.book_head_of_resting {b : OrderBook} (h : WF b) {r : BookRef} {o : Order}
    {tl : List Order} (hr : b.resting r = o :: tl) :
    ∃ q lv, b.book r = (o.price, o.id :: q) :: lv := by
  cases hb : b.book r with
  | nil => rw [resting_of_book_nil hb] at hr; cases hr
  | cons lvl lv =>
    obtain ⟨p, q0⟩ := lvl
    have hm : (p, q0) ∈ b.book r := by rw [hb]; exact List.mem_cons_self _ _
    obtain ⟨i, q, rfl⟩ := List.exists_cons_of_ne_nil (h.level r p q0 hm).1
    obtain ⟨o', -, hid, hp, -, -, hrest⟩ := h.resting_cons hb
    rw [hr] at hrest
    cases hrest
    exact ⟨q, lv, by rw [hid, hp]⟩

theorem filterMap_find_price {m : MasterBook} {q : List Nat} {p p' : Int}
    (hq : ∀ i ∈ q, ∃ o, Map.find m i = some o ∧ o.id = i ∧ o.price = p) :
    ((q.filterMap (Map.find m)).filter (fun o => decide (o.price = p'))).map Order.id =
      if p = p' then q else [] := by
  induction q with
  | nil => simp
  | cons i rest ih =>
    obtain ⟨o, ho, hid, hp⟩ := hq i (List.mem_cons_self _ _)
    have ih' := ih (fun j hj => hq j (List.mem_cons_of_mem _ hj))
    by_cases hpp : p = p'
    · rw [if_pos hpp] at ih' ⊢
      simp [List.filterMap_cons, ho, hp, hpp, hid, ih']
    · rw [if_neg hpp] at ih' ⊢
      simp [List.filterMap_cons, ho, hp, hpp, ih']

theorem Book.queue_of_resting (m : MasterBook) (bk : Book) (p : Int)
    (hk : (bk.map Prod.fst).Nodup)
    (hl : ∀ p0 q0, (p0, q0) ∈ bk →
      ∀ i ∈ q0, ∃ o, Map.find m i = some o ∧ o.id = i ∧ o.price = p0) :
    ((((Book.ids bk).filterMap (Map.find m)).filter (fun o => decide (o.price = p))).map
        Order.id) = (Map.find bk p).getD [] := by
  induction bk with
  | nil => simp [Map.find]
  | cons lvl rest ih =>
    obtain ⟨p0, q0⟩ := lvl
    rw [List.map_cons, List.nodup_cons] at hk
    have ih' := ih hk.2 (fun p1 q1 hm => hl p1 q1 (List.mem_cons_of_mem _ hm))
    rw [Book.ids_cons, List.filterMap_append, List.filter_append, List.map_append,
      filterMap_find_price (hl p0 q0 (List.mem_cons_self _ _)), ih']
    by_cases hp : p0 = p
    · have : Map.find rest p = none := by
        rw [Map.find_eq_none_iff, ← hp]
        exact hk.1
      simp [Map.find, hp, this]
    · simp [Map.find, hp]

/-- The queue of a price is the list of ids of the orders of that price in
the priority list. -/
theorem WF.queue_eq {b : OrderBook} (h : WF b) (r : BookRef) (p : Int) :
    (Map.find (b.book r) p).getD [] =
      ((b.resting r).filter (fun o => decide (o.price = p))).map Order.id := by
  unfold OrderBook.resting
  rw [Book.queue_of_resting b.masterbook (b.book r) p (h.keys_book_nodup r)]
  intro p0 q0 hm i hi
  obtain ⟨o, ho, hid, hp, -, -⟩ := h.find_entry hm hi
  exact ⟨o, ho, hid, hp⟩

/-- Two consistent states with the same orders of price `p` in their
priority lists have the same queue at `p`. -/
theorem WF.find_congr {b b' : OrderBook} (h : WF b) (h' : WF b') (r : BookRef) (p : Int)
    (heq : (b'.resting r).filter (fun o => decide (o.price = p)) =
      (b.resting r).filter (fun o => decide (o.price = p))) :
    Map.find (b'.book r) p = Map.find (b.book r) p := by
  have h1 := h.queue_eq r p
  have h2 := h'.queue_eq r p
  rw [heq, ← h1] at h2
  have e1 := (h.no_empty_level r p).1
  have e2 := (h'.no_empty_level r p).1
  cases hf : Map.find (b.book r) p with
  | none =>
    cases hf' : Map.find (b'.book r) p with
    | none => rfl
    | some q' =>
      rw [hf, hf'] at h2
      rw [hf'] at e2
      simp at h2 e2
      exact absurd h2 e2
  | some q =>
    cases hf' : Map.find (b'.book r) p with
    | none =>
      rw [hf, hf'] at h2
      rw [hf] at e1
      simp at h2 e1
      exact absurd h2 e1
    | some q' =>
      rw [hf, hf'] at h2
      simpa using h2

theorem Book.priority_sorted (m : MasterBook) (r : BookRef) (bk : Book)
    (hs : bk.Pairwise (fun x y => r.comp x.1 y.1 = true))
    (hl : ∀ p0 q0, (p0, q0) ∈ bk → ∀ i ∈ q0, ∀ o, Map.find m i = some o → o.price = p0) :
    ((Book.ids bk).filterMap (Map.find m)).Pairwise
      (fun x y => r.comp y.price x.price = false) := by
  induction bk with
  | nil => simp
  | cons lvl rest ih =>
    obtain ⟨p0, q0⟩ := lvl
    rw [List.pairwise_cons] at hs
    have ih' := ih hs.2 (fun p1 q1 hm => hl p1 q1 (List.mem_cons_of_mem _ hm))
    have hq0 : ∀ x ∈ q0.filterMap (Map.find m), x.price = p0 := by
      intro x hx
      obtain ⟨i, hi, hfi⟩ := List.mem_filterMap.1 hx
      exact hl p0 q0 (List.mem_cons_self _ _) i hi x hfi
    rw [Book.ids_cons, List.filterMap_append, List.pairwise_append]
    refine ⟨?_, ih', ?_⟩
    · rw [List.pairwise_iff_forall_sublist]
      intro x y hxy
      have hx := hq0 x (hxy.subset (by simp))
      have hy := hq0 y (hxy.subset (by simp))
      rw [hx, hy]
      exact r.comp_irrefl p0
    · intro x hx y hy
      obtain ⟨i, hi, hfi⟩ := List.mem_filterMap.1 hy
      obtain ⟨p1, q1, hm1, hi1⟩ := Book.mem_ids.1 hi
      have hy' := hl p1 q1 (List.mem_cons_of_mem _ hm1) i hi1 y hfi
      rw [hq0 x hx, hy']
      have hc : r.comp p0 p1 = true := hs.1 (p1, q1) hm1
      cases hcc : r.comp p1 p0 with
      | false => rfl
      | true =>
        have := r.comp_trans hc hcc
        rw [r.comp_irrefl] at this
        cases this

/-- The priority list is ordered by price: best price first. -/
theorem WF.resting_sorted {b : OrderBook} (h : WF b) (r : BookRef) :
    (b.resting r).Pairwise (fun x y => r.comp y.price x.price = false) := by
  unfold OrderBook.resting
  refine Book.priority_sorted _ r _ (h.sorted r) ?_
  intro p0 q0 hm i hi o ho
  obtain ⟨o', ho', -, hp, -, -⟩ := h.find_entry hm hi
  rw [ho] at ho'
  cases ho'
  exact hp

/-! ## Properties of the consumption function -/

theorem consume_prefix (c : Int → Bool) (L : List Order) (V : Nat) :
    PrefixConsumed L (consume c L V).1 := by
  induction L generalizing V with
  | nil => exact ⟨0, Or.inl rfl⟩
  | cons o rest ih =>
    by_cases hv : V = 0
    · subst hv
      rw [consume_zero]
      exact ⟨0, Or.inl rfl⟩
    · cases hc : c o.price with
      | false =>
        rw [consume_stop c rest V hc]
        exact ⟨0, Or.inl rfl⟩
      | true =>
        by_cases hle : o.volume ≤ V
        · rw [consume_take c rest hv hc hle]
          obtain ⟨k, hk⟩ := ih (V - o.volume)
          exact ⟨k + 1, by simpa using hk⟩
        · rw [consume_part c rest hv hc hle]
          refine ⟨0, Or.inr ⟨o, rest, o.volume - V, rfl, by omega, by omega, rfl⟩⟩

theorem consume_lt_head (c : Int → Bool) {o : Order} (rest : List Order) {V : Nat}
    (hc : c o.price = true) (hlt : V < o.volume) :
    consume c (o :: rest) V = ({ o with volume := o.volume - V } :: rest, 0) := by
  by_cases hv : V = 0
  · subst hv
    rw [consume_zero]
    cases o
    rfl
  · exact consume_part c rest hv hc (by omega)

theorem totalVolume_cons (o : Order) (l : List Order) :
    totalVolume (o :: l) = o.volume + totalVolume l := by
  simp [totalVolume]

theorem consume_conservation (c : Int → Bool) (L : List Order) (V : Nat) :
    (consume c L V).2 + totalVolume L = V + totalVolume (consume c L V).1 := by
  induction L generalizing V with
  | nil => simp [consume]
  | cons o rest ih =>
    by_cases hv : V = 0
    · subst hv
      rw [consume_zero]
    · cases hc : c o.price with
      | false => rw [consume_stop c rest V hc]
      | true =>
        by_cases hle : o.volume ≤ V
        · rw [consume_take c rest hv hc hle, totalVolume_cons]
          have := ih (V - o.volume)
          omega
        · rw [consume_part c rest hv hc hle, totalVolume_cons, totalVolume_cons]
          simp only
          omega

theorem consume_le (c : Int → Bool) (L : List Order) (V : Nat) : (consume c L V).2 ≤ V := by
  induction L generalizing V with
  | nil => simp [consume]
  | cons o rest ih =>
    by_cases hv : V = 0
    · subst hv
      rw [consume_zero]
    · cases hc : c o.price with
      | false => rw [consume_stop c rest V hc]
      | true =>
        by_cases hle : o.volume ≤ V
        · rw [consume_take c rest hv hc hle]
          exact (ih (V - o.volume)).trans (Nat.sub_le _ _)
        · rw [consume_part c rest hv hc hle]
          exact Nat.zero_le _

/-- Volume taken from the incoming order equals volume taken from the list. -/
theorem consume_balance (c : Int → Bool) (L : List Order) (V : Nat) :
    (consume c L V).2 ≤ V ∧ totalVolume (consume c L V).1 ≤ totalVolume L ∧
      V - (consume c L V).2 = totalVolume L - totalVolume (consume c L V).1 := by
  have h1 := consume_conservation c L V
  have h2 := consume_le c L V
  omega

/-- Orders whose price is not acceptable are left as they are, where they are. -/
theorem consume_filter_not (c : Int → Bool) (L : List Order) (V : Nat) :
    (consume c L V).1.filter (fun o => !c o.price) = L.filter (fun o => !c o.price) := by
  induction L generalizing V with
  | nil => simp [consume]
  | cons o rest ih =>
    by_cases hv : V = 0
    · subst hv
      rw [consume_zero]
    · cases hc : c o.price with
      | false => rw [consume_stop c rest V hc]
      | true =>
        by_cases hle : o.volume ≤ V
        · rw [consume_take c rest hv hc hle, ih, List.filter_cons]
          simp [hc]
        · rw [consume_part c rest hv hc hle, List.filter_cons, List.filter_cons]
          simp [hc]

/-- When the acceptable orders come first, an acceptable order is left only
if the incoming volume is exhausted. -/
theorem consume_exhausted (c : Int → Bool) (L : List Order) (V : Nat)
    (hs : L.Pairwise (fun x y => c x.price = false → c y.price = false))
    (hex : ∃ o ∈ (consume c L V).1, c o.price = true) : (consume c L V).2 = 0 := by
  induction L generalizing V with
  | nil =>
    obtain ⟨o, ho, -⟩ := hex
    simp [consume] at ho
  | cons o rest ih =>
    rw [List.pairwise_cons] at hs
    by_cases hv : V = 0
    · subst hv
      rw [consume_zero]
    · cases hc : c o.price with
      | false =>
        rw [consume_stop c rest V hc] at hex
        obtain ⟨x, hx, hcx⟩ := hex
        rcases List.mem_cons.1 hx with rfl | hx
        · rw [hc] at hcx
          cases hcx
        · rw [hs.1 x hx hc] at hcx
          cases hcx
      | true =>
        by_cases hle : o.volume ≤ V
        · rw [consume_take c rest hv hc hle] at hex ⊢
          exact ih (V - o.volume) hs.2 hex
        · rw [consume_part c rest hv hc hle]

/-- In the priority list of the book an order is matched against, the
crossing orders come first. -/
theorem WF.crossing_first {b : OrderBook} (h : WF b) (s : Bool) (P : Int) :
    (b.resting (BookRef.against s)).Pairwise
      (fun x y => crosses s P x.price = false → crosses s P y.price = false) := by
  refine (h.resting_sorted (BookRef.against s)).imp ?_
  intro x y hxy hx
  cases s
  · simp only [BookRef.against, BookRef.comp, crosses, Bool.false_eq_true, if_false,
      decide_eq_false_iff_not, not_lt, ge_iff_le, not_le, gt_iff_lt] at hxy hx ⊢
    omega
  · simp only [BookRef.against, BookRef.comp, crosses, if_true,
      decide_eq_false_iff_not, not_lt, not_le] at hxy hx ⊢
    omega

/-! ## Claims on matching -/

theorem WF.priority_kept {b b' : OrderBook} (hwf' : WF b') {r : BookRef}
    (hpre : PrefixConsumed (b.resting r) (b'.resting r)) : PriorityKept b b' r :=
  ⟨hpre, fun _ _ hr => hwf'.book_head_of_resting hr⟩

theorem add_nonpos (b : OrderBook) (P : Int) (V : Nat) (s : Bool) (hP : P ≤ 0) :
    add b P V s = .ok (0, b) := by
  simp [add, hP]

/-- Matching consumes a prefix of the priority list. In every reachable
state, a call of `add`
(through `match`) or of `market_order` (through `market_consume`) affects a
prefix of the priority list of the consumed side (best price first, arrival
order within a price): leading orders are removed, at most one further
order is reduced to a smaller positive volume, keeps its id and is the front
entry of its queue, and all later orders are untouched in the same order.
When the incoming volume is smaller than the volume of the first order and
that order is eligible, only that order changes, by the incoming volume. -/
theorem prefix_consumed_of_reachable {b : OrderBook} (h : Reachable b) :
    (∀ (P : Int) (V : Nat) (s : Bool),
      ∃ ret b', add b P V s = .ok (ret, b') ∧ PriorityKept b b' (BookRef.against s)) ∧
    (∀ (s : Bool) (V : Nat),
      ∃ ret b', market_order b s V = .ok (ret, b') ∧ PriorityKept b b' (BookRef.against s)) ∧
    (∀ (P : Int) (V : Nat) (s : Bool) (o : Order) (rest : List Order),
      0 < P → b.resting (BookRef.against s) = o :: rest → crosses s P o.price = true →
      V < o.volume →
      ∃ ret b', add b P V s = .ok (ret, b') ∧
        b'.resting (BookRef.against s) = { o with volume := o.volume - V } :: rest) ∧
    (∀ (s : Bool) (V : Nat) (o : Order) (rest : List Order),
      b.resting (BookRef.against s) = o :: rest → V < o.volume →
      ∃ ret b', market_order b s V = .ok (ret, b') ∧
        b'.resting (BookRef.against s) = { o with volume := o.volume - V } :: rest) := by
  have hwf := h.wf
  refine ⟨fun P V s => ?_, fun s V => ?_, fun P V s o rest hP hr hc hlt => ?_,
    fun s V o rest hr hlt => ?_⟩
  · by_cases hP : P ≤ 0
    · exact ⟨0, b, add_nonpos b P V s hP, hwf.priority_kept ⟨0, Or.inl rfl⟩⟩
    · obtain ⟨b1, ret, b', -, -, -, hres, hrun, hwf', hsame, -, -⟩ :=
        add_spec hwf P V s (by omega)
      refine ⟨ret, b', hrun, hwf'.priority_kept ?_⟩
      rw [hsame, hres]
      exact consume_prefix _ _ _
  · obtain ⟨b', hrun, hwf', -, hres⟩ := market_order_spec hwf s V
    refine ⟨_, b', hrun, hwf'.priority_kept ?_⟩
    rw [hres]
    exact consume_prefix _ _ _
  · obtain ⟨b1, ret, b', -, -, -, hres, hrun, -, hsame, -, -⟩ := add_spec hwf P V s hP
    refine ⟨ret, b', hrun, ?_⟩
    rw [hsame, hres, hr, consume_lt_head _ rest hc hlt]
  · obtain ⟨b', hrun, -, -, hres⟩ := market_order_spec hwf s V
    refine ⟨_, b', hrun, ?_⟩
    rw [hres, hr, consume_lt_head _ rest rfl hlt]

theorem prefix_consumed_exAsks :
    Reachable exAsks ∧
      ∃ ret b', add exAsks 101 3 true = .ok (ret, b') ∧
        b'.resting (BookRef.against true) =
          [⟨1, 100, 5 - 3, false, true⟩, ⟨2, 101, 5, false, true⟩] :=
  ⟨reachable_exAsks,
    (prefix_consumed_of_reachable reachable_exAsks).2.2.1 101 3 true ⟨1, 100, 5, false, true⟩
      [⟨2, 101, 5, false, true⟩] (by decide) (by decide) (by decide) (by decide)⟩

theorem filter_price_of_filter_not {c : Int → Bool} {L L' : List Order} {p : Int}
    (hc : c p = false)
    (h : L'.filter (fun o => !c o.price) = L.filter (fun o => !c o.price)) :
    L'.filter (fun o => decide (o.price = p)) = L.filter (fun o => decide (o.price = p)) := by
  have key : ∀ l : List Order, l.filter (fun o => decide (o.price = p)) =
      (l.filter (fun o => !c o.price)).filter (fun o => decide (o.price = p)) := by
    intro l
    rw [List.filter_filter]
    refine List.filter_congr (fun o _ => ?_)
    by_cases hp : o.price = p
    · simp [hp, hc]
    · simp [hp]
  rw [key L', key L, h]

/-- Crossing correctness when no price is NaN. In every state reachable with
prices other than NaN, `add(P, V, is_buy)`
with `P > 0` leaves every resting order of the other side that does not
cross (an ask above `P` for a buy, a bid below `P` for a sell) with its
record, its place in the priority list and its queue; and if an order that
crosses (price `<= P` for a buy, `>= P` for a sell, equality included) still
rests afterwards, `match` returned residual 0 and `add` returned 0. -/
theorem crossing_correctness_of_reachable {b : OrderBook} (h : Reachable b) (P : Int) (V : Nat)
    (s : Bool) (hP : 0 < P) :
    ∃ ret b', add b P V s = .ok (ret, b') ∧
      (b'.resting (BookRef.against s)).filter (fun o => !crosses s P o.price) =
        (b.resting (BookRef.against s)).filter (fun o => !crosses s P o.price) ∧
      (∀ p, crosses s P p = false →
        Map.find (b'.book (BookRef.against s)) p = Map.find (b.book (BookRef.against s)) p) ∧
      ((∃ o ∈ b'.resting (BookRef.against s), crosses s P o.price = true) →
        ret = 0 ∧ ∃ b1, match' b (BookRef.against s) P V s = .ok (0, b1)) := by
  have hwf := h.wf
  obtain ⟨b1, ret, b', hm, -, -, hres, hrun, hwf', hsame, -, hcase⟩ := add_spec hwf P V s hP
  have hfilter : (b'.resting (BookRef.against s)).filter (fun o => !crosses s P o.price) =
      (b.resting (BookRef.against s)).filter (fun o => !crosses s P o.price) := by
    rw [hsame, hres]
    exact consume_filter_not _ _ _
  refine ⟨ret, b', hrun, hfilter, fun p hp => ?_, fun hex => ?_⟩
  · exact WF.find_congr hwf hwf' _ p (filter_price_of_filter_not hp hfilter)
  · rw [hsame, hres] at hex
    have h0 := consume_exhausted _ _ V (hwf.crossing_first s P) hex
    rw [h0] at hm
    refine ⟨?_, b1, hm⟩
    rcases hcase with ⟨-, hret, -⟩ | ⟨hne, -⟩ | ⟨hne, -⟩
    · exact hret
    · exact absurd h0 hne
    · exact absurd h0 hne

theorem crossing_correctness_exAsks :
    Reachable exAsks ∧ (0 : Int) < 100 ∧
      ∃ ret b', add exAsks 100 8 true = .ok (ret, b') ∧
        (b'.resting (BookRef.against true)).filter (fun o => !crosses true 100 o.price) =
          (exAsks.resting (BookRef.against true)).filter
            (fun o => !crosses true 100 o.price) ∧
        (∀ p, crosses true 100 p = false →
          Map.find (b'.book (BookRef.against true)) p =
            Map.find (exAsks.book (BookRef.against true)) p) ∧
        ((∃ o ∈ b'.resting (BookRef.against true), crosses true 100 o.price = true) →
          ret = 0 ∧ ∃ b1, match' exAsks (BookRef.against true) 100 8 true = .ok (0, b1)) :=
  ⟨reachable_exAsks, by decide, crossing_correctness_of_reachable reachable_exAsks 100 8 true (by decide)⟩

/-- The volume balance of `add` and `market_order`. In every reachable state,
for `add(P, V, side)`
with `P > 0`, with `r` the residual returned by `match` and `T`, `T'` the total
resting volume of the opposite side before and after the call:
`V - r = T - T'` (and `r <= V`, `T' <= T`); a non-zero return value is the key
of an order of volume `r`, and `r = 0` makes `add` return 0. The same equation
holds for `market_order(is_buy, V)` with `r` its return value. -/
theorem volume_balance_of_reachable {b : OrderBook} (h : Reachable b) :
    (∀ (P : Int) (V : Nat) (s : Bool), 0 < P →
      ∃ r b1 ret b', match' b (BookRef.against s) P V s = .ok (r, b1) ∧
        add b P V s = .ok (ret, b') ∧
        r ≤ V ∧
        totalVolume (b'.resting (BookRef.against s)) ≤
          totalVolume (b.resting (BookRef.against s)) ∧
        V - r = totalVolume (b.resting (BookRef.against s)) -
          totalVolume (b'.resting (BookRef.against s)) ∧
        (ret ≠ 0 → ∃ o, Map.find b'.masterbook ret = some o ∧ o.volume = r) ∧
        (r = 0 → ret = 0)) ∧
    (∀ (s : Bool) (V : Nat),
      ∃ r b', market_order b s V = .ok (r, b') ∧
        r ≤ V ∧
        totalVolume (b'.resting (BookRef.against s)) ≤
          totalVolume (b.resting (BookRef.against s)) ∧
        V - r = totalVolume (b.resting (BookRef.against s)) -
          totalVolume (b'.resting (BookRef.against s))) := by
  have hwf := h.wf
  refine ⟨fun P V s hP => ?_, fun s V => ?_⟩
  · obtain ⟨b1, ret, b', hm, -, -, hres, hrun, -, hsame, -, hcase⟩ := add_spec hwf P V s hP
    obtain ⟨h1, h2, h3⟩ := consume_balance (crosses s P) (b.resting (BookRef.against s)) V
    refine ⟨_, b1, ret, b', hm, hrun, h1, ?_, ?_, ?_, ?_⟩
    · rw [hsame, hres]
      exact h2
    · rw [hsame, hres]
      exact h3
    · intro hret
      rcases hcase with ⟨-, h0, -⟩ | ⟨-, -, h0, -⟩ | ⟨-, hf, hg, hb'⟩
      · exact absurd h0 hret
      · exact absurd h0 hret
      · refine ⟨⟨b1.id_generator, P, (consume (crosses s P) (b.resting (BookRef.against s)) V).2,
          s, true⟩, ?_, rfl⟩
        rw [hb', find_register _ _ _ _ hf, hg, if_pos rfl]
    · intro hr0
      rcases hcase with ⟨-, h0, -⟩ | ⟨hne, -⟩ | ⟨hne, -⟩
      · exact h0
      · exact absurd hr0 hne
      · exact absurd hr0 hne
  · obtain ⟨b', hrun, -, -, hres⟩ := market_order_spec hwf s V
    obtain ⟨h1, h2, h3⟩ := consume_balance (fun _ => true) (b.resting (BookRef.against s)) V
    refine ⟨_, b', hrun, h1, ?_, ?_⟩
    · rw [hres]
      exact h2
    · rw [hres]
      exact h3

theorem volume_balance_exAsks :
    Reachable exAsks ∧ (0 : Int) < 101 ∧
      ∃ r b1 ret b', match' exAsks (BookRef.against true) 101 8 true = .ok (r, b1) ∧
        add exAsks 101 8 true = .ok (ret, b') ∧
        r ≤ 8 ∧
        totalVolume (b'.resting (BookRef.against true)) ≤
          totalVolume (exAsks.resting (BookRef.against true)) ∧
        8 - r = totalVolume (exAsks.resting (BookRef.against true)) -
          totalVolume (b'.resting (BookRef.against true)) ∧
        (ret ≠ 0 → ∃ o, Map.find b'.masterbook ret = some o ∧ o.volume = r) ∧
        (r = 0 → ret = 0) :=
  ⟨reachable_exAsks, by decide,
    (volume_balance_of_reachable reachable_exAsks).1 101 8 true (by decide)⟩

/-! ## Runs and the identifiers they issue -/

theorem Run.reachable {n : Nat} {rets : List Nat} {b : OrderBook} (h : Run n rets b) :
    Reachable b := by
  induction h with
  | empty => exact Reachable.empty
  | add price_ volume_ is_buy_ _ hrun ih => exact Reachable.add price_ volume_ is_buy_ ih hrun
  | remove id _ ih => exact Reachable.remove id ih
  | modify_volume id new_volm _ ih => exact Reachable.modify_volume id new_volm ih
  | market_order is_buy volume_ _ hrun ih => exact Reachable.market_order is_buy volume_ ih hrun

theorem Reachable.run {b : OrderBook} (h : Reachable b) : ∃ n rets, Run n rets b := by
  induction h with
  | empty => exact ⟨0, [], Run.empty⟩
  | add price_ volume_ is_buy_ _ hrun ih =>
    obtain ⟨n, rets, hr⟩ := ih
    exact ⟨_, _, Run.add price_ volume_ is_buy_ hr hrun⟩
  | remove id _ ih =>
    obtain ⟨n, rets, hr⟩ := ih
    exact ⟨_, _, Run.remove id hr⟩
  | modify_volume id new_volm _ ih =>
    obtain ⟨n, rets, hr⟩ := ih
    exact ⟨_, _, Run.modify_volume id new_volm hr⟩
  | market_order is_buy volume_ _ hrun ih =>
    obtain ⟨n, rets, hr⟩ := ih
    exact ⟨_, _, Run.market_order is_buy volume_ hr hrun⟩

theorem WF.find_remove_none {b : OrderBook} (h : WF b) (id : Nat) {k : Nat}
    (hk : Map.find b.masterbook k = none) : Map.find (remove b id).2.masterbook k = none := by
  cases ho : Map.find b.masterbook id with
  | none => rw [remove_of_find_none ho]; exact hk
  | some o =>
    rw [(h.remove_fields ho).2.2.1]
    by_cases hki : k = id
    · rw [hki]
      exact Map.find_erase_self _ h.keys_nodup id
    · rw [Map.find_erase_ne _ hki]
      exact hk

theorem WF.id_generator_remove {b : OrderBook} (h : WF b) (id : Nat) :
    (remove b id).2.id_generator = b.id_generator := by
  cases ho : Map.find b.masterbook id with
  | none => rw [remove_of_find_none ho]
  | some o => exact (h.remove_fields ho).2.1

theorem WF.find_modify_volume_none {b : OrderBook} (h : WF b) (id v : Nat) {k : Nat}
    (hk : Map.find b.masterbook k = none) :
    Map.find (modify_volume b id v).2.masterbook k = none := by
  unfold modify_volume
  cases ho : Map.find b.masterbook id with
  | none => exact hk
  | some o =>
    by_cases hv : v = 0
    · simp only [hv, if_true]
      exact h.find_remove_none id hk
    · simp only [hv, if_false]
      have hki : k ≠ id := by
        rintro rfl
        rw [ho] at hk
        cases hk
      rw [Map.find_modify_ne _ _ hki]
      exact hk

theorem WF.id_generator_modify_volume {b : OrderBook} (h : WF b) (id v : Nat) :
    (modify_volume b id v).2.id_generator = b.id_generator := by
  unfold modify_volume
  cases ho : Map.find b.masterbook id with
  | none => rfl
  | some o =>
    by_cases hv : v = 0
    · simp only [hv, if_true]
      exact h.id_generator_remove id
    · simp only [hv, if_false]

theorem add_rests_eq {b b1 : OrderBook} {P : Int} {V r : Nat} {s : Bool} (hP : 0 < P)
    (hm : match' b (BookRef.against s) P V s = .ok (r, b1)) :
    add_rests b P V s =
      (decide (r ≠ 0) && (Map.find b1.masterbook b1.id_generator).isNone) := by
  simp [add_rests, hP, hm]

/-- While fewer than `2^64` resting orders have been created, the non-zero
values returned by `add` are `1, 2, ..., n` in this order, `id_generator` is
`n + 1` modulo `2^64`, and the keys of the index lie in `1..n`. -/
theorem Run.inv {n : Nat} {rets : List Nat} {b : OrderBook} (h : Run n rets b) :
    n < 2 ^ 64 → rets = List.range' 1 n ∧ b.id_generator = (n + 1) % 2 ^ 64 ∧
      ∀ k, k = 0 ∨ n < k → Map.find b.masterbook k = none := by
  induction h with
  | empty =>
    intro _
    refine ⟨rfl, by decide, fun k _ => rfl⟩
  | @add n rets b b' ret P V s hrun hadd ih =>
    intro hn
    have hwf := hrun.reachable.wf
    by_cases hP : P ≤ 0
    · rw [add_nonpos b P V s hP] at hadd
      cases hadd
      have hnr : add_rests b P V s = false := by
        have : ¬ 0 < P := by omega
        simp [add_rests, this]
      simp only [hnr, Bool.false_eq_true, if_false] at hn ⊢
      simpa using ih hn
    · have hP' : 0 < P := by omega
      obtain ⟨b1, ret', b'', hm, -, hfr, -, hrun', -, -, -, hcase⟩ := add_spec hwf P V s hP'
      rw [hadd] at hrun'
      cases hrun'
      rw [add_rests_eq hP' hm] at hn ⊢
      rcases hcase with ⟨hr0, hret, hb'⟩ | ⟨hr, hf, hret, hb'⟩ | ⟨hr, hf, hret, hb'⟩
      · simp only [hr0, ne_eq, not_true_eq_false, decide_False, Bool.false_and,
          Bool.false_eq_true, if_false] at hn ⊢
        obtain ⟨i1, i2, i3⟩ := ih hn
        subst hret hb'
        exact ⟨by simpa using i1, by rw [hfr.id_generator]; exact i2,
          fun k hk => hfr.index k (i3 k hk)⟩
      · have hsome : (Map.find b1.masterbook b1.id_generator).isNone = false := by
          cases hx : Map.find b1.masterbook b1.id_generator with
          | none => exact absurd hx hf
          | some o => rfl
        simp only [hsome, Bool.and_false, Bool.false_eq_true, if_false] at hn ⊢
        obtain ⟨i1, i2, i3⟩ := ih hn
        exfalso
        apply hf
        apply hfr.index
        apply i3
        rw [hfr.id_generator, i2]
        omega
      · have hnone : (Map.find b1.masterbook b1.id_generator).isNone = true := by
          rw [hf]
          rfl
        simp only [hr, ne_eq, not_false_eq_true, decide_True, hnone, Bool.and_self,
          if_true] at hn ⊢
        obtain ⟨i1, i2, i3⟩ := ih (by omega)
        have hg : b1.id_generator = n + 1 := by
          rw [hfr.id_generator, i2]
          omega
        have hret0 : ret ≠ 0 := by omega
        subst hb'
        refine ⟨?_, ?_, fun k hk => ?_⟩
        · rw [if_neg hret0, i1, hret, hg, List.range'_concat]
          simp [Nat.add_comm]
        · rw [(register_fields b1 _ _ _).1, hg]
        · rw [find_register _ _ _ _ hf, hg]
          have hk1 : k ≠ n + 1 := by omega
          rw [if_neg hk1]
          exact hfr.index k (i3 k (by omega))
  | @remove n rets b id hrun ih =>
    intro hn
    have hwf := hrun.reachable.wf
    obtain ⟨i1, i2, i3⟩ := ih hn
    exact ⟨i1, by rw [hwf.id_generator_remove]; exact i2,
      fun k hk => hwf.find_remove_none id (i3 k hk)⟩
  | @modify_volume n rets b id v hrun ih =>
    intro hn
    have hwf := hrun.reachable.wf
    obtain ⟨i1, i2, i3⟩ := ih hn
    exact ⟨i1, by rw [hwf.id_generator_modify_volume]; exact i2,
      fun k hk => hwf.find_modify_volume_none id v (i3 k hk)⟩
  | @market_order n rets b b' ret s V hrun hmo ih =>
    intro hn
    have hwf := hrun.reachable.wf
    obtain ⟨b'', hrun', -, hfr, -⟩ := market_order_spec hwf s V
    rw [hmo] at hrun'
    cases hrun'
    obtain ⟨i1, i2, i3⟩ := ih hn
    exact ⟨i1, by rw [hfr.id_generator]; exact i2, fun k hk => hfr.index k (i3 k hk)⟩

/-- While fewer than `2^64` resting orders have been created, the id that
`add` would draw is not a key of the index. -/
theorem Run.fresh {n : Nat} {rets : List Nat} {b : OrderBook} (h : Run n rets b)
    (hn : n < 2 ^ 64) : Map.find b.masterbook b.id_generator = none := by
  obtain ⟨-, i2, i3⟩ := h.inv hn
  apply i3
  rw [i2]
  omega

/-! ## The id generator wraps around -/

theorem add_exIdle (g : Nat) :
    add (exIdle g) 1 1 true = .ok (g, exOneBid g ((g + 1) % 2 ^ 64)) := by
  simp [add, match', exIdle, exOneBid, OrderBook.book, Order.ctor, MasterBook.emplace, Map.find,
    get_price_linked_list, Book.emplace, Map.modify, OrderBook.setBook, Order.set_iterator]

theorem match'_exIdle (g : Nat) :
    match' (exIdle g) (BookRef.against true) 1 1 true = .ok (1, exIdle g) := by
  simp [match', exIdle, OrderBook.book, BookRef.against]

theorem add_rests_exIdle (g : Nat) : add_rests (exIdle g) 1 1 true = true := by
  rw [add_rests, match'_exIdle]
  simp [exIdle, Map.find]

theorem remove_exOneBid (k g : Nat) : remove (exOneBid k g) k = (true, exIdle g) := by
  simp [remove, exOneBid, exIdle, Map.find, remove_from_book, Map.erase]

/-- One round `add(1, 1, buy)`, `remove(id)` on an empty book. -/
theorem Run.round {n : Nat} {rets : List Nat} {g : Nat} (h : Run n rets (exIdle g)) :
    Run (n + 1) (if g = 0 then rets else rets ++ [g]) (exIdle ((g + 1) % 2 ^ 64)) := by
  have h1 := Run.add 1 1 true h (add_exIdle g)
  rw [add_rests_exIdle] at h1
  have h2 := Run.remove g h1
  rw [remove_exOneBid] at h2
  exact h2

theorem run_exIdle : ∀ n : Nat, n + 1 < 2 ^ 64 → Run n (List.range' 1 n) (exIdle (n + 1)) := by
  intro n
  induction n with
  | zero => intro _; exact Run.empty
  | succ n ih =>
    intro hn
    have h := (ih (by omega)).round
    have e1 : (n + 1 + 1) % 2 ^ 64 = n + 1 + 1 := Nat.mod_eq_of_lt hn
    rw [e1, if_neg (Nat.succ_ne_zero n)] at h
    rw [List.range'_concat]
    simpa [Nat.add_comm] using h

/-- After `2^64 - 1` resting orders the last one created has the key
`2^64 - 1` and `id_generator` is 0. -/
theorem run_exLast :
    Run (2 ^ 64 - 1) (List.range' 1 (2 ^ 64 - 1)) (exOneBid (2 ^ 64 - 1) 0) := by
  have h := run_exIdle (2 ^ 64 - 2) (by decide)
  have h1 := Run.add 1 1 true h (add_exIdle _)
  rw [add_rests_exIdle] at h1
  have e : (2 ^ 64 - 2 + 1 : Nat) = 2 ^ 64 - 1 := by decide
  rw [e] at h1
  have e2 : ((2 ^ 64 - 1 + 1) % 2 ^ 64 : Nat) = 0 := by decide
  rw [e2] at h1
  have e3 : ((2 ^ 64 - 1 : Nat) = 0) = False := by simp
  simp only [if_true, e3, if_false] at h1
  have e4 : List.range' 1 (2 ^ 64 - 2) ++ [2 ^ 64 - 1] = List.range' 1 (2 ^ 64 - 1) := by
    conv_rhs => rw [show (2 ^ 64 - 1 : Nat) = 2 ^ 64 - 2 + 1 from by decide, List.range'_concat]
    congr 1
  rw [e4] at h1
  exact h1

/-- The empty book with `id_generator = 0` is reachable. -/
theorem reachable_exIdle_zero : Reachable (exIdle 0) := by
  have h := Reachable.remove (2 ^ 64 - 1) run_exLast.reachable
  rw [remove_exOneBid] at h
  exact h

/-! ## A reachable state in which the id to draw is already a key -/

theorem add_exOneBid (g : Nat) (hg : g ≠ 1) :
    add (exOneBid 1 g) 1 1 true =
      .ok (g, ⟨(g + 1) % 2 ^ 64, [(1, ⟨1, 1, 1, true, true⟩), (g, ⟨g, 1, 1, true, true⟩)], [],
        [(1, [1, g])]⟩) := by
  have hg' : ¬ 1 = g := fun h => hg h.symm
  simp [add, match', exOneBid, OrderBook.book, Order.ctor, MasterBook.emplace, Map.find,
    get_price_linked_list, Book.emplace, Map.modify, OrderBook.setBook, Order.set_iterator,
    BookRef.comp, hg']

theorem remove_second (g g' : Nat) (hg : g ≠ 1) :
    remove ⟨g', [(1, ⟨1, 1, 1, true, true⟩), (g, ⟨g, 1, 1, true, true⟩)], [], [(1, [1, g])]⟩ g =
      (true, exOneBid 1 g') := by
  have hg' : ¬ 1 = g := fun h => hg h.symm
  simp [remove, exOneBid, Map.find, remove_from_book, Map.erase, Map.modify, hg', hg]

theorem reachable_exOneBid : ∀ n : Nat, n ≤ 2 ^ 64 - 1 →
    Reachable (exOneBid 1 ((2 + n) % 2 ^ 64)) := by
  intro n
  induction n with
  | zero =>
    intro _
    exact @Reachable.add OrderBook.empty _ 1 1 1 true Reachable.empty (by decide)
  | succ n ih =>
    intro hn
    have hg : (2 + n) % 2 ^ 64 ≠ 1 := by omega
    have h1 := Reachable.add 1 1 true (ih (by omega)) (add_exOneBid _ hg)
    have h2 := Reachable.remove ((2 + n) % 2 ^ 64) h1
    rw [remove_second _ _ hg] at h2
    have e : ((2 + n) % 2 ^ 64 + 1) % 2 ^ 64 = (2 + (n + 1)) % 2 ^ 64 := by omega
    rw [e] at h2
    exact h2

/-- The state with one bid under the key 1 and `id_generator = 1` is reachable. -/
theorem reachable_exCollide : Reachable (exOneBid 1 1) :=
  reachable_exOneBid (2 ^ 64 - 1) (le_refl _)

theorem run_exAsks : Run 2 [1, 2] exAsks :=
  @Run.add 1 [1] ⟨2, [(1, ⟨1, 100, 5, false, true⟩)], [(100, [1])], []⟩ exAsks 2 101 5 false
    (@Run.add 0 [] OrderBook.empty _ 1 100 5 false Run.empty (by decide))
    (by decide)

/-! ## Claims on registration and identifiers -/

/-- C7 (amended). Registration of the remainder. In every reachable state
in which `id_generator` is not already a key of `masterbook`, for
`add(P, V, side)` with `P > 0` and residual `r > 0` after matching: `add`
returns the drawn id, which was no key before; afterwards `masterbook` maps
it to the order `(id, P, r, side, is_valid = true)`, the queue of `P` on the
own side is the former queue followed by that id, the queues of all other
prices of that side and the records of the orders already resting on that
side are unchanged. The id is not a key whenever fewer than `2^64` resting
orders have been created. -/
theorem C7_registration {b : OrderBook} (h : Reachable b) (P : Int) (V : Nat) (s : Bool)
    (hP : 0 < P) :
    (Map.find b.masterbook b.id_generator = none →
      ∃ r b1 ret b', match' b (BookRef.against s) P V s = .ok (r, b1) ∧
        add b P V s = .ok (ret, b') ∧
        (0 < r →
          ret = b.id_generator ∧
          Map.find b'.masterbook ret = some ⟨ret, P, r, s, true⟩ ∧
          Map.find (b'.book (BookRef.own s)) P =
            some ((Map.find (b.book (BookRef.own s)) P).getD [] ++ [ret]) ∧
          (∀ p, p ≠ P →
            Map.find (b'.book (BookRef.own s)) p = Map.find (b.book (BookRef.own s)) p) ∧
          (∀ k o, Map.find b.masterbook k = some o → o.is_buy = s →
            Map.find b'.masterbook k = some o))) ∧
    (∀ n rets, Run n rets b → n < 2 ^ 64 → Map.find b.masterbook b.id_generator = none) := by
  refine ⟨fun hfresh => ?_, fun n rets hrun hn => hrun.fresh hn⟩
  have hwf := h.wf
  obtain ⟨b1, ret, b', hm, hwf1, hfr, -, hrun, -, -, -, hcase⟩ := add_spec hwf P V s hP
  refine ⟨_, b1, ret, b', hm, hrun, fun hr => ?_⟩
  have hfresh1 : Map.find b1.masterbook b1.id_generator = none := by
    rw [hfr.id_generator]
    exact hfr.index _ hfresh
  rcases hcase with ⟨hr0, -⟩ | ⟨-, hf, -⟩ | ⟨-, hf, hret, hb'⟩
  · omega
  · exact absurd hfresh1 hf
  · have hown : b1.book (BookRef.own s) = b.book (BookRef.own s) :=
      hfr.other _ (fun e => BookRef.against_ne_own s e.symm)
    have hg : ret = b.id_generator := by rw [hret, hfr.id_generator]
    obtain ⟨-, -, hbook, -⟩ := register_fields b1 P
      (consume (crosses s P) (b.resting (BookRef.against s)) V).2 s
    subst hb'
    refine ⟨hg, ?_, ?_, fun p hp => ?_, fun k o hk hs => ?_⟩
    · rw [find_register _ _ _ _ hf, hret, if_pos rfl]
    · rw [hbook, Book.find_push_self _ _ _ _ (hwf1.sorted _), hown, hret]
    · rw [hbook, Book.find_push_ne _ _ _ hp, hown]
    · have hk1 : Map.find b1.masterbook k = some o := by
        refine hfr.kept k o hk ?_
        rw [hs, BookRef.side_against]
        cases s <;> simp
      rw [find_register _ _ _ _ hf]
      have hne : k ≠ b1.id_generator := by
        rintro rfl
        rw [hfresh1] at hk1
        cases hk1
      rw [if_neg hne]
      exact hk1

theorem C7_registration_witness :
    Reachable exAsks ∧ (0 : Int) < 102 ∧ Map.find exAsks.masterbook exAsks.id_generator = none ∧
      ∃ r b1 ret b', match' exAsks (BookRef.against false) 102 5 false = .ok (r, b1) ∧
        add exAsks 102 5 false = .ok (ret, b') ∧
        (0 < r →
          ret = exAsks.id_generator ∧
          Map.find b'.masterbook ret = some ⟨ret, 102, r, false, true⟩ ∧
          Map.find (b'.book (BookRef.own false)) 102 =
            some ((Map.find (exAsks.book (BookRef.own false)) 102).getD [] ++ [ret]) ∧
          (∀ p, p ≠ 102 →
            Map.find (b'.book (BookRef.own false)) p =
              Map.find (exAsks.book (BookRef.own false)) p) ∧
          (∀ k o, Map.find exAsks.masterbook k = some o → o.is_buy = false →
            Map.find b'.masterbook k = some o)) :=
  ⟨reachable_exAsks, by decide, by decide,
    (C7_registration reachable_exAsks 102 5 false (by decide)).1 (by decide)⟩

/-- C7 as stated fails: in the reachable state with `id_generator = 1` and a
bid under the key 1, `add(1, 1, buy)` has residual 1 after matching, yet it
returns 0, no order is mapped to the returned value, and the queue of price
1 is left without a new tail entry. -/
theorem C7_counterexample :
    Reachable (exOneBid 1 1) ∧
      match' (exOneBid 1 1) (BookRef.against true) 1 1 true = .ok (1, exOneBid 1 1) ∧
      add (exOneBid 1 1) 1 1 true = .ok (0, exOneBid 1 2) ∧
      Map.find (exOneBid 1 2).masterbook 0 = none ∧
      Map.find ((exOneBid 1 2).book (BookRef.own true)) 1 = some [1] :=
  ⟨reachable_exCollide, by decide, by decide, by decide, by decide⟩

/-- The scenario "full fill" for every price and volume. -/
theorem full_fill_scenario (p : Int) (v : Nat) (hp : 0 < p) (hv : 0 < v) :
    add OrderBook.empty p v false =
        .ok (1, ⟨2, [(1, ⟨1, p, v, false, true⟩)], [(p, [1])], []⟩) ∧
      add ⟨2, [(1, ⟨1, p, v, false, true⟩)], [(p, [1])], []⟩ p v true = .ok (0, exIdle 2) := by
  have hp' : ¬ p ≤ 0 := by omega
  have hv' : v ≠ 0 := by omega
  constructor
  · simp [add, match', OrderBook.empty, OrderBook.book, Order.ctor, MasterBook.emplace, Map.find,
      get_price_linked_list, Book.emplace, Map.modify, OrderBook.setBook, Order.set_iterator,
      hp', hv']
  · simp [add, match', match_loop, match_level, remove, remove_from_book, OrderBook.book,
      Map.find, Map.erase, exIdle, hp', hv', hv]

/-- C8 (amended). While fewer than `2^64 - 1` resting orders have been
created, for `add(P, V, side)` with `P > 0`: `add` returns 0 iff the residual
after matching is 0, in which case nothing is added to the index or to the
own-side book; a non-zero return value is the fresh key of the newly
resting order; and 0 is a key of `masterbook` neither before nor after the
call. On the empty book `add(p, v, sell)` followed by `add(p, v, buy)`
returns 0 from the second call and leaves index and books empty. -/
theorem C8_fully_filled_never_rests {n : Nat} {rets : List Nat} {b : OrderBook}
    (h : Run n rets b) (hn : n < 2 ^ 64 - 1) (P : Int) (V : Nat) (s : Bool) (hP : 0 < P) :
    (∃ r b1 ret b', match' b (BookRef.against s) P V s = .ok (r, b1) ∧
      add b P V s = .ok (ret, b') ∧
      (ret = 0 ↔ r = 0) ∧
      (r = 0 → b' = b1 ∧ b'.book (BookRef.own s) = b.book (BookRef.own s) ∧
        ∀ k, Map.find b.masterbook k = none → Map.find b'.masterbook k = none) ∧
      (ret ≠ 0 → Map.find b.masterbook ret = none ∧
        Map.find b'.masterbook ret = some ⟨ret, P, r, s, true⟩) ∧
      Map.find b.masterbook 0 = none ∧ Map.find b'.masterbook 0 = none) ∧
    (∀ (p : Int) (v : Nat), 0 < p → 0 < v →
      ∃ b1 b2, add OrderBook.empty p v false = .ok (1, b1) ∧ add b1 p v true = .ok (0, b2) ∧
        b2.masterbook = [] ∧ b2.bidbook = [] ∧ b2.askbook = []) := by
  refine ⟨?_, fun p v hp hv =>
    ⟨_, _, (full_fill_scenario p v hp hv).1, (full_fill_scenario p v hp hv).2, rfl, rfl, rfl⟩⟩
  have hwf := h.reachable.wf
  obtain ⟨i1, i2, i3⟩ := h.inv (by omega)
  have hfresh := h.fresh (by omega)
  obtain ⟨b1, ret, b', hm, hwf1, hfr, -, hrun, -, -, -, hcase⟩ := add_spec hwf P V s hP
  have hfresh1 : Map.find b1.masterbook b1.id_generator = none := by
    rw [hfr.id_generator]
    exact hfr.index _ hfresh
  have hg : b1.id_generator = n + 1 := by
    rw [hfr.id_generator, i2]
    omega
  have hzero : Map.find b.masterbook 0 = none := i3 0 (Or.inl rfl)
  have hown : b1.book (BookRef.own s) = b.book (BookRef.own s) :=
    hfr.other _ (fun e => BookRef.against_ne_own s e.symm)
  refine ⟨_, b1, ret, b', hm, hrun, ?_⟩
  rcases hcase with ⟨hr0, hret, hb'⟩ | ⟨-, hf, -⟩ | ⟨hr, hf, hret, hb'⟩
  · subst hb'
    refine ⟨by simp [hr0, hret], fun _ => ⟨rfl, hown, hfr.index⟩, fun hne => absurd hret hne,
      hzero, hfr.index 0 hzero⟩
  · exact absurd hfresh1 hf
  · subst hb'
    have hret0 : ret ≠ 0 := by omega
    refine ⟨by simp [hr, hret0], fun h0 => absurd h0 hr, fun _ => ⟨?_, ?_⟩, hzero, ?_⟩
    · rw [hret, hfr.id_generator]
      exact hfresh
    · rw [find_register _ _ _ _ hf, hret, if_pos rfl]
    · rw [find_register _ _ _ _ hf, hg, if_neg (by omega)]
      exact hfr.index 0 hzero

theorem C8_fully_filled_never_rests_witness :
    Run 2 [1, 2] exAsks ∧ 2 < 2 ^ 64 - 1 ∧ (0 : Int) < 101 ∧
      ∃ r b1 ret b', match' exAsks (BookRef.against true) 101 10 true = .ok (r, b1) ∧
        add exAsks 101 10 true = .ok (ret, b') ∧
        (ret = 0 ↔ r = 0) ∧
        (r = 0 → b' = b1 ∧ b'.book (BookRef.own true) = exAsks.book (BookRef.own true) ∧
          ∀ k, Map.find exAsks.masterbook k = none → Map.find b'.masterbook k = none) ∧
        (ret ≠ 0 → Map.find exAsks.masterbook ret = none ∧
          Map.find b'.masterbook ret = some ⟨ret, 101, r, true, true⟩) ∧
        Map.find exAsks.masterbook 0 = none ∧ Map.find b'.masterbook 0 = none :=
  ⟨run_exAsks, by decide, by decide,
    (C8_fully_filled_never_rests run_exAsks (by decide) 101 10 true (by decide)).1⟩

/-- C8 as stated fails: the empty book with `id_generator = 0` is reachable,
and there `add(1, 1, buy)` has residual 1 after matching yet returns 0, and
afterwards 0 is a key of `masterbook`. -/
theorem C8_counterexample :
    Reachable (exIdle 0) ∧
      match' (exIdle 0) (BookRef.against true) 1 1 true = .ok (1, exIdle 0) ∧
      add (exIdle 0) 1 1 true = .ok (0, exOneBid 0 1) ∧
      Map.find (exOneBid 0 1).masterbook 0 = some ⟨0, 1, 1, true, true⟩ :=
  ⟨reachable_exIdle_zero, by decide, by decide, by decide⟩

/-- C9 (amended). Along any run from the empty book with fewer than `2^64`
resting orders created (`n` of them): the non-zero values returned by `add`
are `1, 2, ..., n` in this order, hence strictly increasing and never
repeated; every key of `masterbook` is `>= 1` and `<= n`; `id_generator` is
`n + 1` modulo `2^64`, so every key is `< id_generator` as long as
`n < 2^64 - 1`. -/
theorem C9_identifiers {n : Nat} {rets : List Nat} {b : OrderBook} (h : Run n rets b)
    (hn : n < 2 ^ 64) :
    rets = List.range' 1 n ∧ rets.Pairwise (fun x y => x < y) ∧ rets.Nodup ∧
      (∀ x ∈ rets, x ≠ 0) ∧
      (∀ k o, Map.find b.masterbook k = some o → 1 ≤ k ∧ k ≤ n) ∧
      b.id_generator = (n + 1) % 2 ^ 64 ∧
      (n < 2 ^ 64 - 1 → ∀ k o, Map.find b.masterbook k = some o → k < b.id_generator) := by
  obtain ⟨i1, i2, i3⟩ := h.inv hn
  have hkeys : ∀ k o, Map.find b.masterbook k = some o → 1 ≤ k ∧ k ≤ n := by
    intro k o hk
    by_contra hcon
    have := i3 k (by omega)
    rw [hk] at this
    cases this
  have hsorted : rets.Pairwise (fun x y => x < y) := by
    rw [i1]
    exact List.pairwise_lt_range' 1 n
  refine ⟨i1, hsorted, hsorted.imp (fun hxy => Nat.ne_of_lt hxy), ?_, hkeys, i2, ?_⟩
  · intro x hx
    rw [i1, List.mem_range'_1] at hx
    omega
  · intro hn' k o hk
    rw [i2]
    have := (hkeys k o hk).2
    omega

theorem C9_identifiers_witness :
    Run 2 [1, 2] exAsks ∧ 2 < 2 ^ 64 ∧
      ([1, 2] = List.range' 1 2 ∧ [1, 2].Pairwise (fun x y => x < y) ∧ [1, 2].Nodup ∧
        (∀ x ∈ [1, 2], x ≠ 0) ∧
        (∀ k o, Map.find exAsks.masterbook k = some o → 1 ≤ k ∧ k ≤ 2) ∧
        exAsks.id_generator = (2 + 1) % 2 ^ 64 ∧
        (2 < 2 ^ 64 - 1 → ∀ k o, Map.find exAsks.masterbook k = some o →
          k < exAsks.id_generator)) :=
  ⟨run_exAsks, by decide, C9_identifiers run_exAsks (by decide)⟩

/-- C9 as stated fails at its bound: a run that creates `2^64 - 1` resting
orders (fewer than `2^64`) ends in a state where the key `2^64 - 1` is in
`masterbook` and is not below `id_generator`, which is 0. -/
theorem C9_counterexample :
    Run (2 ^ 64 - 1) (List.range' 1 (2 ^ 64 - 1)) (exOneBid (2 ^ 64 - 1) 0) ∧
      2 ^ 64 - 1 < 2 ^ 64 ∧
      Map.find (exOneBid (2 ^ 64 - 1) 0).masterbook (2 ^ 64 - 1) =
        some ⟨2 ^ 64 - 1, 1, 1, true, true⟩ ∧
      ¬ (2 ^ 64 - 1 < (exOneBid (2 ^ 64 - 1) 0).id_generator) :=
  ⟨run_exLast, by decide, by decide, by decide⟩

/-! ## Claims on cancellation and amendment -/

/-- C13. Amendment keeps time priority. In every reachable state, for every
id present in `masterbook` (mapped to `o`) and every new volume `v > 0`:
`modify_volume(id, v)` returns true; afterwards id is mapped to `o` with
volume `v` and the same id, price, side and validity; every other index entry
is unchanged; `askbook` and `bidbook` (all queues, with the position of id in
its queue, and all price keys) and `id_generator` are unchanged; and the
priority list of each side has the same orders in the same order, with only
the volume of id replaced. -/
theorem C13_amend_keeps_priority {b : OrderBook} (h : Reachable b) (id : Nat) (o : Order)
    (ho : Map.find b.masterbook id = some o) (v : Nat) (hv : 0 < v) :
    (modify_volume b id v).1 = true ∧
    Map.find (modify_volume b id v).2.masterbook id = some { o with volume := v } ∧
    (∀ k, k ≠ id → Map.find (modify_volume b id v).2.masterbook k = Map.find b.masterbook k) ∧
    (modify_volume b id v).2.askbook = b.askbook ∧
    (modify_volume b id v).2.bidbook = b.bidbook ∧
    (modify_volume b id v).2.id_generator = b.id_generator ∧
    (∀ r, (modify_volume b id v).2.resting r =
      (b.resting r).map (fun x => if x.id = id then { x with volume := v } else x)) := by
  have hwf := h.wf
  have hv0 : v ≠ 0 := by omega
  have e : modify_volume b id v =
      (true, { b with masterbook := Map.modify b.masterbook id (fun x => { x with volume := v }) }) := by
    simp [modify_volume, ho, hv0]
  rw [e]
  refine ⟨rfl, ?_, fun k hk => ?_, rfl, rfl, rfl, fun r => ?_⟩
  · show Map.find (Map.modify b.masterbook id _) id = _
    rw [Map.find_modify_self, ho]
    rfl
  · show Map.find (Map.modify b.masterbook id _) k = _
    rw [Map.find_modify_ne _ _ hk]
  · exact hwf.resting_modify id _ r

theorem C13_amend_keeps_priority_witness :
    Reachable exBids ∧ Map.find exBids.masterbook 2 = some ⟨2, 101, 7, true, true⟩ ∧
      (0 < 9) ∧ (modify_volume exBids 2 9).1 = true ∧
      Map.find (modify_volume exBids 2 9).2.masterbook 2 = some ⟨2, 101, 9, true, true⟩ :=
  ⟨reachable_exBids, by decide, by decide,
    (C13_amend_keeps_priority reachable_exBids 2 ⟨2, 101, 7, true, true⟩ (by decide) 9
      (by decide)).1,
    (C13_amend_keeps_priority reachable_exBids 2 ⟨2, 101, 7, true, true⟩ (by decide) 9
      (by decide)).2.1⟩

/-- C14. Amending to zero is cancellation. For every state and every id,
present in `masterbook` or not, `modify_volume(id, 0)` returns the same
boolean and the same state as `remove(id)`. -/
theorem C14_amend_zero_is_cancel (b : OrderBook) (id : Nat) :
    (modify_volume b id 0).1 = (remove b id).1 ∧ (modify_volume b id 0).2 = (remove b id).2 := by
  rw [modify_volume_zero]
  exact ⟨rfl, rfl⟩

/-- C20. Zero-volume requests are silent no-ops. For every state and every
`P > 0`, `add(P, 0, side)` returns 0 and leaves the state unchanged: `match`
returns 0 without touching the state and `add` returns at `volume_ == 0`,
before the constructor of `Order`, which would throw `invalid_argument` for
volume 0. Likewise `market_order(is_buy, 0)` returns 0 and leaves the state
unchanged. -/
theorem C20_zero_volume_noop (b : OrderBook) (P : Int) (s : Bool) (hP : 0 < P) :
    add b P 0 s = .ok (0, b) ∧
    match' b (BookRef.against s) P 0 s = .ok (0, b) ∧
    Order.ctor b.id_generator P 0 s = .fault .invalid_argument ∧
    market_order b s 0 = .ok (0, b) := by
  have hP' : ¬ P ≤ 0 := by omega
  have hm : ∀ r : BookRef, match' b r P 0 s = .ok (0, b) := by
    intro r
    simp [match', match_loop]
  refine ⟨?_, hm _, ?_, ?_⟩
  · cases s <;> simp [add, hP', hm]
  · simp [Order.ctor, hP']
  · simp [market_order]

theorem C20_zero_volume_noop_witness :
    (0 : Int) < 100 ∧ add exAsks 100 0 true = .ok (0, exAsks) ∧
      market_order exAsks true 0 = .ok (0, exAsks) :=
  ⟨by decide, (C20_zero_volume_noop exAsks 100 true (by decide)).1,
    (C20_zero_volume_noop exAsks 100 true (by decide)).2.2.2⟩

/-! ## Claims on market orders and on the return value of `add` -/

/-- C16 (amended). The return value of `add` tells two outcomes apart, not
three. For every state: a rejected order (price `<= 0`) makes `add` return 0
and leaves the state unchanged; an accepted order (price `> 0`) that is fully
filled (`match` returns residual 0) makes `add` return 0 as well; a non-zero
return value is the key of the order that now rests with the residual
volume. -/
theorem C16_return_value (b : OrderBook) :
    (∀ (P : Int) (V : Nat) (s : Bool), P ≤ 0 → add b P V s = .ok (0, b)) ∧
    (∀ (P : Int) (V : Nat) (s : Bool) (b1 : OrderBook), 0 < P →
      match' b (BookRef.against s) P V s = .ok (0, b1) → add b P V s = .ok (0, b1)) ∧
    (∀ (P : Int) (V : Nat) (s : Bool) (ret : Nat) (b' : OrderBook), 0 < P →
      add b P V s = .ok (ret, b') → ret ≠ 0 →
      ∃ r b1, match' b (BookRef.against s) P V s = .ok (r, b1) ∧ r ≠ 0 ∧
        Map.find b'.masterbook ret = some ⟨ret, P, r, s, true⟩) := by
  refine ⟨fun P V s hP => add_nonpos b P V s hP, fun P V s b1 hP hm => ?_,
    fun P V s ret b' hP hadd hret => ?_⟩
  · rw [add_eq b P V s hP, hm]
    simp
  · rw [add_eq b P V s hP] at hadd
    cases hm : match' b (BookRef.against s) P V s with
    | fault f =>
      rw [hm] at hadd
      cases hadd
    | ok x =>
      obtain ⟨r, b1⟩ := x
      rw [hm] at hadd
      simp only at hadd
      by_cases hr : r = 0
      · rw [if_pos hr] at hadd
        cases hadd
        exact absurd rfl hret
      · rw [if_neg hr] at hadd
        cases hf : Map.find b1.masterbook b1.id_generator with
        | some o =>
          rw [hf] at hadd
          simp only [Option.isSome_some, if_true] at hadd
          cases hadd
          exact absurd rfl hret
        | none =>
          rw [hf] at hadd
          simp only [Option.isSome_none, Bool.false_eq_true, if_false] at hadd
          cases hadd
          refine ⟨r, b1, rfl, hr, ?_⟩
          rw [find_register _ _ _ _ hf, if_pos rfl]

theorem C16_return_value_witness :
    ((-1 : Int) ≤ 0 ∧ add exAsks (-1) 5 true = .ok (0, exAsks)) ∧
    ((0 : Int) < 100 ∧
      match' exAsks (BookRef.against true) 100 5 true =
        .ok (0, ⟨3, [(2, ⟨2, 101, 5, false, true⟩)], [(101, [2])], []⟩) ∧
      add exAsks 100 5 true = .ok (0, ⟨3, [(2, ⟨2, 101, 5, false, true⟩)], [(101, [2])], []⟩)) :=
  ⟨⟨by decide, (C16_return_value exAsks).1 (-1) 5 true (by decide)⟩,
    ⟨by decide, by decide,
      (C16_return_value exAsks).2.1 100 5 true _ (by decide) (by decide)⟩⟩

/-- C16 as stated fails: in the reachable book with asks of volume 5 at 100
and at 101, the rejected `add(-1, 5, buy)` returns 0 and the accepted
`add(100, 5, buy)`, fully filled (residual 0 after matching), returns 0 too. -/
theorem C16_counterexample :
    Reachable exAsks ∧
      (∃ b', add exAsks (-1) 5 true = .ok (0, b')) ∧
      (∃ b1, match' exAsks (BookRef.against true) 100 5 true = .ok (0, b1)) ∧
      (∃ b', add exAsks 100 5 true = .ok (0, b')) :=
  ⟨reachable_exAsks, ⟨exAsks, by decide⟩,
    ⟨⟨3, [(2, ⟨2, 101, 5, false, true⟩)], [(101, [2])], []⟩, by decide⟩,
    ⟨⟨3, [(2, ⟨2, 101, 5, false, true⟩)], [(101, [2])], []⟩, by decide⟩⟩

theorem uncrossed_side (b : OrderBook) (s : Bool) :
    Uncrossed b ↔ ∀ p q p' q', (p, q) ∈ b.book (BookRef.own s) →
      (p', q') ∈ b.book (BookRef.against s) → crosses s p p' = false := by
  cases s
  · simp only [Uncrossed, BookRef.own, BookRef.against, OrderBook.book, crosses,
      Bool.false_eq_true, if_false, decide_eq_false_iff_not, not_le, ge_iff_le]
    exact ⟨fun h p q p' q' h1 h2 => h p' q' p q h2 h1, fun h p q p' q' h1 h2 => h p' q' p q h2 h1⟩
  · simp only [Uncrossed, BookRef.own, BookRef.against, OrderBook.book, crosses,
      if_true, decide_eq_false_iff_not, not_le]

theorem uncrossed_of_levels {b b' : OrderBook} (h : Uncrossed b)
    (hl : ∀ (r : BookRef) p q', (p, q') ∈ b'.book r → ∃ q, (p, q) ∈ b.book r) : Uncrossed b' := by
  intro pb qb pa qa hb ha
  obtain ⟨qb', hb'⟩ := hl .bidbook pb qb hb
  obtain ⟨qa', ha'⟩ := hl .askbook pa qa ha
  exact h pb qb' pa qa' hb' ha'

theorem Frame.levels_all {b b' : OrderBook} {r : BookRef} (h : Frame b b' r) :
    ∀ (r' : BookRef) p q', (p, q') ∈ b'.book r' → ∃ q, (p, q) ∈ b.book r' := by
  intro r' p q' hm
  by_cases hr : r' = r
  · subst hr
    exact h.levels p q' hm
  · rw [h.other r' hr] at hm
    exact ⟨q', hm⟩

theorem WF.levels_remove {b : OrderBook} (h : WF b) (id : Nat) :
    ∀ (r : BookRef) p q', (p, q') ∈ (remove b id).2.book r → ∃ q, (p, q) ∈ b.book r := by
  intro r p q' hm
  cases ho : Map.find b.masterbook id with
  | none =>
    rw [remove_of_find_none ho] at hm
    exact ⟨q', hm⟩
  | some o =>
    obtain ⟨-, -, -, h4, h5⟩ := h.remove_fields ho
    by_cases hr : r = BookRef.own o.is_buy
    · subst hr
      rw [h4] at hm
      obtain ⟨q, hq, -⟩ := Book.mem_unlink _ _ _ hm
      exact ⟨q, hq⟩
    · rw [h5 r hr] at hm
      exact ⟨q', hm⟩

theorem WF.levels_modify_volume {b : OrderBook} (h : WF b) (id v : Nat) :
    ∀ (r : BookRef) p q', (p, q') ∈ (modify_volume b id v).2.book r →
      ∃ q, (p, q) ∈ b.book r := by
  intro r p q' hm
  unfold modify_volume at hm
  cases ho : Map.find b.masterbook id with
  | none =>
    rw [ho] at hm
    exact ⟨q', hm⟩
  | some o =>
    rw [ho] at hm
    by_cases hv : v = 0
    · simp only [hv, if_true] at hm
      exact h.levels_remove id r p q' hm
    · simp only [hv, if_false] at hm
      rw [OrderBook.book_with_masterbook] at hm
      exact ⟨q', hm⟩

/-- After `match` has returned a non-zero residual, no level of the matched
book crosses the limit price. -/
theorem WF.no_cross_of_residual {b b1 : OrderBook} (hwf : WF b) (hwf1 : WF b1) (s : Bool)
    (P : Int) (V : Nat)
    (hres : b1.resting (BookRef.against s) =
      (consume (crosses s P) (b.resting (BookRef.against s)) V).1)
    (hr : (consume (crosses s P) (b.resting (BookRef.against s)) V).2 ≠ 0) :
    ∀ p q, (p, q) ∈ b1.book (BookRef.against s) → crosses s P p = false := by
  intro p q hm
  cases hc : crosses s P p with
  | false => rfl
  | true =>
    exfalso
    apply hr
    refine consume_exhausted _ _ V (hwf.crossing_first s P) ?_
    obtain ⟨hq, -⟩ := hwf1.level _ p q hm
    cases q with
    | nil => exact absurd rfl hq
    | cons i q =>
      obtain ⟨o, ho, -, hp, hs, -⟩ := hwf1.find_entry hm (List.mem_cons_self _ _)
      have hmem := hwf1.resting_of_find ho
      rw [hs, BookRef.own_side, hres] at hmem
      exact ⟨o, hmem, by rw [hp]; exact hc⟩

theorem uncrossed_with_id_generator {b : OrderBook} (h : Uncrossed b) (g : Nat) :
    Uncrossed { b with id_generator := g } := h

theorem Reachable.uncrossed {b : OrderBook} (h : Reachable b) : Uncrossed b := by
  induction h with
  | empty =>
    intro pb qb pa qa hb
    cases hb
  | @add b b' ret P V s hreach hadd ih =>
    have hwf := hreach.wf
    by_cases hP : P ≤ 0
    · rw [add_nonpos b P V s hP] at hadd
      cases hadd
      exact ih
    · obtain ⟨b1, ret', b'', -, hwf1, hfr, hres, hrun, -, -, -, hcase⟩ :=
        add_spec hwf P V s (by omega)
      rw [hadd] at hrun
      cases hrun
      have h1 : Uncrossed b1 := uncrossed_of_levels ih hfr.levels_all
      rcases hcase with ⟨-, -, hb'⟩ | ⟨-, -, -, hb'⟩ | ⟨hr, -, -, hb'⟩
      · rw [hb']
        exact h1
      · rw [hb']
        exact uncrossed_with_id_generator h1 _
      · rw [uncrossed_side _ s]
        intro p q p' q' hm hm'
        obtain ⟨-, -, hown, hoth⟩ := register_fields b1 P
          (consume (crosses s P) (b.resting (BookRef.against s)) V).2 s
        rw [hb', hown] at hm
        rw [hb', hoth _ (BookRef.against_ne_own s)] at hm'
        rcases Book.key_mem_push _ _ _ _ hm with hp | ⟨q0, hq0⟩
        · rw [hp]
          exact hwf.no_cross_of_residual hwf1 s P V hres hr p' q' hm'
        · exact (uncrossed_side b1 s).1 h1 p q0 p' q' hq0 hm'
  | @remove b id hreach ih => exact uncrossed_of_levels ih (hreach.wf.levels_remove id)
  | @modify_volume b id v hreach ih =>
    exact uncrossed_of_levels ih (hreach.wf.levels_modify_volume id v)
  | @market_order b b' ret s V hreach hmo ih =>
    obtain ⟨b'', hrun, -, hfr, -⟩ := market_order_spec hreach.wf s V
    rw [hmo] at hrun
    cases hrun
    exact uncrossed_of_levels ih hfr.levels_all

theorem reachable_exBoth : Reachable exBoth :=
  @Reachable.add ⟨2, [(1, ⟨1, 100, 5, false, true⟩)], [(100, [1])], []⟩ exBoth 2 99 5 true
    (@Reachable.add OrderBook.empty _ 1 100 5 false Reachable.empty (by decide)) (by decide)

theorem Book.head_first (r : BookRef) {bk : Book} {e : Int × List Nat}
    (hs : bk.Pairwise (fun x y => r.comp x.1 y.1 = true)) (hh : bk.head? = some e) :
    ∀ p q, (p, q) ∈ bk → r.comp p e.1 = false := by
  intro p q hm
  cases bk with
  | nil => cases hm
  | cons e0 rest =>
    simp only [List.head?_cons, Option.some.injEq] at hh
    subst hh
    rw [List.pairwise_cons] at hs
    rcases List.mem_cons.1 hm with h | h
    · rw [← h]
      exact r.comp_irrefl p
    · have h1 := hs.1 (p, q) h
      cases hc : r.comp p e0.1 with
      | false => rfl
      | true => exact absurd (r.comp_trans h1 hc) (by rw [r.comp_irrefl]; simp)

/-- The book is never crossed when no price is NaN. In every state reachable
from the empty book by `add`, `remove`, `modify_volume` and `market_order`
with prices other than NaN, every bid level
is priced strictly below every ask level; in particular, when `bidbook` and
`askbook` are both non-empty, the price of `bidbook.begin()`, which is the
highest bid price, is strictly less than the price of `askbook.begin()`, which
is the lowest ask price. -/
theorem never_crossed_of_reachable {b : OrderBook} (h : Reachable b) :
    Uncrossed b ∧
    ∀ bid ask, b.bidbook.head? = some bid → b.askbook.head? = some ask →
      bid.1 < ask.1 ∧ (∀ p q, (p, q) ∈ b.bidbook → p ≤ bid.1) ∧
        (∀ p q, (p, q) ∈ b.askbook → ask.1 ≤ p) := by
  have hu := h.uncrossed
  have hwf := h.wf
  refine ⟨hu, fun bid ask hb ha => ⟨?_, fun p q hm => ?_, fun p q hm => ?_⟩⟩
  · obtain ⟨pb, qb⟩ := bid
    obtain ⟨pa, qa⟩ := ask
    exact hu pb qb pa qa (List.mem_of_mem_head? hb) (List.mem_of_mem_head? ha)
  · have := Book.head_first .bidbook (hwf.sorted .bidbook) hb p q hm
    simpa [BookRef.comp] using this
  · have := Book.head_first .askbook (hwf.sorted .askbook) ha p q hm
    simpa [BookRef.comp] using this

theorem never_crossed_exBoth :
    Reachable exBoth ∧ exBoth.bidbook.head? = some (99, [2]) ∧
      exBoth.askbook.head? = some (100, [1]) ∧ (99 : Int) < 100 :=
  ⟨reachable_exBoth, rfl, rfl,
    ((never_crossed_of_reachable reachable_exBoth).2 (99, [2]) (100, [1]) rfl rfl).1⟩

/-! ## Cancel, then look up again -/

theorem Later.to_run {b0 : OrderBook} {n0 : Nat} {rets0 : List Nat} (h0 : Run n0 rets0 b0)
    {m : Nat} {b : OrderBook} (h : Later b0 m b) : ∃ rets, Run (n0 + m) rets b := by
  induction h with
  | refl => exact ⟨rets0, h0⟩
  | @add m b b' ret P V s _ hadd ih =>
    obtain ⟨rets, hr⟩ := ih
    have h1 := Run.add P V s hr hadd
    refine ⟨if ret = 0 then rets else rets ++ [ret], ?_⟩
    by_cases hc : add_rests b P V s = true
    · rw [if_pos hc] at h1 ⊢
      exact h1
    · rw [if_neg hc] at h1 ⊢
      exact h1
  | remove id _ ih =>
    obtain ⟨rets, hr⟩ := ih
    exact ⟨rets, Run.remove id hr⟩
  | modify_volume id v _ ih =>
    obtain ⟨rets, hr⟩ := ih
    exact ⟨rets, Run.modify_volume id v hr⟩
  | market_order s V _ hmo ih =>
    obtain ⟨rets, hr⟩ := ih
    exact ⟨rets, Run.market_order s V hr hmo⟩

/-- An id that is absent and not above the number of resting orders created
stays absent as long as fewer than `2^64` resting orders have been created. -/
theorem Later.absent {b0 : OrderBook} {n0 : Nat} {rets0 : List Nat} (h0 : Run n0 rets0 b0)
    {X : Nat} (hX : X ≤ n0) (habs : Map.find b0.masterbook X = none)
    {m : Nat} {b : OrderBook} (h : Later b0 m b) :
    n0 + m < 2 ^ 64 → Map.find b.masterbook X = none := by
  induction h with
  | refl => exact fun _ => habs
  | @add m b b' ret P V s hl hadd ih =>
    intro hn
    obtain ⟨rets, hrun⟩ := Later.to_run h0 hl
    have hwf := hrun.reachable.wf
    by_cases hP : P ≤ 0
    · rw [add_nonpos b P V s hP] at hadd
      cases hadd
      have hnr : add_rests b P V s = false := by
        have : ¬ 0 < P := by omega
        simp [add_rests, this]
      simp only [hnr, Bool.false_eq_true, if_false] at hn
      exact ih hn
    · have hP' : 0 < P := by omega
      obtain ⟨b1, ret', b'', hm, -, hfr, -, hrun', -, -, -, hcase⟩ := add_spec hwf P V s hP'
      rw [hadd] at hrun'
      cases hrun'
      rw [add_rests_eq hP' hm] at hn
      have hn0 : n0 + m < 2 ^ 64 := by
        by_cases hc : (decide ((consume (crosses s P) (b.resting (BookRef.against s)) V).2 ≠ 0) &&
            (Map.find b1.masterbook b1.id_generator).isNone) = true
        · rw [if_pos hc] at hn
          omega
        · rw [if_neg hc] at hn
          exact hn
      have hb1 : Map.find b1.masterbook X = none := hfr.index X (ih hn0)
      rcases hcase with ⟨-, -, hb'⟩ | ⟨-, -, -, hb'⟩ | ⟨hr, hf, -, hb'⟩
      · rw [hb']
        exact hb1
      · rw [hb']
        exact hb1
      · have hnone : (Map.find b1.masterbook b1.id_generator).isNone = true := by
          rw [hf]
          rfl
        simp only [hr, ne_eq, not_false_eq_true, decide_True, hnone, Bool.and_self,
          if_true] at hn
        obtain ⟨-, i2, -⟩ := hrun.inv hn0
        have hg : b1.id_generator = n0 + m + 1 := by
          rw [hfr.id_generator, i2]
          omega
        rw [hb', find_register _ _ _ _ hf, hg, if_neg (by omega)]
        exact hb1
  | @remove m b id hl ih =>
    intro hn
    obtain ⟨rets, hrun⟩ := Later.to_run h0 hl
    exact hrun.reachable.wf.find_remove_none id (ih hn)
  | @modify_volume m b id v hl ih =>
    intro hn
    obtain ⟨rets, hrun⟩ := Later.to_run h0 hl
    exact hrun.reachable.wf.find_modify_volume_none id v (ih hn)
  | @market_order m b b' ret s V hl hmo ih =>
    intro hn
    obtain ⟨rets, hrun⟩ := Later.to_run h0 hl
    obtain ⟨b'', hrun', -, hfr, -⟩ := market_order_spec hrun.reachable.wf s V
    rw [hmo] at hrun'
    cases hrun'
    exact hfr.index X (ih hn)

theorem lookup_of_absent {b : OrderBook} {X : Nat} (h : Map.find b.masterbook X = none) :
    (remove b X).1 = false ∧ ∀ v, (modify_volume b X v).1 = false := by
  refine ⟨by rw [remove_of_find_none h], fun v => ?_⟩
  simp [modify_volume, h]

theorem find_of_remove_true {b : OrderBook} {X : Nat} (h : (remove b X).1 = true) :
    ∃ o, Map.find b.masterbook X = some o := by
  cases ho : Map.find b.masterbook X with
  | none =>
    rw [remove_of_find_none ho] at h
    cases h
  | some o => exact ⟨o, rfl⟩

/-- C12 (amended). Cancel then re-lookup. In every reachable state, after an
`add` that returns a non-zero id `X`, an immediately following `remove(X)`
returns true, a second `remove(X)` returns false and `modify_volume(X, v)`
returns false for every `v`. More generally, after a successful `remove(X)` in
a run from the empty book, every later `remove(X)` or `modify_volume(X, v)`
returns false whatever operations are interleaved, as long as fewer than
`2^64` resting orders have been created in the whole run. -/
theorem C12_cancel_then_relookup :
    (∀ (b : OrderBook) (P : Int) (V : Nat) (s : Bool) (X : Nat) (b' : OrderBook),
      Reachable b → add b P V s = .ok (X, b') → X ≠ 0 →
      (remove b' X).1 = true ∧ (remove (remove b' X).2 X).1 = false ∧
        ∀ v, (modify_volume (remove b' X).2 X v).1 = false) ∧
    (∀ (n0 : Nat) (rets0 : List Nat) (b0 : OrderBook) (X m : Nat) (b : OrderBook),
      Run n0 rets0 b0 → (remove b0 X).1 = true → Later (remove b0 X).2 m b →
      n0 + m < 2 ^ 64 →
      (remove b X).1 = false ∧ ∀ v, (modify_volume b X v).1 = false) := by
  refine ⟨fun b P V s X b' hreach hadd hX => ?_, fun n0 rets0 b0 X m b hrun hrem hl hn => ?_⟩
  · have hwf' : WF b' := (Reachable.add P V s hreach hadd).wf
    have hfind : ∃ o, Map.find b'.masterbook X = some o := by
      by_cases hP : P ≤ 0
      · rw [add_nonpos b P V s hP] at hadd
        cases hadd
        exact absurd rfl hX
      · obtain ⟨r, b1, -, -, hf⟩ :=
          (show ∃ r b1, match' b (BookRef.against s) P V s = .ok (r, b1) ∧ r ≠ 0 ∧
              Map.find b'.masterbook X = some ⟨X, P, r, s, true⟩ from by
            obtain ⟨b1, ret', b'', hm, -, -, -, hrun', -, -, -, hcase⟩ :=
              add_spec hreach.wf P V s (by omega)
            rw [hadd] at hrun'
            cases hrun'
            rcases hcase with ⟨-, h0, -⟩ | ⟨-, -, h0, -⟩ | ⟨hr, hf, hret, hb'⟩
            · exact absurd h0 hX
            · exact absurd h0 hX
            · refine ⟨_, b1, hm, hr, ?_⟩
              rw [hb', find_register _ _ _ _ hf, hret, if_pos rfl])
        exact ⟨_, hf⟩
    obtain ⟨o, ho⟩ := hfind
    exact ⟨(hwf'.remove_fields ho).1, lookup_of_absent (hwf'.find_remove_self X)⟩
  · obtain ⟨o, ho⟩ := find_of_remove_true hrem
    have hwf := hrun.reachable.wf
    have hn0 : n0 < 2 ^ 64 := by omega
    obtain ⟨-, -, i3⟩ := hrun.inv hn0
    have hX : X ≤ n0 := by
      by_contra hc
      have := i3 X (Or.inr (by omega))
      rw [ho] at this
      cases this
    exact lookup_of_absent
      (Later.absent (Run.remove X hrun) hX (hwf.find_remove_self X) hl hn)

theorem C12_cancel_then_relookup_witness :
    Run 2 [1, 2] exAsks ∧ (remove exAsks 1).1 = true ∧
      Later (remove exAsks 1).2 0 (remove exAsks 1).2 ∧ 2 + 0 < 2 ^ 64 ∧
      (remove (remove exAsks 1).2 1).1 = false ∧
      ∀ v, (modify_volume (remove exAsks 1).2 1 v).1 = false :=
  ⟨run_exAsks, by decide, Later.refl, by decide,
    C12_cancel_then_relookup.2 2 [1, 2] exAsks 1 0 _ run_exAsks (by decide) Later.refl
      (by decide)⟩

/-! ### The id of a cancelled order is issued again after the wrap -/

theorem Later.next_round {b0 : OrderBook} {m g : Nat} (h : Later b0 m (exIdle g)) :
    Later b0 (m + 1) (exIdle ((g + 1) % 2 ^ 64)) := by
  have h1 := Later.add 1 1 true h (add_exIdle g)
  rw [add_rests_exIdle] at h1
  have h2 := Later.remove g h1
  rw [remove_exOneBid] at h2
  exact h2

theorem later_exIdle : ∀ k : Nat, Later (exIdle 2) k (exIdle ((2 + k) % 2 ^ 64)) := by
  intro k
  induction k with
  | zero => exact Later.refl
  | succ k ih =>
    have h := ih.next_round
    have e : ((2 + k) % 2 ^ 64 + 1) % 2 ^ 64 = (2 + (k + 1)) % 2 ^ 64 := by omega
    rw [e] at h
    exact h

theorem later_exReissued : Later (exIdle 2) (2 ^ 64) (exOneBid 1 2) := by
  have h := later_exIdle (2 ^ 64 - 1)
  have e : (2 + (2 ^ 64 - 1)) % 2 ^ 64 = 1 := by decide
  rw [e] at h
  have h1 := Later.add 1 1 true h (add_exIdle 1)
  rw [add_rests_exIdle] at h1
  exact h1

theorem run_exOneBid : Run 1 [1] (exOneBid 1 2) :=
  @Run.add 0 [] OrderBook.empty (exOneBid 1 2) 1 1 1 true Run.empty (by decide)

/-- C12 as stated fails. On the empty book `add(1, 1, buy)` returns the id 1
and `remove(1)` succeeds; after `2^64 - 1` further rounds of `add(1, 1, buy)`
and `remove` of the id just returned, and one more `add(1, 1, buy)`, the id 1
is a key again: the later `remove(1)` and `modify_volume(1, 1)` return true. -/
theorem C12_counterexample :
    add OrderBook.empty 1 1 true = .ok (1, exOneBid 1 2) ∧
      Run 1 [1] (exOneBid 1 2) ∧
      remove (exOneBid 1 2) 1 = (true, exIdle 2) ∧
      Later (exIdle 2) (2 ^ 64) (exOneBid 1 2) ∧
      (remove (exOneBid 1 2) 1).1 = true ∧
      (modify_volume (exOneBid 1 2) 1 1).1 = true :=
  ⟨by decide, run_exOneBid, by decide, later_exReissued, by decide, by decide⟩

/-! ## The defensive branches are not taken -/

/-- The functions with the suffix `_strict` do tell the branches apart: with
an indexed order that is not valid, and with a valid indexed order whose price
is not a key of its book, `remove` returns true and `remove_strict` has no
result. -/
theorem remove_strict_discriminates :
    remove ⟨2, [(1, ⟨1, 1, 1, true, false⟩)], [], []⟩ 1 = (true, exIdle 2) ∧
    remove_strict ⟨2, [(1, ⟨1, 1, 1, true, false⟩)], [], []⟩ 1 = none ∧
    remove ⟨2, [(1, ⟨1, 1, 1, true, true⟩)], [], [(2, [1])]⟩ 1 =
      (true, ⟨2, [], [], [(2, [1])]⟩) ∧
    remove_strict ⟨2, [(1, ⟨1, 1, 1, true, true⟩)], [], [(2, [1])]⟩ 1 = none := by
  decide

namespace IEEE

theorem comp_num (r : BookRef) (x y : Int) : comp r (.num x) (.num y) = r.comp x y := by
  cases r <;> simp [comp, BookRef.comp, Dbl.lt, Dbl.gt]

theorem same_num (r : BookRef) (x y : Int) :
    Book.same (comp r) (.num x) (.num y) = decide (x = y) := by
  cases r
  · by_cases h : x = y
    · simp [Book.same, comp, Dbl.lt, h]
    · simp only [Book.same, comp, Dbl.lt, h, decide_False]
      rcases lt_or_gt_of_ne h with h1 | h1
      · simp [h1]
      · have : ¬ x < y := by omega
        simp [this, h1]
  · by_cases h : x = y
    · simp [Book.same, comp, Dbl.lt, Dbl.gt, h]
    · simp only [Book.same, comp, Dbl.gt, Dbl.lt, h, decide_False]
      rcases lt_or_gt_of_ne h with h1 | h1
      · have : ¬ y < x := by omega
        simp [this, h1]
      · simp [h1]

theorem find_ofBook (r : BookRef) (bk : LOB.Book) (p : Int) :
    Book.find (comp r) (ofBook bk) (.num p) = Map.find bk p := by
  induction bk with
  | nil => rfl
  | cons e rest ih =>
    obtain ⟨p0, q0⟩ := e
    simp only [ofBook, List.map_cons, Book.find, same_num, Map.find, decide_eq_true_eq]
    by_cases h : p0 = p
    · simp [h]
    · simp only [h, if_false]
      exact ih

theorem erase_ofBook (r : BookRef) (bk : LOB.Book) (p : Int) :
    Book.erase (comp r) (ofBook bk) (.num p) = ofBook (Map.erase bk p) := by
  induction bk with
  | nil => rfl
  | cons e rest ih =>
    obtain ⟨p0, q0⟩ := e
    simp only [ofBook, List.map_cons, Book.erase, same_num, Map.erase, decide_eq_true_eq]
    by_cases h : p0 = p
    · simp [h]
    · simp only [h, if_false, List.map_cons]
      exact congrArg (List.cons _) ih

theorem modify_ofBook (r : BookRef) (bk : LOB.Book) (p : Int) (f : List Nat → List Nat) :
    Book.modify (comp r) (ofBook bk) (.num p) f = ofBook (Map.modify bk p f) := by
  induction bk with
  | nil => rfl
  | cons e rest ih =>
    obtain ⟨p0, q0⟩ := e
    simp only [ofBook, List.map_cons, Book.modify, same_num, Map.modify, decide_eq_true_eq]
    by_cases h : p0 = p
    · simp [h]
    · simp only [h, if_false, List.map_cons]
      exact congrArg (List.cons _) ih

theorem emplace_ofBook (r : BookRef) (bk : LOB.Book) (p : Int) :
    Book.emplace (comp r) (ofBook bk) (.num p) = ofBook (LOB.Book.emplace r.comp bk p) := by
  induction bk with
  | nil => rfl
  | cons e rest ih =>
    obtain ⟨p0, q0⟩ := e
    simp only [ofBook, List.map_cons, Book.emplace, LOB.Book.emplace, comp_num]
    by_cases h1 : r.comp p p0 = true
    · simp [h1]
    · by_cases h2 : r.comp p0 p = true
      · simp only [h1, h2, if_true, if_false, List.map_cons, Bool.false_eq_true]
        exact congrArg (List.cons _) ih
      · simp [h1, h2]

theorem find_ofMasterBook (m : LOB.MasterBook) (k : Nat) :
    Map.find (ofMasterBook m) k = (Map.find m k).map ofOrder := by
  induction m with
  | nil => rfl
  | cons e rest ih =>
    obtain ⟨k0, o0⟩ := e
    simp only [ofMasterBook, List.map_cons, Map.find]
    by_cases h : k0 = k
    · simp [h]
    · simp only [h, if_false]
      exact ih

theorem erase_ofMasterBook (m : LOB.MasterBook) (k : Nat) :
    Map.erase (ofMasterBook m) k = ofMasterBook (Map.erase m k) := by
  induction m with
  | nil => rfl
  | cons e rest ih =>
    obtain ⟨k0, o0⟩ := e
    simp only [ofMasterBook, List.map_cons, Map.erase]
    by_cases h : k0 = k
    · simp [h]
    · simp only [h, if_false, List.map_cons]
      exact congrArg (List.cons _) ih

theorem modify_ofMasterBook (m : LOB.MasterBook) (k : Nat) (f : LOB.Order → LOB.Order)
    (g : Order → Order) (hfg : ∀ o, g (ofOrder o) = ofOrder (f o)) :
    Map.modify (ofMasterBook m) k g = ofMasterBook (Map.modify m k f) := by
  induction m with
  | nil => rfl
  | cons e rest ih =>
    obtain ⟨k0, o0⟩ := e
    simp only [ofMasterBook, List.map_cons, Map.modify]
    by_cases h : k0 = k
    · simp [h, hfg]
    · simp only [h, if_false, List.map_cons]
      exact congrArg (List.cons _) ih

theorem length_ofMasterBook (m : LOB.MasterBook) : (ofMasterBook m).length = m.length := by
  simp [ofMasterBook]

theorem book_ofOrderBook (b : LOB.OrderBook) (r : BookRef) :
    (ofOrderBook b).book r = ofBook (b.book r) := by
  cases r <;> rfl

theorem isEmpty_ofBook (bk : LOB.Book) : (ofBook bk).isEmpty = bk.isEmpty := by
  cases bk <;> rfl

theorem head_ofBook (bk : LOB.Book) :
    (ofBook bk).head? = bk.head?.map (fun e => (Dbl.num e.1, e.2)) := by
  cases bk <;> rfl

theorem remove_from_book_of (r : BookRef) (bk : LOB.Book) (o : LOB.Order) :
    (remove_from_book (comp r) (ofBook bk) (ofOrder o)).1 =
      ofBook (LOB.remove_from_book bk o).1 := by
  simp only [remove_from_book, LOB.remove_from_book, ofOrder, find_ofBook]
  cases hf : Map.find bk o.price with
  | none => rfl
  | some q =>
    by_cases he : (q.erase o.id).isEmpty = true
    · simp [he, erase_ofBook]
    · simp [he, modify_ofBook]

theorem remove_of (b : LOB.OrderBook) (id : Nat) :
    remove (ofOrderBook b) id = ((LOB.remove b id).1, ofOrderBook (LOB.remove b id).2) := by
  unfold remove LOB.remove
  have hm : (ofOrderBook b).masterbook = ofMasterBook b.masterbook := rfl
  rw [hm, find_ofMasterBook]
  cases ho : Map.find b.masterbook id with
  | none => rfl
  | some o =>
    simp only [Option.map_some']
    by_cases hv : o.is_valid = true
    · have hv' : (ofOrder o).is_valid = true := hv
      cases hs : o.is_buy with
      | false =>
        have hs' : (ofOrder o).is_buy = false := hs
        have h1 := remove_from_book_of .askbook b.askbook o
        simp only [comp] at h1
        simp only [hv, hv', hs, hs', Bool.not_true, Bool.false_eq_true, if_false]
        simp only [ofOrderBook, h1, erase_ofMasterBook]
      | true =>
        have hs' : (ofOrder o).is_buy = true := hs
        have h1 := remove_from_book_of .bidbook b.bidbook o
        simp only [comp] at h1
        simp only [hv, hv', hs, hs', Bool.not_true, Bool.false_eq_true, if_false, if_true]
        simp only [ofOrderBook, h1, erase_ofMasterBook]
    · have hv0 : o.is_valid = false := by simpa using hv
      have hv' : (ofOrder o).is_valid = false := hv0
      simp only [hv0, hv', Bool.not_false, if_true]
      simp only [ofOrderBook, erase_ofMasterBook]

theorem modify_volume_of (b : LOB.OrderBook) (id v : Nat) :
    modify_volume (ofOrderBook b) id v =
      ((LOB.modify_volume b id v).1, ofOrderBook (LOB.modify_volume b id v).2) := by
  unfold modify_volume LOB.modify_volume
  have hm : (ofOrderBook b).masterbook = ofMasterBook b.masterbook := rfl
  rw [hm, find_ofMasterBook]
  cases ho : Map.find b.masterbook id with
  | none => rfl
  | some o =>
    simp only [Option.map_some']
    by_cases hv : v = 0
    · simp only [hv, if_true]
      exact remove_of b id
    · simp only [hv, if_false]
      simp only [ofOrderBook]
      rw [modify_ofMasterBook _ _ (fun o => { o with volume := v }) _ (fun o => rfl)]

theorem with_masterbook_of (b : LOB.OrderBook) (m : LOB.MasterBook) :
    ({ ofOrderBook b with masterbook := ofMasterBook m } : OrderBook) =
      ofOrderBook { b with masterbook := m } := rfl

theorem match_level_of (r : BookRef) (p : Int) :
    ∀ (fuel : Nat) (b : LOB.OrderBook) (v : Nat),
      match_level r (.num p) fuel (ofOrderBook b) v = ofLevelRes (LOB.match_level r p fuel b v) := by
  intro fuel
  induction fuel with
  | zero => intro b v; rfl
  | succ fuel ih =>
    intro b v
    unfold match_level LOB.match_level
    have hm : (ofOrderBook b).masterbook = ofMasterBook b.masterbook := rfl
    rw [book_ofOrderBook, find_ofBook]
    cases hf : Map.find (b.book r) p with
    | none => rfl
    | some q =>
      simp only
      by_cases hc : v > 0 ∧ ¬ q.isEmpty = true
      · simp only [hc, and_self, not_false_eq_true, if_true]
        cases hh : q.head? with
        | none => rfl
        | some front =>
          simp only [hm, find_ofMasterBook]
          cases ho : Map.find b.masterbook front with
          | none => rfl
          | some o =>
            simp only [Option.map_some']
            have hvol : (ofOrder o).volume = o.volume := rfl
            have hid : (ofOrder o).id = o.id := rfl
            by_cases hle : o.volume ≤ v
            · simp only [hvol, hid, hle, if_true, remove_of]
              by_cases hq : q.length = 1
              · simp [hq, ofLevelRes]
              · simp only [hq, decide_False, Bool.false_eq_true, if_false]
                exact ih _ _
            · simp only [hvol, hle, if_false]
              rw [modify_ofMasterBook _ _ (fun x => { x with volume := x.volume - v }) _
                (fun o => rfl)]
              rfl
      · simp only [hc, if_false]
        rfl

theorem market_consume_level_of (r : BookRef) (p : Int) :
    ∀ (fuel : Nat) (b : LOB.OrderBook) (v : Nat),
      market_consume_level r (.num p) fuel (ofOrderBook b) v =
        ofLevelRes (LOB.market_consume_level r p fuel b v) := by
  intro fuel
  induction fuel with
  | zero => intro b v; rfl
  | succ fuel ih =>
    intro b v
    unfold market_consume_level LOB.market_consume_level
    have hm : (ofOrderBook b).masterbook = ofMasterBook b.masterbook := rfl
    rw [book_ofOrderBook, find_ofBook]
    cases hf : Map.find (b.book r) p with
    | none => rfl
    | some q =>
      simp only
      by_cases hc : v > 0
      · simp only [hc, if_true]
        cases hh : q.head? with
        | none => rfl
        | some front =>
          simp only [hm, find_ofMasterBook]
          cases ho : Map.find b.masterbook front with
          | none => rfl
          | some o =>
            simp only [Option.map_some']
            have hvol : (ofOrder o).volume = o.volume := rfl
            have hid : (ofOrder o).id = o.id := rfl
            by_cases hle : o.volume ≤ v
            · simp only [hvol, hid, hle, if_true, remove_of]
              by_cases hq : q.length = 1
              · simp [hq, ofLevelRes]
              · simp only [hq, decide_False, Bool.false_eq_true, if_false]
                exact ih _ _
            · simp only [hvol, hle, if_false]
              rw [modify_ofMasterBook _ _ (fun x => { x with volume := x.volume - v }) _
                (fun o => rfl)]
              rfl
      · simp only [hc, if_false]
        rfl

theorem match_loop_of (r : BookRef) (P mult : Int) :
    ∀ (fuel : Nat) (b : LOB.OrderBook) (v : Nat),
      match_loop r (.num P) mult fuel (ofOrderBook b) v =
        ofRes (LOB.match_loop r P mult fuel b v) := by
  intro fuel
  induction fuel with
  | zero => intro b v; rfl
  | succ fuel ih =>
    intro b v
    unfold match_loop LOB.match_loop
    rw [book_ofOrderBook, isEmpty_ofBook, head_ofBook]
    by_cases hc : v > 0 ∧ ¬ (b.book r).isEmpty = true
    · simp only [hc, and_self, not_false_eq_true, if_true]
      cases hh : (b.book r).head? with
      | none => rfl
      | some e =>
        obtain ⟨p, q⟩ := e
        simp only [Option.map_some', Dbl.mul, Dbl.le, decide_eq_true_eq]
        by_cases hx : p * mult ≤ P * mult
        · simp only [hx, not_true_eq_false, if_false]
          rw [match_level_of]
          cases hl : LOB.match_level r p (fuel + 1) b v with
          | fault f => rfl
          | ok x =>
            obtain ⟨t, v', b'⟩ := x
            cases t with
            | true => rfl
            | false =>
              simp only [ofLevelRes]
              exact ih _ _
        · simp only [hx, not_false_eq_true, if_true]
          rfl
    · simp only [hc, if_false]
      rfl

theorem market_consume_loop_of (r : BookRef) :
    ∀ (fuel : Nat) (b : LOB.OrderBook) (v : Nat),
      market_consume_loop r fuel (ofOrderBook b) v =
        ofRes (LOB.market_consume_loop r fuel b v) := by
  intro fuel
  induction fuel with
  | zero => intro b v; rfl
  | succ fuel ih =>
    intro b v
    unfold market_consume_loop LOB.market_consume_loop
    rw [book_ofOrderBook, isEmpty_ofBook, head_ofBook]
    by_cases hc : v > 0 ∧ ¬ (b.book r).isEmpty = true
    · simp only [hc, and_self, not_false_eq_true, if_true]
      cases hh : (b.book r).head? with
      | none => rfl
      | some e =>
        obtain ⟨p, q⟩ := e
        simp only [Option.map_some']
        rw [market_consume_level_of]
        cases hl : LOB.market_consume_level r p (fuel + 1) b v with
        | fault f => rfl
        | ok x =>
          obtain ⟨t, v', b'⟩ := x
          cases t with
          | true => rfl
          | false =>
            simp only [ofLevelRes]
            exact ih _ _
    · simp only [hc, if_false]
      rfl

theorem match'_of (b : LOB.OrderBook) (r : BookRef) (P : Int) (v : Nat) (s : Bool) :
    match' (ofOrderBook b) r (.num P) v s = ofRes (LOB.match' b r P v s) := by
  unfold match' LOB.match'
  rw [book_ofOrderBook, isEmpty_ofBook]
  by_cases he : (b.book r).isEmpty = true
  · simp only [he, if_true]
    rfl
  · simp only [he, Bool.false_eq_true, if_false]
    have hm : (ofOrderBook b).masterbook.length = b.masterbook.length :=
      length_ofMasterBook b.masterbook
    rw [hm]
    exact match_loop_of r P _ _ b v

theorem market_consume_of (b : LOB.OrderBook) (r : BookRef) (v : Nat) :
    market_consume (ofOrderBook b) r v = ofRes (LOB.market_consume b r v) := by
  unfold market_consume LOB.market_consume
  have hm : (ofOrderBook b).masterbook.length = b.masterbook.length :=
    length_ofMasterBook b.masterbook
  rw [hm]
  exact market_consume_loop_of r _ b v

theorem market_order_of (b : LOB.OrderBook) (s : Bool) (v : Nat) :
    market_order (ofOrderBook b) s v = ofRes (LOB.market_order b s v) := by
  unfold market_order LOB.market_order
  by_cases hv : v = 0
  · simp only [hv, if_true]
    rfl
  · simp only [hv, if_false]
    cases s
    · simp only [Bool.false_eq_true, if_false]
      exact market_consume_of b .bidbook v
    · simp only [if_true]
      exact market_consume_of b .askbook v

end IEEE

namespace IEEE

theorem ofMasterBook_append (m : LOB.MasterBook) (k : Nat) (o : LOB.Order) :
    ofMasterBook m ++ [(k, ofOrder o)] = ofMasterBook (m ++ [(k, o)]) := by
  simp [ofMasterBook]

theorem ctor_of (id : Nat) (P : Int) (V : Nat) (s : Bool) :
    Order.ctor id (.num P) V s =
      match LOB.Order.ctor id P V s with
      | .ok o => .ok (ofOrder o)
      | .fault f => .fault f := by
  unfold Order.ctor LOB.Order.ctor
  by_cases hP : P ≤ 0
  · simp [Dbl.le, hP]
  · by_cases hV : V ≤ 0
    · simp [Dbl.le, hP, hV]
    · simp [Dbl.le, hP, hV, ofOrder]

/-- The registration part of `add`, from `get_price_linked_list` to
`set_iterator`, in the two models. -/
theorem register_of (b1 : LOB.OrderBook) (P : Int) (o : LOB.Order) (g id : Nat) (rr : BookRef) :
    (let bI : OrderBook := { ofOrderBook b1 with id_generator := g, masterbook := ofMasterBook b1.masterbook ++ [(id, ofOrder o)] }
     let bk := get_price_linked_list (comp rr) (bI.book rr) (.num P)
     let ll := ((Book.find (comp rr) bk (.num P)).getD []) ++ [id]
     let b3 := bI.setBook rr (Book.modify (comp rr) bk (.num P) (fun _ => ll))
     ({ b3 with masterbook := Map.modify b3.masterbook id Order.set_iterator } : OrderBook)) =
    ofOrderBook
      (let bJ : LOB.OrderBook := { b1 with id_generator := g, masterbook := b1.masterbook ++ [(id, o)] }
       let bk := LOB.get_price_linked_list rr.comp (bJ.book rr) P
       let ll := ((Map.find bk P).getD []) ++ [id]
       let b3 := bJ.setBook rr (Map.modify bk P (fun _ => ll))
       { b3 with masterbook := Map.modify b3.masterbook id LOB.Order.set_iterator }) := by
  cases rr
  · simp only [OrderBook.book, OrderBook.setBook, LOB.OrderBook.book, LOB.OrderBook.setBook,
      get_price_linked_list, LOB.get_price_linked_list, ofOrderBook, ofMasterBook_append]
    rw [emplace_ofBook, find_ofBook, modify_ofBook,
      modify_ofMasterBook _ _ LOB.Order.set_iterator _ (fun o => rfl)]
  · simp only [OrderBook.book, OrderBook.setBook, LOB.OrderBook.book, LOB.OrderBook.setBook,
      get_price_linked_list, LOB.get_price_linked_list, ofOrderBook, ofMasterBook_append]
    rw [emplace_ofBook, find_ofBook, modify_ofBook,
      modify_ofMasterBook _ _ LOB.Order.set_iterator _ (fun o => rfl)]

theorem add_of (b : LOB.OrderBook) (P : Int) (V : Nat) (s : Bool) :
    add (ofOrderBook b) (.num P) V s = ofRes (LOB.add b P V s) := by
  unfold add LOB.add
  by_cases hP : P ≤ 0
  · simp only [Dbl.le, hP, decide_True, if_true]
    rfl
  · simp only [Dbl.le, hP, decide_False, Bool.false_eq_true, if_false]
    have hmatch : (if s = true then match' (ofOrderBook b) .askbook (.num P) V s
        else match' (ofOrderBook b) .bidbook (.num P) V s) =
        ofRes (if s = true then LOB.match' b .askbook P V s else LOB.match' b .bidbook P V s) := by
      cases s
      · simp only [Bool.false_eq_true, if_false]
        exact match'_of b .bidbook P V false
      · simp only [if_true]
        exact match'_of b .askbook P V true
    rw [hmatch]
    cases hm : (if s = true then LOB.match' b .askbook P V s else LOB.match' b .bidbook P V s) with
    | fault f => rfl
    | ok x =>
      obtain ⟨r, b1⟩ := x
      simp only [ofRes]
      by_cases hr : r = 0
      · simp only [hr, if_true]
      · simp only [hr, if_false]
        rw [ctor_of]
        have hV : ¬ r ≤ 0 := by omega
        have hc : LOB.Order.ctor b1.id_generator P r s =
            .ok ⟨b1.id_generator, P, r, s, false⟩ := by
          simp [LOB.Order.ctor, hP, hV]
        have hg : (ofOrderBook b1).id_generator = b1.id_generator := rfl
        have hmb : (ofOrderBook b1).masterbook = ofMasterBook b1.masterbook := rfl
        simp only [hg, hc, MasterBook.emplace, LOB.MasterBook.emplace, hmb, find_ofMasterBook]
        cases hf : Map.find b1.masterbook b1.id_generator with
        | some o => rfl
        | none =>
          simp only [Option.map_none', ofRes]
          have key := register_of b1 P ⟨b1.id_generator, P, r, s, false⟩
            ((b1.id_generator + 1) % 2 ^ 64) b1.id_generator (if s = true then .bidbook else .askbook)
          exact congrArg (fun x => Res.ok (b1.id_generator, x)) key

end IEEE

namespace IEEE

theorem ReachableNum.to_reachable {d : OrderBook} (h : ReachableNum d) : Reachable d := by
  induction h with
  | empty => exact Reachable.empty
  | add price_ volume_ is_buy_ _ hadd ih => exact Reachable.add _ volume_ is_buy_ ih hadd
  | remove id _ ih => exact Reachable.remove id ih
  | modify_volume id v _ ih => exact Reachable.modify_volume id v ih
  | market_order s v _ hmo ih => exact Reachable.market_order s v ih hmo

/-- Every state of the model with `Int` prices that is reachable there is,
read with `double` prices, reachable by calls without NaN. -/
theorem reachableNum_of {b : LOB.OrderBook} (h : LOB.Reachable b) :
    ReachableNum (ofOrderBook b) := by
  induction h with
  | empty => exact ReachableNum.empty
  | @add b b' ret P V s _ hadd ih =>
    have h1 : add (ofOrderBook b) (.num P) V s = .ok (ret, ofOrderBook b') := by
      rw [add_of, hadd]
      rfl
    exact ReachableNum.add P V s ih h1
  | @remove b id _ ih =>
    have h1 := ReachableNum.remove id ih
    rw [remove_of] at h1
    exact h1
  | @modify_volume b id v _ ih =>
    have h1 := ReachableNum.modify_volume id v ih
    rw [modify_volume_of] at h1
    exact h1
  | @market_order b b' ret s V _ hmo ih =>
    have h1 : market_order (ofOrderBook b) s V = .ok (ret, ofOrderBook b') := by
      rw [market_order_of, hmo]
      rfl
    exact ReachableNum.market_order s V ih h1

/-- Every state reachable by calls without NaN is a reachable state of the
model with `Int` prices, read with `double` prices. -/
theorem reachableNum_exists {d : OrderBook} (h : ReachableNum d) :
    ∃ b, LOB.Reachable b ∧ d = ofOrderBook b := by
  induction h with
  | empty => exact ⟨LOB.OrderBook.empty, LOB.Reachable.empty, rfl⟩
  | @add d d' ret P V s _ hadd ih =>
    obtain ⟨b, hb, rfl⟩ := ih
    rw [add_of] at hadd
    cases hx : LOB.add b P V s with
    | fault f =>
      rw [hx] at hadd
      cases hadd
    | ok x =>
      obtain ⟨r, b'⟩ := x
      rw [hx] at hadd
      simp only [ofRes, Res.ok.injEq, Prod.mk.injEq] at hadd
      exact ⟨b', LOB.Reachable.add P V s hb hx, hadd.2.symm⟩
  | @remove d id _ ih =>
    obtain ⟨b, hb, rfl⟩ := ih
    exact ⟨(LOB.remove b id).2, LOB.Reachable.remove id hb, by rw [remove_of]⟩
  | @modify_volume d id v _ ih =>
    obtain ⟨b, hb, rfl⟩ := ih
    exact ⟨(LOB.modify_volume b id v).2, LOB.Reachable.modify_volume id v hb,
      by rw [modify_volume_of]⟩
  | @market_order d d' ret s V _ hmo ih =>
    obtain ⟨b, hb, rfl⟩ := ih
    rw [market_order_of] at hmo
    cases hx : LOB.market_order b s V with
    | fault f =>
      rw [hx] at hmo
      cases hmo
    | ok x =>
      obtain ⟨r, b'⟩ := x
      rw [hx] at hmo
      simp only [ofRes, Res.ok.injEq, Prod.mk.injEq] at hmo
      exact ⟨b', LOB.Reachable.market_order s V hb hx, hmo.2.symm⟩

/-- The states reachable with `double` prices by calls without NaN are
exactly the reachable states of the model with `Int` prices. -/
theorem reachableNum_iff (d : OrderBook) :
    ReachableNum d ↔ ∃ b, LOB.Reachable b ∧ d = ofOrderBook b :=
  ⟨reachableNum_exists, fun ⟨_, hb, hd⟩ => hd ▸ reachableNum_of hb⟩

/-! ### NaN passes the two price guards -/

theorem reachable_exNanAsk50 : Reachable exNanAsk50 :=
  @Reachable.add exNanAsk exNanAsk50 2 (.num 50) 5 false
    (@Reachable.add OrderBook.empty exNanAsk 1 .nan 5 false Reachable.empty (by decide))
    (by decide)

theorem reachable_exNanBidAsk100 : Reachable exNanBidAsk100 :=
  @Reachable.add exNanBid exNanBidAsk100 2 (.num 100) 5 false
    (@Reachable.add OrderBook.empty exNanBid 1 .nan 5 true Reachable.empty (by decide))
    (by decide)

end IEEE

/-- C1 at a NaN price. The guard `price_<=0` of `add` and the check
`price <= 0.0` of the constructor of `Order` are both false for NaN. On the
empty book `add(NaN, 5, sell)` returns the id 1 and `add(50, 5, sell)` returns
the id 2; afterwards `masterbook` maps 2 to a sell order of price 50, while
`askbook` has the single key NaN with the queue `[1, 2]` and `bidbook` is
empty: the id 2 is in no queue keyed by its own price. -/
theorem C1_nan_breaks_index_book_consistency :
    IEEE.Dbl.le .nan (.num 0) = false ∧
    IEEE.Order.ctor 1 .nan 5 false = .ok ⟨1, .nan, 5, false, false⟩ ∧
    IEEE.add IEEE.OrderBook.empty .nan 5 false = .ok (1, IEEE.exNanAsk) ∧
    IEEE.add IEEE.exNanAsk (.num 50) 5 false = .ok (2, IEEE.exNanAsk50) ∧
    IEEE.Reachable IEEE.exNanAsk50 ∧
    Map.find IEEE.exNanAsk50.masterbook 2 = some ⟨2, .num 50, 5, false, true⟩ ∧
    IEEE.exNanAsk50.askbook = [(.nan, [1, 2])] ∧
    IEEE.exNanAsk50.askbook.map Prod.fst = [.nan] ∧
    IEEE.exNanAsk50.bidbook = [] :=
  ⟨by decide, by decide, by decide, by decide, IEEE.reachable_exNanAsk50, by decide, rfl, rfl,
    rfl⟩

/-- C3 at a NaN price. In the state reached by `add(NaN, 5, sell)` and
`add(50, 5, sell)` the ask of price 50 rests behind the key NaN. There
`add(60, 3, buy)` leaves `match` at its acceptance test, which is false for the
best key NaN, with the whole volume 3 as residual; `add` registers the buy and
returns the non-zero id 3, while the ask of price `50 <= 60` still rests with
its volume 5. -/
theorem C3_nan_level_blocks_crossing :
    IEEE.Reachable IEEE.exNanAsk50 ∧
    IEEE.match' IEEE.exNanAsk50 .askbook (.num 60) 3 true = .ok (3, IEEE.exNanAsk50) ∧
    IEEE.add IEEE.exNanAsk50 (.num 60) 3 true = .ok (3, IEEE.exNanAsk50Bid60) ∧
    Map.find IEEE.exNanAsk50Bid60.masterbook 2 = some ⟨2, .num 50, 5, false, true⟩ ∧
    IEEE.Dbl.le (.num 50) (.num 60) = true ∧
    IEEE.exNanAsk50Bid60.askbook = [(.nan, [1, 2])] ∧
    IEEE.exNanAsk50Bid60.bidbook = [(.num 60, [3])] :=
  ⟨IEEE.reachable_exNanAsk50, by decide, by decide, by decide, by decide, rfl, rfl⟩

/-- C18 at a NaN price. On the empty book `add(NaN, 5, buy)` returns the id
1 and `add(100, 5, sell)`, which `match` leaves at its acceptance test,
returns the id 2. Afterwards both books are non-empty, the best bid key is NaN
and the best ask key is 100, and `NaN < 100` is false: the best bid is not
strictly below the best ask. -/
theorem C18_nan_bid_is_not_below_ask :
    IEEE.add IEEE.OrderBook.empty .nan 5 true = .ok (1, IEEE.exNanBid) ∧
    IEEE.add IEEE.exNanBid (.num 100) 5 false = .ok (2, IEEE.exNanBidAsk100) ∧
    IEEE.Reachable IEEE.exNanBidAsk100 ∧
    IEEE.exNanBidAsk100.bidbook.head? = some (.nan, [1]) ∧
    IEEE.exNanBidAsk100.askbook.head? = some (.num 100, [2]) ∧
    IEEE.Dbl.lt .nan (.num 100) = false :=
  ⟨by decide, by decide, IEEE.reachable_exNanBidAsk100, rfl, rfl, by decide⟩

/-! ## The priority list is in price-time order -/

/-- The scenario "partial fill preserves priority": after `add(100, 10, sell)`
with id 1, `add(100, 5, buy)` leaves the order 1 with volume 5 at the front of
the queue of price 100, and `add(100, 3, buy)` then leaves it with volume 2. -/
theorem partial_fill_scenario :
    add OrderBook.empty 100 10 false = .ok (1, exAsk10) ∧
    add exAsk10 100 5 true =
      .ok (0, ⟨2, [(1, ⟨1, 100, 5, false, true⟩)], [(100, [1])], []⟩) ∧
    add ⟨2, [(1, ⟨1, 100, 5, false, true⟩)], [(100, [1])], []⟩ 100 3 true =
      .ok (0, ⟨2, [(1, ⟨1, 100, 2, false, true⟩)], [(100, [1])], []⟩) := by
  decide

/-- C4 (amended). Volume conservation. In every state of a run from the empty
book, for `add(P, V, side)` with `P > 0`, with `r` the residual returned by
`match` and `T`, `T'` the total resting volume of the opposite side before and
after the call: `V - r = T - T'` (and `r <= V`, `T' <= T`); a non-zero return
value is the key of an order of volume `r`; `r = 0` makes `add` return 0; and
while fewer than `2^64 - 1` resting orders have been created, `r` is 0 when
`add` returns 0. The same equation holds for `market_order(is_buy, V)` with
`r` its return value. -/
theorem C4_volume_conservation {n : Nat} {rets : List Nat} {b : OrderBook}
    (h : Run n rets b) :
    (∀ (P : Int) (V : Nat) (s : Bool), 0 < P →
      ∃ r b1 ret b', match' b (BookRef.against s) P V s = .ok (r, b1) ∧
        add b P V s = .ok (ret, b') ∧
        r ≤ V ∧
        totalVolume (b'.resting (BookRef.against s)) ≤
          totalVolume (b.resting (BookRef.against s)) ∧
        V - r = totalVolume (b.resting (BookRef.against s)) -
          totalVolume (b'.resting (BookRef.against s)) ∧
        (ret ≠ 0 → ∃ o, Map.find b'.masterbook ret = some o ∧ o.volume = r) ∧
        (r = 0 → ret = 0) ∧
        (n < 2 ^ 64 - 1 → ret = 0 → r = 0)) ∧
    (∀ (s : Bool) (V : Nat),
      ∃ r b', market_order b s V = .ok (r, b') ∧
        r ≤ V ∧
        totalVolume (b'.resting (BookRef.against s)) ≤
          totalVolume (b.resting (BookRef.against s)) ∧
        V - r = totalVolume (b.resting (BookRef.against s)) -
          totalVolume (b'.resting (BookRef.against s))) := by
  have hreach := h.reachable
  have hwf := hreach.wf
  obtain ⟨hadd, hmarket⟩ := volume_balance_of_reachable hreach
  refine ⟨fun P V s hP => ?_, hmarket⟩
  obtain ⟨r, b1, ret, b', hm, hrun, c1, c2, c3, c4, c5⟩ := hadd P V s hP
  refine ⟨r, b1, ret, b', hm, hrun, c1, c2, c3, c4, c5, fun hn hret => ?_⟩
  obtain ⟨b1', ret', b'', hm', -, hfr, -, hrun', -, -, -, hcase⟩ := add_spec hwf P V s hP
  rw [hm] at hm'
  rw [hrun] at hrun'
  simp only [Res.ok.injEq, Prod.mk.injEq] at hm' hrun'
  obtain ⟨hr, hb1⟩ := hm'
  obtain ⟨hret', -⟩ := hrun'
  obtain ⟨-, i2, -⟩ := h.inv (by omega)
  have hfresh := h.fresh (by omega)
  rcases hcase with ⟨h0, -⟩ | ⟨-, hf, -⟩ | ⟨-, -, hg, -⟩
  · rw [hr]
    exact h0
  · exfalso
    apply hf
    rw [hfr.id_generator]
    exact hfr.index _ hfresh
  · exfalso
    rw [hfr.id_generator, i2] at hg
    have : (n + 1) % 2 ^ 64 = n + 1 := Nat.mod_eq_of_lt (by omega)
    omega

theorem C4_volume_conservation_witness :
    Run 2 [1, 2] exAsks ∧ (0 : Int) < 101 ∧
      ∃ r b1 ret b', match' exAsks (BookRef.against true) 101 8 true = .ok (r, b1) ∧
        add exAsks 101 8 true = .ok (ret, b') ∧
        r ≤ 8 ∧
        totalVolume (b'.resting (BookRef.against true)) ≤
          totalVolume (exAsks.resting (BookRef.against true)) ∧
        8 - r = totalVolume (exAsks.resting (BookRef.against true)) -
          totalVolume (b'.resting (BookRef.against true)) ∧
        (ret ≠ 0 → ∃ o, Map.find b'.masterbook ret = some o ∧ o.volume = r) ∧
        (r = 0 → ret = 0) ∧
        (2 < 2 ^ 64 - 1 → ret = 0 → r = 0) :=
  ⟨run_exAsks, by decide, (C4_volume_conservation run_exAsks).1 101 8 true (by decide)⟩

/-- C4 as stated fails: in the reachable state with `id_generator = 1` and a
bid under the key 1, `add(1, 1, buy)` returns 0 although the residual returned
by `match` is 1, not 0; no order is added to `masterbook`. -/
theorem C4_counterexample :
    Reachable (exOneBid 1 1) ∧
      match' (exOneBid 1 1) (BookRef.against true) 1 1 true = .ok (1, exOneBid 1 1) ∧
      add (exOneBid 1 1) 1 1 true = .ok (0, exOneBid 1 2) ∧
      (exOneBid 1 2).masterbook = (exOneBid 1 1).masterbook ∧
      totalVolume ((exOneBid 1 1).resting (BookRef.against true)) = 0 ∧
      totalVolume ((exOneBid 1 2).resting (BookRef.against true)) = 0 :=
  ⟨reachable_exCollide, by decide, by decide, rfl, by decide, by decide⟩

end LOB
